import Mathlib

/-!
# Verification of the retronews HTML-to-text renderer

A shallow embedding, in Lean 4, of the rendering pipeline of `retronews.py`:
sanitizer, tree builder, inline flattener, text normalizer and block renderer.
Pure functions of the source are translated to Lean functions over `List Char`;
the mutable pointer tree is modelled twice: as a rose tree built by a stack
parser (used by the rendering pipeline; the Python parser's `current_node` plus
parent pointers is exactly a zipper, i.e. a stack of open frames), and as an
index-addressed arena mirroring the `parent` / `prev_sibling` / `next_sibling` /
`first_child` / `last_child` fields verbatim (used for the link invariants).
Code that can fail (Python `textwrap.wrap` raises `ValueError` for width <= 0)
returns `Option`.

The streaming tokenizer (`html.parser.HTMLParser`, Python standard library) and
the greedy wrapper (`textwrap.wrap`) are external to the repository; they are
modelled from the spec where marked.
-/

namespace Retronews

set_option maxRecDepth 100000
set_option maxHeartbeats 2000000

abbrev Chars := List Char

/-- Characters of the Python strip set `"\r\n\t "` used by
`html_node_trim_whitespace`. -/
def isStripChar (c : Char) : Bool :=
  c = '\r' ∨ c = '\n' ∨ c = '\t' ∨ c = ' '

/-- ASCII whitespace as stripped by Python's argumentless `str.rstrip()` and
replaced by `textwrap`'s whitespace munging. -/
def isPyWs (c : Char) : Bool :=
  c = ' ' ∨ c = '\t' ∨ c = '\n' ∨ c = '\r' ∨ c = '\x0b' ∨ c = '\x0c'

/-- Python `str.rstrip` restricted to a character class. -/
def rstripSet (p : Char → Bool) (l : Chars) : Chars :=
  (l.reverse.dropWhile p).reverse

/-- Python `str.lstrip` restricted to a character class. -/
def lstripSet (p : Char → Bool) (l : Chars) : Chars :=
  l.dropWhile p

/-- Python `str.strip` restricted to a character class. -/
def stripSet (p : Char → Bool) (l : Chars) : Chars :=
  rstripSet p (lstripSet p l)

/-- Python `str.split(sep)` for a single-character separator: splits at every
occurrence, keeping empty pieces. -/
def splitChar (sep : Char) : Chars → List Chars
  | [] => [[]]
  | c :: rest =>
    match splitChar sep rest with
    | [] => [[c]]
    | g :: gs => if c = sep then [] :: g :: gs else (c :: g) :: gs

/-- Python `sep.join(parts)` for a single-character separator. -/
def joinChar (sep : Char) : List Chars → Chars
  | [] => []
  | [g] => g
  | g :: gs => g ++ sep :: joinChar sep gs

/-- Python `s.startswith(p)`. -/
def startsWithL (l p : Chars) : Bool :=
  l.take p.length == p

/-- Python `s.endswith(p)`. -/
def endsWithL (l p : Chars) : Bool :=
  p.length ≤ l.length ∧ l.drop (l.length - p.length) == p

/-- Unicode general category Cc (control characters): U+0000–U+001F and
U+007F–U+009F.  This is what `unicodedata.category(c) == "Cc"` tests. -/
def isCc (c : Char) : Bool :=
  c.toNat < 0x20 ∨ (0x7f ≤ c.toNat ∧ c.toNat ≤ 0x9f)

/-- `text_sanitize`: keep `\n` and `\t`, drop every other control character
(`c in allowed_cc or unicodedata.category(c) != "Cc"`). -/
def text_sanitize (l : Chars) : Chars :=
  l.filter fun c => c = '\n' ∨ c = '\t' ∨ ¬ isCc c

/-- The greedy maximal match of `QUOTE_REX = ^(> ?)+`: repetitions of `>`
optionally followed by one space.  Returns `[]` when there is no match,
matching `text_wrap`'s `indent = ""` default. -/
def quoteReps : Chars → Chars
  | '>' :: ' ' :: rest => '>' :: ' ' :: quoteReps rest
  | '>' :: rest => '>' :: quoteReps rest
  | _ => []

def isDigitChar (c : Char) : Bool := '0' ≤ c ∧ c ≤ '9'

/-- The `https?://[^ ]*$` tail of `REFERENCE_REX`. -/
def refUrlMatch : Chars → Bool
  | 'h' :: 't' :: 't' :: 'p' :: rest =>
    let rest' := match rest with
      | 's' :: r => r
      | r => r
    match rest' with
    | ':' :: '/' :: '/' :: tail => tail.all fun c => c ≠ ' '
    | _ => false
  | _ => false

/-- `REFERENCE_REX = ^\[\d+\][ :-]*https?://[^ ]*$`: a numbered reference
followed by a bare URL, anchored at both ends. -/
def refMatch (l : Chars) : Bool :=
  match l with
  | '[' :: rest =>
    let ds := rest.takeWhile isDigitChar
    let rest1 := rest.dropWhile isDigitChar
    if ds.isEmpty then false
    else
      match rest1 with
      | ']' :: rest2 => refUrlMatch (rest2.dropWhile fun c => c = ' ' ∨ c = ':' ∨ c = '-')
      | _ => false
  | _ => false

/-! ## Greedy wrapping

Modelled from the spec: the paragraph wrapper delegates to Python
`textwrap.wrap(text, width, subsequent_indent=indent, break_on_hyphens=False,
break_long_words=False)` — "greedy-wrap the text to the given width without
breaking on hyphens and without force-breaking overlong words, re-applying the
detected quote prefix as the indent for every wrapped continuation line".
`textwrap` is standard-library code, external to the repository. -/

/-- Python `str.expandtabs()` with tab size 8 (performed by `textwrap`'s
whitespace munging before wrapping). -/
def expandTabsGo : Chars → Nat → Chars
  | [], _ => []
  | c :: rest, col =>
    if c = '\t' then
      List.replicate (8 - col % 8) ' ' ++ expandTabsGo rest (col + (8 - col % 8))
    else if c = '\n' ∨ c = '\r' then c :: expandTabsGo rest 0
    else c :: expandTabsGo rest (col + 1)

def expandTabs (l : Chars) : Chars := expandTabsGo l 0

/-- Split text into maximal chunks of spaces / non-spaces, the shape
`textwrap`'s simple word-separation regex `(\s+)` produces after whitespace
replacement. -/
def toChunks : Chars → List Chars
  | [] => []
  | c :: rest =>
    match toChunks rest with
    | [] => [[c]]
    | [] :: gs => [c] :: [] :: gs
    | (d :: ds) :: gs =>
      if (c = ' ') = (d = ' ') then (c :: d :: ds) :: gs
      else [c] :: (d :: ds) :: gs

def isSpaceChunk : Chars → Bool
  | ' ' :: _ => true
  | _ => false

/-- Greedily take further chunks onto the current line while they fit. -/
def takeLine (w : Nat) : List Chars → Nat → List Chars × List Chars
  | [], _ => ([], [])
  | c :: cs, cur =>
    if cur + c.length ≤ w then
      match takeLine w cs (cur + c.length) with
      | (a, b) => (c :: a, b)
    else ([], c :: cs)

/-- Chunks for one output line: greedy fill; a first chunk longer than the
width is placed alone and kept whole (`break_long_words=False`). -/
def lineSplit (w : Nat) : List Chars → List Chars × List Chars
  | [] => ([], [])
  | c :: cs =>
    if c.length ≤ w then
      match takeLine w cs c.length with
      | (a, b) => (c :: a, b)
    else ([c], cs)

/-- Drop a trailing whitespace chunk from the line (`drop_whitespace=True`). -/
def dropTrailingSpaceChunk (l : List Chars) : List Chars :=
  match l.getLast? with
  | some c => if isSpaceChunk c then l.dropLast else l
  | none => l

theorem takeLine_snd_length_le (w : Nat) :
    ∀ (l : List Chars) (cur : Nat), (takeLine w l cur).2.length ≤ l.length := by
  intro l
  induction l with
  | nil => intro cur; simp [takeLine]
  | cons c cs ih =>
    intro cur
    simp only [takeLine]
    split
    · have := ih (cur + c.length)
      cases h : takeLine w cs (cur + c.length) with
      | mk a b =>
        simp only [h] at this ⊢
        simp only [List.length_cons]
        omega
    · simp

theorem lineSplit_snd_length_lt (w : Nat) (c : Chars) (cs : List Chars) :
    (lineSplit w (c :: cs)).2.length < (c :: cs).length := by
  simp only [lineSplit]
  split
  · have := takeLine_snd_length_le w cs c.length
    cases h : takeLine w cs c.length with
    | mk a b =>
      simp only [h] at this ⊢
      simp only [List.length_cons]
      omega
  · simp

/-- One iteration of the line-building loop: build a line out of the leading
chunks (`none` if it is all whitespace and thus not emitted), return the
remaining chunks. -/
def wrapOne (width : Nat) (ind : Chars) (d : Chars) (ds : List Chars) :
    Option Chars × List Chars :=
  match lineSplit (width - ind.length) (d :: ds) with
  | (line, rest) =>
    let line' := dropTrailingSpaceChunk line
    (if line'.isEmpty then none else some (ind ++ line'.flatten), rest)

theorem wrapOne_snd_length_lt (width : Nat) (ind : Chars) (d : Chars) (ds : List Chars) :
    (wrapOne width ind d ds).2.length < (d :: ds).length := by
  have := lineSplit_snd_length_lt (width - ind.length) d ds
  simp only [wrapOne]
  cases h : lineSplit (width - ind.length) (d :: ds) with
  | mk line rest => simp only [h] at this ⊢; exact this

/-- The greedy line-filling loop of `textwrap._wrap_chunks` specialised to
`initial_indent=""`, `drop_whitespace=True`, `break_long_words=False`,
`max_lines=None`.  `first` is true while no line has been emitted yet (the
loop drops a leading whitespace chunk and applies the subsequent indent only
once a line exists).  Fuel-driven (each iteration consumes at least one chunk,
so fuel `length + 1` is always sufficient). -/
def wrapLinesGo (width : Nat) (indent : Chars) : Nat → List Chars → Bool → List Chars
  | 0, _, _ => []
  | _, [], _ => []
  | fuel + 1, c :: cs, first =>
    match if ¬ first ∧ isSpaceChunk c then cs else c :: cs with
    | [] => []
    | d :: ds =>
      match wrapOne width (if first then [] else indent) d ds with
      | (none, rest) => wrapLinesGo width indent fuel rest first
      | (some line, rest) => line :: wrapLinesGo width indent fuel rest false

def wrapLines (width : Nat) (indent : Chars) (chunks : List Chars) : List Chars :=
  wrapLinesGo width indent (chunks.length + 1) chunks true

/-- Modelled from the spec: Python
`textwrap.wrap(text, width, subsequent_indent=indent, break_on_hyphens=False,
break_long_words=False)` for positive width. -/
def pyWrap (text : Chars) (width : Nat) (indent : Chars) : List Chars :=
  let t := expandTabs text
  let t := t.map fun c => if isPyWs c then ' ' else c
  wrapLines width indent (toChunks t)

/-- `text_wrap`: the paragraph wrapper.  Returns `none` exactly where the
Python code raises: `textwrap.wrap` raises `ValueError` when the width it is
handed is not positive. -/
def text_wrap (text : Chars) (width : Int) : Option Chars :=
  if text.length = 0 then some []
  else if startsWithL text [' ', ' '] then some text
  else if refMatch text then some text
  else
    let indent := quoteReps text
    if width ≤ 0 then none
    else some (joinChar '\n' ((pyWrap text width.toNat indent).map (rstripSet isPyWs)))

/-- `text_indent`: prefix the first line with `initial` and the remaining lines
with `recurring`, right-stripping every produced line. -/
def text_indent (text : Chars) (initial recurring : Chars) : Chars :=
  match splitChar '\n' text with
  | [] => []
  | l0 :: ls =>
    joinChar '\n' (rstripSet isPyWs (initial ++ l0) ::
      ls.map fun l => rstripSet isPyWs (recurring ++ l))

/-! ## Tokenizer

Modelled from the spec: "a permissive streaming HTML tokenizer" — the
`html.parser.HTMLParser` base class (Python standard library, external to the
repository) with `convert_charrefs=True`, restricted to the named character
references the spec's inputs use.  It lowercases tag and attribute names,
decodes character references in data and quoted attribute values, turns a `<`
that does not open a tag into literal data, and reports `<tag/>` as a start
event followed by an end event (`handle_startendtag`'s default).  Fuel-driven
so that every definition computes by kernel reduction; fuel `length + 1` is
always sufficient (each step consumes at least one character). -/

inductive HEvent where
  | startTag (tag : String) (attrs : List (String × Option Chars))
  | endTag (tag : String)
  | data (s : Chars)
deriving DecidableEq, Repr

def squote : Char := Char.ofNat 39

def lowerChar (c : Char) : Char :=
  if 'A' ≤ c ∧ c ≤ 'Z' then Char.ofNat (c.toNat + 32) else c

def toLowerStr (l : Chars) : String := String.mk (l.map lowerChar)

def isAlphaChar (c : Char) : Bool :=
  ('a' ≤ c ∧ c ≤ 'z') ∨ ('A' ≤ c ∧ c ≤ 'Z')

/-- Characters allowed after the first in a tag name (`[-.a-zA-Z0-9:_]`). -/
def isNameChar (c : Char) : Bool :=
  isAlphaChar c ∨ ('0' ≤ c ∧ c ≤ '9') ∨ c = '-' ∨ c = '.' ∨ c = ':' ∨ c = '_'

/-- The named character references this model decodes. -/
def entityChar (n : Chars) : Option Char :=
  if n = ['g', 't'] then some '>'
  else if n = ['l', 't'] then some '<'
  else if n = ['a', 'm', 'p'] then some '&'
  else if n = ['q', 'u', 'o', 't'] then some '"'
  else if n = ['a', 'p', 'o', 's'] then some squote
  else if n = ['#', '3', '9'] then some squote
  else none

/-- Decode `&name;` references in character data; an `&` that does not start a
recognized reference stays literal. -/
def decodeDataGo : Nat → Chars → Chars
  | 0, l => l
  | _, [] => []
  | fuel + 1, c :: rest =>
    if c = '&' then
      match rest.dropWhile (fun x => x ≠ ';') with
      | ';' :: tail =>
        match entityChar (rest.takeWhile fun x => x ≠ ';') with
        | some ch => ch :: decodeDataGo fuel tail
        | none => '&' :: decodeDataGo fuel rest
      | _ => '&' :: decodeDataGo fuel rest
    else c :: decodeDataGo fuel rest

def decodeData (l : Chars) : Chars := decodeDataGo l.length l

/-- Drop everything up to and including the next `>`. -/
def skipPastGt (l : Chars) : Chars :=
  match l.dropWhile (· ≠ '>') with
  | _ :: r => r
  | [] => []

/-- Parse the attribute list of a start tag, ending at `>` (or `/>`, reported
as self-closing).  `none` when the tag never closes (incomplete at EOF). -/
def parseAttrsGo : Nat → Chars → List (String × Option Chars) →
    Option (List (String × Option Chars) × Chars × Bool)
  | 0, _, _ => none
  | _, [], _ => none
  | fuel + 1, '>' :: rest, acc => some (acc.reverse, rest, false)
  | fuel + 1, '/' :: '>' :: rest, acc => some (acc.reverse, rest, true)
  | fuel + 1, '/' :: rest, acc => parseAttrsGo fuel rest acc
  | fuel + 1, c :: rest, acc =>
    if isPyWs c then parseAttrsGo fuel rest acc
    else
      let name := (c :: rest).takeWhile fun x => ¬ isPyWs x ∧ x ≠ '/' ∧ x ≠ '>' ∧ x ≠ '='
      match (c :: rest).drop name.length with
      | '=' :: rest2 =>
        match rest2 with
        | '"' :: rest3 =>
          (match rest3.drop (rest3.takeWhile fun x => x ≠ '"').length with
           | '"' :: rest4 =>
             parseAttrsGo fuel rest4
               ((toLowerStr name, some (decodeData (rest3.takeWhile fun x => x ≠ '"'))) :: acc)
           | _ => none)
        | q :: rest3 =>
          if q = squote then
            match rest3.drop (rest3.takeWhile fun x => x ≠ squote).length with
            | _ :: rest4 =>
              parseAttrsGo fuel rest4
                ((toLowerStr name, some (decodeData (rest3.takeWhile fun x => x ≠ squote))) :: acc)
            | _ => none
          else
            let v := rest2.takeWhile fun x => ¬ isPyWs x ∧ x ≠ '>'
            parseAttrsGo fuel (rest2.drop v.length) ((toLowerStr name, some (decodeData v)) :: acc)
        | [] => none
      | rest1 => parseAttrsGo fuel rest1 ((toLowerStr name, none) :: acc)

/-- The tokenizer loop: emit events for the input's tags and data runs. -/
def tokenizeGo : Nat → Chars → List HEvent
  | 0, _ => []
  | _, [] => []
  | fuel + 1, '<' :: rest =>
    match rest with
    | '/' :: rest2 =>
      let name := rest2.takeWhile isNameChar
      if name.isEmpty then tokenizeGo fuel (skipPastGt rest2)
      else
        (match (rest2.drop name.length).dropWhile (· ≠ '>') with
         | _ :: rest3 => .endTag (toLowerStr name) :: tokenizeGo fuel rest3
         | [] => .data ['<'] :: tokenizeGo fuel rest)
    | '!' :: rest2 => tokenizeGo fuel (skipPastGt rest2)
    | c :: rest2 =>
      if isAlphaChar c then
        let name := c :: rest2.takeWhile isNameChar
        match parseAttrsGo rest2.length (rest2.drop (rest2.takeWhile isNameChar).length) [] with
        | some (attrs, rest3, selfClosing) =>
          if selfClosing then
            .startTag (toLowerStr name) attrs :: .endTag (toLowerStr name) ::
              tokenizeGo fuel rest3
          else .startTag (toLowerStr name) attrs :: tokenizeGo fuel rest3
        | none => .data ['<'] :: tokenizeGo fuel rest
      else .data ['<'] :: tokenizeGo fuel rest
    | [] => .data ['<'] :: tokenizeGo fuel []
  | fuel + 1, l =>
    let run := l.takeWhile fun c => c ≠ '<'
    .data (decodeData run) :: tokenizeGo fuel (l.drop run.length)

def tokenize (s : Chars) : List HEvent := tokenizeGo (s.length + 1) s

/-! ## The node tree and the tree builder

The Python tree is a mutable pointer structure; the pipeline only ever appends
a child to the current node, walks to a parent, or rewrites a node in place, so
the builder state is exactly a zipper: the current node's frame plus the stack
of its ancestors' frames (root at the bottom).  The finished tree is a rose
tree. -/

inductive HTree where
  | node (tag : String) (attrs : List (String × Option Chars)) (text : Chars)
      (pre : Bool) (children : List HTree)

def HTree.tag : HTree → String
  | .node t _ _ _ _ => t

def HTree.attrs : HTree → List (String × Option Chars)
  | .node _ a _ _ _ => a

def HTree.text : HTree → Chars
  | .node _ _ x _ _ => x

def HTree.pre : HTree → Bool
  | .node _ _ _ p _ => p

def HTree.children : HTree → List HTree
  | .node _ _ _ _ cs => cs

/-- `HTML_BLOCK_TAGS`. -/
def isBlockTag (t : String) : Bool :=
  t = "root" ∨ t = "p" ∨ t = "pre" ∨ t = "blockquote" ∨ t = "ul" ∨ t = "ol" ∨
    t = "li" ∨ t = "hr"

/-- `HTML_INLINE_TAGS`. -/
def isInlineTag (t : String) : Bool :=
  t = "code" ∨ t = "a" ∨ t = "em" ∨ t = "strong" ∨ t = "b" ∨ t = "br"

/-- `HTML_KNOWN_TAGS`. -/
def isKnownTag (t : String) : Bool := isBlockTag t ∨ isInlineTag t

/-- `HTML_AUTOCLOSE_TAGS`. -/
def isAutocloseTag (t : String) : Bool := t = "hr" ∨ t = "br"

/-- An open element: the fields of its eventual node plus the children
completed so far. -/
structure Frame where
  tag : String
  attrs : List (String × Option Chars)
  pre : Bool
  children : List HTree

def Frame.toTree (f : Frame) : HTree := .node f.tag f.attrs [] f.pre f.children

def Frame.addChild (f : Frame) (c : HTree) : Frame :=
  { f with children := f.children ++ [c] }

/-- The builder state: `HTMLParser`'s `current_node` (as an open frame), its
ancestors (nearest first, root last) and `pre_level`. -/
structure PState where
  cur : Frame
  parents : List Frame
  preLevel : Nat

def initState : PState := ⟨⟨"root", [], false, []⟩, [], 0⟩

/-- The close-tag walk of `HTMLParser.handle_endtag`: fold the current node
into its parent, stopping once the folded node carried the matching tag or the
root is reached (the root, having no parent, is never folded). -/
def closeWalk (tag : String) : Frame → List Frame → Frame × List Frame
  | cur, [] => (cur, [])
  | cur, p :: ps =>
    if cur.tag = tag then (p.addChild cur.toTree, ps)
    else closeWalk tag (p.addChild cur.toTree) ps

/-- `HTMLParser.handle_endtag`: unknown tags are ignored; `pre` decrements the
preformatted depth (clamped at 0, which is `Nat` subtraction); then the walk. -/
def handle_endtag (st : PState) (tag : String) : PState :=
  if ¬ isKnownTag tag then st
  else
    let pl := if tag = "pre" then st.preLevel - 1 else st.preLevel
    match closeWalk tag st.cur st.parents with
    | (c, ps) => ⟨c, ps, pl⟩

/-- `HTMLParser.handle_starttag`: first auto-close an `hr`/`br` current node,
ignore unknown tags, adjust the preformatted depth on `pre`, then open a child
of the current node and descend into it. -/
def handle_starttag (st : PState) (tag : String)
    (attrs : List (String × Option Chars)) : PState :=
  let st := if isAutocloseTag st.cur.tag then handle_endtag st st.cur.tag else st
  if ¬ isKnownTag tag then st
  else
    let pl := if tag = "pre" then st.preLevel + 1 else st.preLevel
    ⟨⟨tag, attrs, decide (0 < pl), []⟩, st.cur :: st.parents, pl⟩

/-- `HTMLParser.handle_data`: first auto-close an `hr`/`br` current node, then
append a `text` child carrying the raw data (without descending). -/
def handle_data (st : PState) (s : Chars) : PState :=
  let st := if isAutocloseTag st.cur.tag then handle_endtag st st.cur.tag else st
  { st with cur := st.cur.addChild (.node "text" [] s (decide (0 < st.preLevel)) []) }

def applyEvent (st : PState) : HEvent → PState
  | .startTag t attrs => handle_starttag st t attrs
  | .endTag t => handle_endtag st t
  | .data s => handle_data st s

def runEvents (evs : List HEvent) : PState := evs.foldl applyEvent initState

/-- Fold every still-open frame into its parent: in the pointer tree open
nodes are already attached, so the finished tree is the root with all open
frames folded in. -/
def finishStack : Frame → List Frame → Frame
  | cur, [] => cur
  | cur, p :: ps => finishStack (p.addChild cur.toTree) ps

/-- The tree built from an event stream (the `root_node` after `feed`). -/
def parseEvents (evs : List HEvent) : HTree :=
  (finishStack (runEvents evs).cur (runEvents evs).parents).toTree

/-! ## Inline flattener -/

/-- Python `attrs.get("href", "") or ""` on `dict(attrs)`: for a duplicated
attribute name the last occurrence wins, a missing or valueless attribute
gives the empty string. -/
def hrefOf (attrs : List (String × Option Chars)) : Chars :=
  match (attrs.reverse.find? fun p => p.1 = "href").map (·.2) with
  | some (some v) => v
  | _ => []

/-- The tag-specific rewrite `html_node_process_inline` applies to the
concatenated children text of a flattened node. -/
def inlineRewrite (tag : String) (attrs : List (String × Option Chars))
    (text : Chars) (pre : Bool) (ctext : Chars) : Chars :=
  if tag = "text" then text
  else if tag = "br" then ['\x00']
  else if tag = "em" ∨ tag = "i" then '/' :: ctext ++ ['/']
  else if tag = "strong" ∨ tag = "b" then '*' :: ctext ++ ['*']
  else if tag = "code" ∧ ¬ pre then '`' :: ctext ++ ['`']
  else if tag = "a" then
    let href := hrefOf attrs
    if endsWithL ctext ['.', '.', '.'] ∧ startsWithL href (ctext.take (ctext.length - 3)) then href
    else if ctext ≠ href then ctext ++ ' ' :: href
    else ctext
  else ctext

mutual

/-- `html_node_process_inline`: flatten every inline subtree into a single
text node; returns the rewritten node and the text it contributes to an
enclosing inline context (`""` for block nodes, which are left in place with
their children processed). -/
def html_node_process_inline (t : HTree) (inline : Bool) : HTree × Chars :=
  match t with
  | .node tag attrs text pre cs =>
    let inline' := if ¬ isBlockTag tag then true else inline
    match processInlineList cs inline' with
    | (cs', ctext) =>
      if ¬ inline' then (.node tag attrs text pre cs', [])
      else
        let newText := inlineRewrite tag attrs text pre ctext
        (.node "text" attrs newText pre [], newText)

def processInlineList (ts : List HTree) (inline : Bool) : List HTree × Chars :=
  match ts with
  | [] => ([], [])
  | t :: rest =>
    match html_node_process_inline t inline, processInlineList rest inline with
    | (t', s), (rest', s') => (t' :: rest', s ++ s')

end

/-! ## Text normalizer -/

/-- Merge step of `html_node_process_text`: concatenate adjacent text-node
siblings that share the preformatted flag (the right node survives, its text
prepended with the left's). -/
def mergeRunGo (acc : HTree) : List HTree → List HTree
  | [] => [acc]
  | b :: rest =>
    if b.tag = "text" ∧ acc.tag = "text" ∧ b.pre = acc.pre then
      mergeRunGo (.node b.tag b.attrs (acc.text ++ b.text) b.pre b.children) rest
    else acc :: mergeRunGo b rest

def mergeTextNodes : List HTree → List HTree
  | [] => []
  | a :: rest => mergeRunGo a rest

/-- Run-collapse of `re.sub(r"[\r\n\t ]+", " ", text)`: every maximal run of
`\r\n\t ` becomes one space. -/
def collapseWsGo (inRun : Bool) : Chars → Chars
  | [] => []
  | c :: rest =>
    if isStripChar c then
      if inRun then collapseWsGo true rest else ' ' :: collapseWsGo true rest
    else c :: collapseWsGo false rest

/-- `re.sub(r" *\n *", "\n", text)`: spaces around a newline are absorbed into
it.  `pending` counts spaces not yet emitted; `afterNl` is true while consuming
the run of spaces following a newline. -/
def csnGo : Nat → Bool → Chars → Chars
  | _, true, [] => []
  | n, false, [] => List.replicate n ' '
  | _, true, ' ' :: rest => csnGo 0 true rest
  | n, false, ' ' :: rest => csnGo (n + 1) false rest
  | _, _, '\n' :: rest => '\n' :: csnGo 0 true rest
  | n, afterNl, c :: rest =>
    if afterNl then c :: csnGo 0 false rest
    else List.replicate n ' ' ++ c :: csnGo 0 false rest

/-- `html_node_trim_whitespace` on a text node's text: preformatted text only
loses trailing `\r\n\t `; other text is stripped, whitespace-collapsed, has
the `\x00` sentinel turned into newlines, and spaces absorbed around
newlines. -/
def html_node_trim_whitespace (text : Chars) (pre : Bool) : Chars :=
  if pre then rstripSet isStripChar text
  else
    let t := stripSet isStripChar text
    let t := collapseWsGo false t
    let t := t.map fun c => if c = '\x00' then '\n' else c
    csnGo 0 false t

mutual

/-- `html_node_process_text`: post-order merge / trim / prune over each
node's child list. -/
def html_node_process_text (t : HTree) : HTree :=
  match t with
  | .node tag attrs text pre cs =>
    let cs := processTextList cs
    let cs := mergeTextNodes cs
    let cs := cs.map fun c =>
      if c.tag = "text" then
        .node c.tag c.attrs (html_node_trim_whitespace c.text c.pre) c.pre c.children
      else c
    let cs := cs.filter fun c => ¬ (c.tag = "text" ∧ c.text = [])
    .node tag attrs text pre cs

def processTextList (ts : List HTree) : List HTree :=
  match ts with
  | [] => []
  | t :: rest => html_node_process_text t :: processTextList rest

end

/-! ## Block renderer -/

/-- Wrap each logical line of a non-preformatted text node. -/
def wrapAll (ls : List Chars) (width : Int) : Option (List Chars) :=
  match ls with
  | [] => some []
  | l :: rest =>
    match text_wrap l width, wrapAll rest width with
    | some w, some ws => some (w :: ws)
    | _, _ => none

mutual

/-- `html_node_render_block`: render a block node at the given width.  `none`
exactly where the Python code raises (`text_wrap` handing a non-positive width
to `textwrap.wrap`). -/
def html_node_render_block (t : HTree) (width : Int) : Option Chars :=
  match t with
  | .node tag _ _ _ cs =>
    let width := if tag = "blockquote" ∨ tag = "li" ∨ tag = "pre" then width - 2 else width
    match renderParts cs width with
    | none => none
    | some parts =>
      let parts := if tag = "hr" then List.replicate width.toNat '-' :: parts else parts
      let text := joinChar '\n' parts
      some (if tag = "blockquote" then text_indent text ['>', ' '] ['>', ' ']
        else if tag = "pre" then text_indent text ['|', ' '] ['|', ' ']
        else if tag = "li" then text_indent text ['-', ' '] [' ', ' ']
        else text)

/-- The child loop of `html_node_render_block`: each child contributes a part
(preformatted text verbatim, other text split on newlines and wrapped, block
children rendered recursively); an empty part (a blank separator line) follows
every child that has a next sibling and is not an `li`. -/
def renderParts (ts : List HTree) (width : Int) : Option (List Chars) :=
  match ts with
  | [] => some []
  | c :: rest =>
    match (if c.tag = "text" ∧ c.pre then some c.text
           else if c.tag = "text" then
             match wrapAll (splitChar '\n' c.text) width with
             | some ls => some (joinChar '\n' ls)
             | none => none
           else html_node_render_block c width),
          renderParts rest width with
    | some part, some parts =>
      some (part :: (if ¬ rest.isEmpty ∧ c.tag ≠ "li" then [] :: parts else parts))
    | _, _ => none

end

/-- One child's contribution to `renderParts`, as a standalone function. -/
def renderOne (c : HTree) (width : Int) : Option Chars :=
  if c.tag = "text" ∧ c.pre then some c.text
  else if c.tag = "text" then
    match wrapAll (splitChar '\n' c.text) width with
    | some ls => some (joinChar '\n' ls)
    | none => none
  else html_node_render_block c width

/-! ## The full renderer -/

/-- The tree `html_render` builds and processes before block rendering:
sanitize, tokenize, build, flatten, normalize. -/
def renderTree (s : Chars) : HTree :=
  html_node_process_text
    (html_node_process_inline (parseEvents (tokenize (text_sanitize s))) false).1

/-- `html_render`: the complete pipeline at the default width 70. -/
def html_render (s : Chars) : Option Chars :=
  html_node_render_block (renderTree s) 70

/-- `html_render` on Lean strings. -/
def renderString (s : String) : Option String :=
  (html_render s.data).map fun l => String.mk l

/-! ## Auxiliary definitions used by the claim statements -/

mutual

/-- Height of a tree (a leaf has depth 1). -/
def depthT : HTree → Nat
  | .node _ _ _ _ cs => 1 + depthList cs

def depthList : List HTree → Nat
  | [] => 0
  | t :: ts => max (depthT t) (depthList ts)

end

/-- A chain of `n + 1` nested `blockquote` nodes around a text node, the tree
the builder produces for `"<blockquote>" * (n + 1) ++ "x"`. -/
def bqChain : Nat → HTree
  | 0 => .node "blockquote" [] [] false [.node "text" [] ['x'] false []]
  | n + 1 => .node "blockquote" [] [] false [bqChain n]

/-- The close-tag walk as claim C2 words it: walk up from the current node
until a node with the matching tag is found, and make **that node** the new
current node (leaving it open); only used to exhibit the divergence from the
code, whose walk closes the matched node as well. -/
def closeWalkClaimed (tag : String) : Frame → List Frame → Frame × List Frame
  | cur, [] => (cur, [])
  | cur, p :: ps =>
    if cur.tag = tag then (cur, p :: ps)
    else closeWalkClaimed tag (p.addChild cur.toTree) ps

/-- Index of the first element satisfying `p` (used to state where the
close-tag walk stops). -/
def firstIdx (p : α → Bool) : List α → Option Nat
  | [] => none
  | a :: l => if p a then some 0 else (firstIdx p l).map (· + 1)

/-- The child-separation rule as amended for claim C4: consecutive rendered
children are joined by one blank line (`"\n\n"` in the joined string), except
that no blank line follows an `li` child, whatever comes next. -/
def amendedJoin (w : Int) : List HTree → Chars
  | [] => []
  | [c] => (renderOne c w).getD []
  | c :: rest =>
    (renderOne c w).getD [] ++
      (if c.tag = "li" then ['\n'] else ['\n', '\n']) ++ amendedJoin w rest

mutual

/-- No `br` element anywhere in the subtree. -/
def brFree : HTree → Bool
  | .node tag _ _ _ cs => tag ≠ "br" ∧ brFreeList cs

def brFreeList : List HTree → Bool
  | [] => true
  | t :: ts => brFree t ∧ brFreeList ts

end

mutual

/-- No `br` element inside a preformatted region: every node carrying the
preformatted flag has a `br`-free subtree (in particular no `br` node is
itself preformatted). -/
def noBrInPre : HTree → Bool
  | .node tag a x pre cs =>
    if pre then brFree (.node tag a x pre cs) else noBrInPreList cs

def noBrInPreList : List HTree → Bool
  | [] => true
  | t :: ts => noBrInPre t ∧ noBrInPreList ts

end

/-- Well-formed chunk lists (the shape `toChunks` produces on whitespace-munged
text): every chunk is nonempty and uniformly spaces or uniformly non-spaces,
adjacent chunks alternate between the two classes, and the only whitespace
character occurring anywhere is the plain space. -/
def chunksWF (cs : List Chars) : Prop :=
  (∀ ch ∈ cs, ch ≠ [] ∧ ∀ c ∈ ch, ((c = ' ') ↔ isSpaceChunk ch = true) ∧
    (isPyWs c → c = ' ')) ∧
  cs.Chain' fun a b => isSpaceChunk a ≠ isSpaceChunk b

/-- No `\x00` sentinel character in the list. -/
def noNul (l : Chars) : Bool := l.all fun c => c ≠ '\x00'

/-- An attribute whose value (if any) is sentinel-free. -/
def pNF (p : String × Option Chars) : Bool :=
  match p.2 with
  | some v => noNul v
  | none => true

def attrsNF (a : List (String × Option Chars)) : Bool := a.all pNF

/-- A tokenizer event carrying no sentinel character in its payload. -/
def evNF : HEvent → Bool
  | .data d => noNul d
  | .startTag _ a => attrsNF a
  | .endTag _ => true

mutual

/-- Every text payload and attribute value in the tree is sentinel-free. -/
def nfT : HTree → Bool
  | .node _ a x _ cs => noNul x && attrsNF a && nfL cs

def nfL : List HTree → Bool
  | [] => true
  | t :: ts => nfT t && nfL ts

end

def frameNF (f : Frame) : Bool := attrsNF f.attrs && nfL f.children

def stateNF (st : PState) : Bool := frameNF st.cur && st.parents.all frameNF

mutual

/-- Every text payload in the tree is sentinel-free (attributes not
constrained). -/
def allNF : HTree → Bool
  | .node _ _ x _ cs => noNul x && allNFL cs

def allNFL : List HTree → Bool
  | [] => true
  | t :: ts => allNF t && allNFL ts

end

mutual

/-- Every preformatted node's text payload is sentinel-free. -/
def preNF : HTree → Bool
  | .node _ _ x pre cs => (!pre || noNul x) && preNFL cs

def preNFL : List HTree → Bool
  | [] => true
  | t :: ts => preNF t && preNFL ts

end

mutual

/-- Every `text`-tagged node's payload is sentinel-free. -/
def textNF : HTree → Bool
  | .node tag _ x _ cs => (!decide (tag = "text") || noNul x) && textNFL cs

def textNFL : List HTree → Bool
  | [] => true
  | t :: ts => textNF t && textNFL ts

end

/-- The state of a node after the text normalizer: its own payload is
sentinel-free if preformatted, and every `text` node below it is
sentinel-free. -/
def postNF : HTree → Bool
  | .node _ _ x pre cs => (!pre || noNul x) && textNFL cs

/-- The input `"<blockquote>" * n ++ "x"`, built right-to-left. -/
def bqInput : Nat → Chars
  | 0 => ['x']
  | n + 1 => "<blockquote>".data ++ bqInput n

/-! ## The arena model of the mutable node tree (claim C9)

`HTMLNode` is a mutable object with `parent` / `prev_sibling` / `next_sibling`
/ `first_child` / `last_child` pointers.  The arena model represents the heap
as a list of node records addressed by index (a pointer is an index, `None` is
`none`); `html_node_append` and `html_node_unlink` are translated
field-assignment by field-assignment in the statement order of the Python
code.  The parser and normalizer only ever (a) append a freshly constructed
node under an existing one and (b) unlink a node, so arenas reachable by these
two operations from the single-root heap cover every intermediate state. -/

structure ANode where
  tag : String
  parent : Option Nat
  prev : Option Nat
  next : Option Nat
  first : Option Nat
  last : Option Nat
deriving DecidableEq, Repr

/-- `HTMLNode(tag=tag)`: all pointers `None`. -/
def blankNode (tag : String) : ANode := ⟨tag, none, none, none, none, none⟩

def getN (A : List ANode) (i : Nat) : ANode := A.getD i (blankNode "")

def setN (A : List ANode) (i : Nat) (f : ANode → ANode) : List ANode :=
  A.set i (f (getN A i))

/-- `html_node_append(parent, child)` where `child` is the freshly constructed
`HTMLNode(tag=tag)` placed at the next free index. -/
def appendOp (A : List ANode) (p : Nat) (tag : String) : List ANode :=
  let c := A.length
  let A1 := A ++ [blankNode tag]
  let A2 := if (getN A1 p).first = none
    then setN A1 p (fun nd => { nd with first := some c }) else A1
  let A3 := match (getN A2 p).last with
    | some l => setN (setN A2 l (fun nd => { nd with next := some c })) c
        (fun nd => { nd with prev := some l })
    | none => A2
  setN (setN A3 p (fun nd => { nd with last := some c })) c
    (fun nd => { nd with parent := some p })

/-- `html_node_unlink(node)`. -/
def unlinkOp (A : List ANode) (i : Nat) : List ANode :=
  let nd := getN A i
  let A1 := match nd.prev with
    | some j => setN A j (fun m => { m with next := nd.next })
    | none => A
  let A2 := match nd.next with
    | some j => setN A1 j (fun m => { m with prev := nd.prev })
    | none => A1
  let A3 := match nd.parent with
    | some pa => if (getN A2 pa).first = some i
        then setN A2 pa (fun m => { m with first := nd.next }) else A2
    | none => A2
  let A4 := match nd.parent with
    | some pa => if (getN A3 pa).last = some i
        then setN A3 pa (fun m => { m with last := nd.prev }) else A3
    | none => A3
  setN A4 i (fun m => { m with parent := none, prev := none, next := none })

/-- The walk of `html_node_children`: follow `next_sibling` from a start
pointer (fuel-driven; `A.length` fuel suffices for well-formed arenas, whose
sibling indices strictly increase). -/
def chainGo (A : List ANode) : Nat → Option Nat → List Nat
  | 0, _ => []
  | _ + 1, none => []
  | fuel + 1, some c => c :: chainGo A fuel (getN A c).next

/-- `html_node_children(p)` as indices. -/
def childChain (A : List ANode) (p : Nat) : List Nat :=
  chainGo A A.length (getN A p).first

/-- The heap right after `HTMLParser.__init__`: the root node alone. -/
def initArena : List ANode := [blankNode "root"]

def optAllB (o : Option Nat) (p : Nat → Bool) : Bool :=
  match o with
  | some x => p x
  | none => true

/-- Local well-formedness of node `i`: sibling and child pointers are
mutually consistent, indices grow along `next` (children are stored in
insertion order, and a parent precedes its children), a node with a parent
occurs in that parent's child walk, and a parentless node has no siblings. -/
def nodeWF (A : List ANode) (i : Nat) : Bool :=
  optAllB (getN A i).parent (fun p => p < i ∧ i ∈ childChain A p) &&
  optAllB (getN A i).next (fun j => i < j ∧ j < A.length ∧
    (getN A j).prev = some i ∧ (getN A j).parent = (getN A i).parent) &&
  optAllB (getN A i).prev (fun j => j < i ∧ (getN A j).next = some i ∧
    (getN A j).parent = (getN A i).parent) &&
  optAllB (getN A i).first (fun c => c < A.length ∧ (getN A c).parent = some i ∧
    (getN A c).prev = none) &&
  optAllB (getN A i).last (fun c => c < A.length ∧ (getN A c).parent = some i ∧
    (getN A c).next = none) &&
  (((getN A i).first = none) = ((getN A i).last = none) ∧
    ((getN A i).parent = none → (getN A i).prev = none ∧ (getN A i).next = none))

/-- Arena well-formedness: node 0 is the parentless, siblingless root and
every node is locally well-formed. -/
def linkWF (A : List ANode) : Bool :=
  (0 < A.length ∧ (getN A 0).tag = "root" ∧ (getN A 0).parent = none ∧
    (getN A 0).prev = none ∧ (getN A 0).next = none) &&
  (List.range A.length).all (fun i => nodeWF A i)

/-- The arenas produced by the pipeline: start from the root-only heap, append
fresh nodes under existing ones (`handle_starttag` / `handle_data`), unlink
nodes (`html_node_process_text`'s merging and pruning). -/
inductive Reachable : List ANode → Prop where
  | init : Reachable initArena
  | append {A : List ANode} (p : Nat) (tag : String) : Reachable A →
      p < A.length → Reachable (appendOp A p tag)
  | unlink {A : List ANode} (i : Nat) : Reachable A →
      i < A.length → Reachable (unlinkOp A i)

/-! # Theorems -/

/-! ## C8 — whitespace collapsing -/

/-- The first character `collapseWsGo` emits in run-mode is not whitespace
(the run is absorbed before anything is emitted). -/
theorem collapseWs_head_not_strip :
    ∀ (l : Chars) (z : Char), (collapseWsGo true l).head? = some z →
      isStripChar z = false := by
  intro l
  induction l with
  | nil => intro z hz; simp [collapseWsGo] at hz
  | cons d ds ihd =>
    intro z hz
    by_cases hd : isStripChar d
    · rw [collapseWsGo, if_pos hd, if_pos rfl] at hz
      exact ihd z hz
    · rw [collapseWsGo, if_neg hd, List.head?_cons] at hz
      cases hz
      simpa using hd

/-- Every character of `collapseWsGo`'s output is either a non-whitespace
input character or a space, and no two adjacent output characters are both
whitespace. -/
theorem collapseWsGo_chain :
    ∀ (l : Chars) (inRun : Bool),
      (∀ c ∈ collapseWsGo inRun l, isStripChar c → c = ' ') ∧
      List.Chain' (fun a b => ¬ (isStripChar a ∧ isStripChar b)) (collapseWsGo inRun l) := by
  intro l
  induction l with
  | nil => intro inRun; constructor <;> simp [collapseWsGo]
  | cons c rest ih =>
    intro inRun
    by_cases hc : isStripChar c
    · rcases ih true with ⟨ih1, ih2⟩
      cases inRun with
      | true =>
        rw [collapseWsGo, if_pos hc, if_pos rfl]
        exact ⟨ih1, ih2⟩
      | false =>
        rw [collapseWsGo, if_pos hc, if_neg (by simp)]
        refine ⟨?_, ?_⟩
        · intro x hx hsx
          rcases List.mem_cons.mp hx with h | h
          · exact h
          · exact ih1 x h hsx
        · rw [List.chain'_cons']
          refine ⟨?_, ih2⟩
          intro y hy
          rintro ⟨-, hsy⟩
          rw [collapseWs_head_not_strip rest y hy] at hsy
          exact Bool.false_ne_true hsy
    · rcases ih false with ⟨ih1, ih2⟩
      rw [collapseWsGo, if_neg hc]
      refine ⟨?_, ?_⟩
      · intro x hx hsx
        rcases List.mem_cons.mp hx with h | h
        · subst h; exact absurd hsx (by simpa using hc)
        · exact ih1 x h hsx
      · rw [List.chain'_cons']
        refine ⟨?_, ih2⟩
        intro y _
        rintro ⟨hsc, -⟩
        exact absurd hsc (by simpa using hc)

/-- C8: rendering `<p>a   \n  b</p>` and `<p>a b</p>` produce identical
output; whitespace collapsing turns every run of spaces, tabs, carriage
returns and newlines of non-preformatted text into a single space (the
collapsed text contains no whitespace other than single spaces, no two
adjacent). -/
theorem c8_whitespace_collapsing :
    renderString "<p>a   \n  b</p>" = renderString "<p>a b</p>" ∧
    renderString "<p>a   \n  b</p>" = some "a b" ∧
    (∀ (l : Chars),
      (∀ c ∈ collapseWsGo false l, isStripChar c → c = ' ') ∧
      List.Chain' (fun a b => ¬ (isStripChar a ∧ isStripChar b)) (collapseWsGo false l)) :=
  ⟨by decide, by decide, fun l => collapseWsGo_chain l false⟩

/-! ## C3 — anchor flattening -/

/-- C3 counterexample: an anchor without `href` does **not** contribute
exactly its inner text.  The flattener treats a missing `href` as the empty
string and falls into the `"{text} {href}"` branch, contributing the text plus
a trailing space; in a full render `<p><a>x</a>y</p>` gives `"x y"`, not
`"xy"`. -/
theorem c3_counterexample :
    (html_node_process_inline (.node "a" [] [] false [.node "text" [] ['x'] false []])
        true).2 = ['x', ' '] ∧
    ['x', ' '] ≠ ['x'] ∧
    renderString "<p><a>x</a>y</p>" = some "x y" ∧
    some "x y" ≠ some ("x" ++ "y" : String) := by
  refine ⟨by decide, by decide, by decide, by decide⟩

/-- `startsWithL` of the empty string holds only for the empty pattern. -/
theorem startsWithL_nil_iff (p : Chars) : startsWithL [] p = true ↔ p = [] := by
  simp only [startsWithL, List.take_nil, beq_iff_eq]
  exact eq_comm

/-- If a string ends in `"..."` and its prefix up to the last three characters
is empty, the string is exactly `"..."`. -/
theorem ends_dots_take_nil (t : Chars) (he : endsWithL t ['.', '.', '.'] = true)
    (hs : t.take (t.length - 3) = []) : t = ['.', '.', '.'] := by
  simp only [endsWithL, List.length_cons, List.length_nil, decide_eq_true_eq] at he
  rcases he with ⟨h3, hd⟩
  have hd' : t.drop (t.length - 3) = ['.', '.', '.'] := by
    simpa using hd
  have h0 : t.length - 3 = 0 := by
    have := congrArg List.length hs
    rw [List.length_take] at this
    simp only [List.length_nil] at this
    omega
  rw [h0, List.drop_zero] at hd'
  exact hd'

/-- C3 as amended: with `h` the `href` value, where a missing or valueless
`href` counts as the empty string, the anchor's contribution is: `h` if the
text equals `h`; else `h` in full if the text ends in `"..."` and `h` starts
with the text minus the `"..."`; otherwise `text ++ " " ++ h` — so with `href`
absent the contribution is the text plus a trailing space (or empty for text
`""` or `"..."`), not the text alone; and the ellipsis-shortened link of the
spec's example expands to the full URL. -/
theorem c3_anchor_amended :
    (∀ (attrs : List (String × Option Chars)) (pre : Bool) (cs : List HTree),
      (html_node_process_inline (.node "a" attrs [] pre cs) true).2 =
        (let t := (processInlineList cs true).2
         let h := hrefOf attrs
         if t = h then h
         else if endsWithL t ['.', '.', '.'] ∧ startsWithL h (t.take (t.length - 3)) then h
         else t ++ ' ' :: h)) ∧
    renderString "<a href=\"https://example.com/foo/bar\">https://example.com/foo...</a>" =
      some "https://example.com/foo/bar" ∧
    (∀ (pre : Bool) (cs : List HTree),
      (html_node_process_inline (.node "a" [] [] pre cs) true).2 =
        (let t := (processInlineList cs true).2
         if t = [] ∨ t = ['.', '.', '.'] then [] else t ++ [' '])) := by
  have hmain : ∀ (attrs : List (String × Option Chars)) (pre : Bool) (cs : List HTree),
      (html_node_process_inline (.node "a" attrs [] pre cs) true).2 =
        (let t := (processInlineList cs true).2
         let h := hrefOf attrs
         if t = h then h
         else if endsWithL t ['.', '.', '.'] ∧ startsWithL h (t.take (t.length - 3)) then h
         else t ++ ' ' :: h) := by
    intro attrs pre cs
    cases hp : processInlineList cs true with
    | mk cs' ctext =>
      have h2 : (html_node_process_inline (.node "a" attrs [] pre cs) true).2 =
          inlineRewrite "a" attrs [] pre ctext := by
        simp [html_node_process_inline, hp]
      have hr : inlineRewrite "a" attrs [] pre ctext =
          (if endsWithL ctext ['.', '.', '.'] ∧
              startsWithL (hrefOf attrs) (ctext.take (ctext.length - 3)) then hrefOf attrs
           else if ctext ≠ hrefOf attrs then ctext ++ ' ' :: hrefOf attrs else ctext) := by
        simp [inlineRewrite]
      rw [h2, hr]
      simp only [hp]
      by_cases h1 : ctext = hrefOf attrs
      · by_cases hE : endsWithL ctext ['.', '.', '.'] ∧
            startsWithL (hrefOf attrs) (ctext.take (ctext.length - 3))
        · simp [h1, hE]
        · simp [h1, hE]
      · by_cases hE : endsWithL ctext ['.', '.', '.'] ∧
            startsWithL (hrefOf attrs) (ctext.take (ctext.length - 3))
        · simp [h1, hE]
        · simp [h1, hE]
  refine ⟨hmain, by decide, ?_⟩
  intro pre cs
  rw [hmain [] pre cs]
  simp only [hrefOf, List.reverse_nil, List.find?_nil, Option.map_none']
  cases hp : (processInlineList cs true).2 with
  | nil => simp
  | cons a as =>
    have hne : (a :: as : Chars) ≠ [] := by simp
    by_cases h2 : (a :: as : Chars) = ['.', '.', '.']
    · rw [h2]; decide
    · have hE : ¬ (endsWithL (a :: as) ['.', '.', '.'] = true ∧
          startsWithL [] ((a :: as).take ((a :: as).length - 3)) = true) := by
        rintro ⟨h3e, h3s⟩
        exact h2 (ends_dots_take_nil _ h3e ((startsWithL_nil_iff _).mp h3s))
      rw [if_neg hne, if_neg hE, if_neg (not_or.mpr ⟨hne, h2⟩)]

/-! ## C4 — blank-line separation of rendered children -/

theorem joinChar_cons_of_ne_nil (sep : Char) (g : Chars) (gs : List Chars)
    (h : gs ≠ []) : joinChar sep (g :: gs) = g ++ sep :: joinChar sep gs := by
  cases gs with
  | nil => exact absurd rfl h
  | cons x xs => rfl

/-- `renderParts` on a cons, phrased through `renderOne`. -/
theorem renderParts_cons (c : HTree) (rest : List HTree) (w : Int) :
    renderParts (c :: rest) w =
      match renderOne c w, renderParts rest w with
      | some part, some parts =>
        some (part :: (if ¬ rest.isEmpty ∧ c.tag ≠ "li" then [] :: parts else parts))
      | _, _ => none := rfl

theorem renderParts_ne_nil (c : HTree) (rest : List HTree) (w : Int)
    (parts : List Chars) (h : renderParts (c :: rest) w = some parts) : parts ≠ [] := by
  rw [renderParts_cons] at h
  cases h1 : renderOne c w with
  | none => rw [h1] at h; cases h
  | some part =>
    rw [h1] at h
    cases h2 : renderParts rest w with
    | none => rw [h2] at h; cases h
    | some parts' =>
      rw [h2] at h
      simp only [Option.some.injEq] at h
      subst h
      simp

/-- The joined output of `renderParts` satisfies the amended separation rule:
one blank line between consecutive children, except that nothing but a single
newline follows an `li` child. -/
theorem renderParts_amendedJoin (w : Int) :
    ∀ (cs : List HTree) (parts : List Chars), renderParts cs w = some parts →
      joinChar '\n' parts = amendedJoin w cs := by
  intro cs
  induction cs with
  | nil =>
    intro parts h
    simp only [renderParts, Option.some.injEq] at h
    subst h
    rfl
  | cons c rest ih =>
    intro parts h
    rw [renderParts_cons] at h
    cases h1 : renderOne c w with
    | none => rw [h1] at h; cases h
    | some part =>
      rw [h1] at h
      cases h2 : renderParts rest w with
      | none => rw [h2] at h; cases h
      | some parts' =>
        rw [h2] at h
        simp only [Option.some.injEq] at h
        subst h
        cases rest with
        | nil =>
          simp only [renderParts, Option.some.injEq] at h2
          subst h2
          simp [amendedJoin, h1, joinChar]
        | cons r rs =>
          have hp' : parts' ≠ [] := renderParts_ne_nil r rs w parts' h2
          have hj : joinChar '\n' parts' = amendedJoin w (r :: rs) := ih parts' h2
          by_cases hli : c.tag = "li"
          · rw [if_neg (by simp [hli])]
            rw [joinChar_cons_of_ne_nil _ _ _ hp', hj]
            simp [amendedJoin, h1, hli]
          · rw [if_pos (by simp [hli])]
            rw [joinChar_cons_of_ne_nil _ _ _ (by simp),
              joinChar_cons_of_ne_nil _ _ _ hp', hj]
            simp [amendedJoin, h1, hli]

/-- C4 counterexample: an `li` child followed by a non-`li` sibling is joined
with **no** blank line, although the two are not consecutive `li` children —
the code omits the separator whenever the earlier child is an `li`,
irrespective of the later one.  `<ul><li>A</li><p>B</p></ul>` renders as
`"- A\nB"`, not `"- A\n\nB"`. -/
theorem c4_counterexample :
    renderString "<ul><li>A</li><p>B</p></ul>" = some "- A\nB" ∧
    (renderTree "<ul><li>A</li><p>B</p></ul>".data).children.map
        (fun c => c.children.map HTree.tag) = [["li", "p"]] ∧
    some "- A\nB" ≠ some "- A\n\nB" := by
  refine ⟨by decide, by decide, by decide⟩

/-- C4 as amended: in the joined output of a node's children, consecutive
rendered children are separated by one blank line, **except that a child with
tag `li` is followed by no blank line whatever the next child is** (so
consecutive `li` children in particular are joined without one); the spec's
list example renders as exactly `"- A"` and `"- B"` on adjacent lines. -/
theorem c4_separators_amended :
    (∀ (cs : List HTree) (w : Int) (parts : List Chars), renderParts cs w = some parts →
      joinChar '\n' parts = amendedJoin w cs) ∧
    renderString "<ul><li>A</li><li>B</li></ul>" = some "- A\n- B" ∧
    renderString "<ul><li>A</li><p>B</p></ul>" = some ("- A" ++ "\n" ++ "B") :=
  ⟨fun cs w => renderParts_amendedJoin w cs, by decide, by decide⟩

/-- Witness for `c8_whitespace_collapsing`: the universal part applied to a
concrete collapsed text. -/
theorem c8_whitespace_collapsing_witness :
    (' ' ∈ collapseWsGo false "a \t b".data ∧ isStripChar ' ' = true) ∧ ' ' = ' ' :=
  ⟨⟨by decide, by decide⟩,
    (c8_whitespace_collapsing.2.2 "a \t b".data).1 ' ' (by decide) (by decide)⟩

/-- Witness for `c4_separators_amended`: the separation rule applied to the
concrete child list `li "A", p "B"` at width 70. -/
theorem c4_separators_amended_witness :
    joinChar '\n'
        [['-', ' ', 'A'], ['B']] =
      amendedJoin 70
        [.node "li" [] [] false [.node "text" [] ['A'] false []],
         .node "p" [] [] false [.node "text" [] ['B'] false []]] :=
  c4_separators_amended.1
    [.node "li" [] [] false [.node "text" [] ['A'] false []],
     .node "p" [] [] false [.node "text" [] ['B'] false []]]
    70 [['-', ' ', 'A'], ['B']] (by decide)

/-! ## C2 — the close-tag walk -/

/-- C2 counterexample: after `<ul><li>` a closing `li` makes the **parent**
`ul` the current node (the matched `li` is closed); the claim's reading —
"the node with the matching tag becomes the new current node" — would leave
the `li` current (its walk stops at the match without closing it), so the
two disagree already on this input. -/
theorem c2_counterexample :
    (runEvents [.startTag "ul" [], .startTag "li" [], .endTag "li"]).cur.tag = "ul" ∧
    (closeWalkClaimed "li" (runEvents [.startTag "ul" [], .startTag "li" []]).cur
        (runEvents [.startTag "ul" [], .startTag "li" []]).parents).1.tag = "li" ∧
    "ul" ≠ "li" := by
  refine ⟨by decide, by decide, by decide⟩

/-- The open frames above a frame with the same tags see the same walk: only
tags drive the walk, and folding a child into a frame keeps its tag. -/
theorem dropLast_tags_addChild (p : Frame) (t : HTree) (ps : List Frame) :
    ((p.addChild t :: ps).dropLast.map Frame.tag) = ((p :: ps).dropLast.map Frame.tag) := by
  cases ps with
  | nil => rfl
  | cons q qs => rfl

/-- Characterization of the close-tag walk: among the examined frames — the
current node and then each ancestor in turn, the root excluded — the first
one carrying the matching tag is closed together with everything below it
(its parent gains the folded subtree and becomes the new current node); if no
frame matches, every open frame folds into the root. -/
theorem closeWalk_spec (tag : String) :
    ∀ (parents : List Frame) (cur : Frame),
      (firstIdx (fun x => x = tag) ((cur :: parents).dropLast.map Frame.tag) = none →
        closeWalk tag cur parents = (finishStack cur parents, [])) ∧
      (∀ k, firstIdx (fun x => x = tag) ((cur :: parents).dropLast.map Frame.tag) = some k →
        closeWalk tag cur parents =
          (finishStack cur (parents.take (k + 1)), parents.drop (k + 1))) := by
  intro parents
  induction parents with
  | nil =>
    intro cur
    constructor
    · intro _
      rfl
    · intro k hk
      simp [List.dropLast, firstIdx] at hk
  | cons p ps ih =>
    intro cur
    have hdl : ((cur :: p :: ps).dropLast.map Frame.tag) =
        cur.tag :: ((p :: ps).dropLast.map Frame.tag) := rfl
    by_cases htag : cur.tag = tag
    · constructor
      · intro hnone
        rw [hdl] at hnone
        simp [firstIdx, htag] at hnone
      · intro k hk
        rw [hdl] at hk
        simp [firstIdx, htag] at hk
        subst hk
        show closeWalk tag cur (p :: ps) = (finishStack cur [p], ps)
        simp only [closeWalk, if_pos htag]
        rfl
    · have hrw : ((p.addChild cur.toTree :: ps).dropLast.map Frame.tag) =
          ((p :: ps).dropLast.map Frame.tag) := dropLast_tags_addChild p cur.toTree ps
      have hcw : closeWalk tag cur (p :: ps) =
          closeWalk tag (p.addChild cur.toTree) ps := by
        simp only [closeWalk, if_neg htag]
      have hmap : List.map Frame.tag (p :: ps).dropLast =
          (p.tag :: List.map Frame.tag ps).dropLast := by
        rw [List.map_dropLast]
        rfl
      constructor
      · intro hnone
        rw [hdl] at hnone
        simp [firstIdx, htag] at hnone
        rw [← hmap] at hnone
        have := (ih (p.addChild cur.toTree)).1 (by rw [hrw]; exact hnone)
        rw [hcw, this]
        rfl
      · intro k hk
        rw [hdl] at hk
        simp [firstIdx, htag, Option.map_eq_some'] at hk
        rcases hk with ⟨k', hk', rfl⟩
        rw [← hmap] at hk'
        have := (ih (p.addChild cur.toTree)).2 k' (by rw [hrw]; exact hk')
        rw [hcw, this]
        rfl

/-- C2 as amended: an unrecognized closing tag leaves the builder state
unchanged; a recognized one walks up from the current node: the first examined
node (current node or ancestor, the root never examined) whose tag matches is
closed along with its still-open descendants, and its **parent** becomes the
new current node; when nothing matches, every open node closes and the root
becomes current.  The walk is a total function, so it terminates on every
state. -/
theorem c2_close_walk_amended :
    (∀ (st : PState) (tag : String), ¬ isKnownTag tag → handle_endtag st tag = st) ∧
    (∀ (tag : String) (parents : List Frame) (cur : Frame),
      (firstIdx (fun x => x = tag) ((cur :: parents).dropLast.map Frame.tag) = none →
        closeWalk tag cur parents = (finishStack cur parents, [])) ∧
      (∀ k, firstIdx (fun x => x = tag) ((cur :: parents).dropLast.map Frame.tag) = some k →
        closeWalk tag cur parents =
          (finishStack cur (parents.take (k + 1)), parents.drop (k + 1)))) := by
  constructor
  · intro st tag h
    simp only [handle_endtag, if_pos h]
  · intro tag parents cur
    exact closeWalk_spec tag parents cur

/-- Witness for `c2_close_walk_amended`: all three behaviours at concrete
states — an unknown tag is a no-op, a matching ancestor stops the walk at its
parent (here closing `</ul>` from inside `li` makes `ol` current), and a miss
folds everything into the root. -/
theorem c2_close_walk_amended_witness :
    handle_endtag (runEvents [.startTag "ul" [], .startTag "li" []]) "div" =
        runEvents [.startTag "ul" [], .startTag "li" []] ∧
    closeWalk "ul" ⟨"li", [], false, []⟩
        [⟨"ul", [], false, []⟩, ⟨"ol", [], false, []⟩, ⟨"root", [], false, []⟩] =
      (finishStack ⟨"li", [], false, []⟩
          (List.take (1 + 1)
            [⟨"ul", [], false, []⟩, ⟨"ol", [], false, []⟩, ⟨"root", [], false, []⟩]),
        List.drop (1 + 1)
          [⟨"ul", [], false, []⟩, ⟨"ol", [], false, []⟩, ⟨"root", [], false, []⟩]) ∧
    closeWalk "p" ⟨"li", [], false, []⟩ [⟨"ul", [], false, []⟩, ⟨"root", [], false, []⟩] =
        (finishStack ⟨"li", [], false, []⟩ [⟨"ul", [], false, []⟩, ⟨"root", [], false, []⟩],
          []) := by
  refine ⟨c2_close_walk_amended.1 _ "div" (by decide), ?_, ?_⟩
  · exact (c2_close_walk_amended.2 "ul"
      [⟨"ul", [], false, []⟩, ⟨"ol", [], false, []⟩, ⟨"root", [], false, []⟩]
      ⟨"li", [], false, []⟩).2 1 (by decide)
  · exact (c2_close_walk_amended.2 "p" [⟨"ul", [], false, []⟩, ⟨"root", [], false, []⟩]
      ⟨"li", [], false, []⟩).1 (by decide)

/-! ## C6 — `<pre><code>` fidelity -/

theorem tokenizeGo_nil (fuel : Nat) : tokenizeGo fuel [] = [] := by
  cases fuel <;> rfl

/-- A data run starts at any character other than `<`. -/
theorem tokenizeGo_data_step (fuel : Nat) (c : Char) (l : Chars) (hc : c ≠ '<') :
    tokenizeGo (fuel + 1) (c :: l) =
      .data (decodeData ((c :: l).takeWhile (fun x => x ≠ '<'))) ::
        tokenizeGo fuel ((c :: l).drop ((c :: l).takeWhile (fun x => x ≠ '<')).length) := by
  rw [tokenizeGo]
  · simp
  · intro rest h
    cases h
    exact hc rfl

theorem takeWhile_append_all (p : Char → Bool) (l₁ l₂ : Chars) (h : ∀ c ∈ l₁, p c) :
    (l₁ ++ l₂).takeWhile p = l₁ ++ l₂.takeWhile p := by
  induction l₁ with
  | nil => simp
  | cons a as ih =>
    have ha : p a := h a (by simp)
    simp only [List.cons_append, List.takeWhile_cons, ha, if_true]
    rw [ih fun c hc => h c (by simp [hc])]

theorem decodeDataGo_no_amp : ∀ (fuel : Nat) (l : Chars), '&' ∉ l →
    decodeDataGo fuel l = l := by
  intro fuel
  induction fuel with
  | zero => intro l _; cases l <;> rfl
  | succ f ih =>
    intro l hl
    cases l with
    | nil => rfl
    | cons c rest =>
      have hc : c ≠ '&' := fun h => hl (by simp [h])
      rw [decodeDataGo, if_neg hc]
      rw [ih rest fun h => hl (by simp [h])]

theorem decodeData_no_amp (l : Chars) (h : '&' ∉ l) : decodeData l = l :=
  decodeDataGo_no_amp l.length l h

theorem tokenizeGo_pre_step (fuel : Nat) (rest : Chars) :
    tokenizeGo (fuel + 1) ('<' :: 'p' :: 'r' :: 'e' :: '>' :: rest) =
      .startTag "pre" [] :: tokenizeGo fuel rest := rfl

theorem tokenizeGo_code_step (fuel : Nat) (rest : Chars) :
    tokenizeGo (fuel + 1) ('<' :: 'c' :: 'o' :: 'd' :: 'e' :: '>' :: rest) =
      .startTag "code" [] :: tokenizeGo fuel rest := rfl

theorem tokenizeGo_endcode_step (fuel : Nat) (rest : Chars) :
    tokenizeGo (fuel + 1) ('<' :: '/' :: 'c' :: 'o' :: 'd' :: 'e' :: '>' :: rest) =
      .endTag "code" :: tokenizeGo fuel rest := rfl

theorem tokenizeGo_endpre_step (fuel : Nat) (rest : Chars) :
    tokenizeGo (fuel + 1) ('<' :: '/' :: 'p' :: 'r' :: 'e' :: '>' :: rest) =
      .endTag "pre" :: tokenizeGo fuel rest := rfl

/-- A `<`-free, `&`-free, nonempty stretch before a tag is one data event. -/
theorem tokenizeGo_data_run (fuel : Nat) (d : Chars) (rest : Chars) (hne : d ≠ [])
    (hlt : '<' ∉ d) (hamp : '&' ∉ d) :
    tokenizeGo (fuel + 1) (d ++ '<' :: rest) = .data d :: tokenizeGo fuel ('<' :: rest) := by
  cases d with
  | nil => exact absurd rfl hne
  | cons c d2 =>
    have hc : c ≠ '<' := fun h => hlt (by simp [h])
    rw [List.cons_append, tokenizeGo_data_step fuel c (d2 ++ '<' :: rest) hc]
    have hall : ∀ x ∈ (c :: d2), (fun x => decide (x ≠ '<')) x = true := by
      intro x hx
      simp only [decide_eq_true_eq]
      intro h
      exact hlt (h ▸ hx)
    have hrun : ((c :: (d2 ++ '<' :: rest)).takeWhile (fun x => x ≠ '<')) = c :: d2 := by
      have := takeWhile_append_all (fun x => decide (x ≠ '<')) (c :: d2) ('<' :: rest) hall
      simp only [List.cons_append] at this
      rw [this]
      simp [List.takeWhile_cons]
    rw [hrun]
    have hdrop : ((c :: (d2 ++ '<' :: rest)).drop (c :: d2).length) = '<' :: rest := by
      have h2 : (c :: (d2 ++ '<' :: rest)) = (c :: d2) ++ '<' :: rest := by simp
      rw [h2, List.drop_left]
    rw [hdrop, decodeData_no_amp _ hamp]

/-- The event stream of `<pre><code>…</code></pre>` around tag-free data. -/
theorem tokenize_precode (d : Chars) (hlt : '<' ∉ d) (hamp : '&' ∉ d) (hne : d ≠ []) :
    tokenize ("<pre><code>".data ++ (d ++ "</code></pre>".data)) =
      [.startTag "pre" [], .startTag "code" [], .data d, .endTag "code", .endTag "pre"] := by
  have hs1 : "<pre><code>".data =
      ['<', 'p', 'r', 'e', '>', '<', 'c', 'o', 'd', 'e', '>'] := rfl
  have hs2 : "</code></pre>".data =
      ['<', '/', 'c', 'o', 'd', 'e', '>', '<', '/', 'p', 'r', 'e', '>'] := rfl
  have hlen : ("<pre><code>".data ++ (d ++ "</code></pre>".data)).length =
      24 + d.length := by
    simp [hs1, hs2, List.length_append]
    omega
  rw [tokenize, hlen, hs1, hs2]
  simp only [List.cons_append, List.nil_append]
  rw [tokenizeGo_pre_step]
  have e1 : 24 + d.length = 23 + d.length + 1 := by omega
  rw [e1, tokenizeGo_code_step]
  have e2 : 23 + d.length = 22 + d.length + 1 := by omega
  rw [e2, tokenizeGo_data_run (22 + d.length) d _ hne hlt hamp]
  have e3 : 22 + d.length = 21 + d.length + 1 := by omega
  rw [e3, tokenizeGo_endcode_step]
  have e4 : 21 + d.length = 20 + d.length + 1 := by omega
  rw [e4, tokenizeGo_endpre_step]
  rw [tokenizeGo_nil]

theorem sanitize_precode (d : Chars) (hcc : ∀ c ∈ d, c = '\n' ∨ c = '\t' ∨ ¬ isCc c) :
    text_sanitize ("<pre><code>".data ++ (d ++ "</code></pre>".data)) =
      "<pre><code>".data ++ (d ++ "</code></pre>".data) := by
  have hm1 : ∀ a ∈ "<pre><code>".data, (a = '\n' ∨ a = '\t' ∨ ¬ isCc a) := by decide
  have hm2 : ∀ a ∈ "</code></pre>".data, (a = '\n' ∨ a = '\t' ∨ ¬ isCc a) := by decide
  rw [text_sanitize, List.filter_eq_self]
  intro a ha
  rcases List.mem_append.mp ha with h | h
  · simpa using hm1 a h
  · rcases List.mem_append.mp h with h2 | h2
    · simpa using hcc a h2
    · simpa using hm2 a h2

/-- The tree the builder produces for the `<pre><code>` event stream: the
`code` element and its data are preformatted. -/
theorem parse_precode (d : Chars) :
    parseEvents [.startTag "pre" [], .startTag "code" [], .data d, .endTag "code",
        .endTag "pre"] =
      .node "root" [] [] false
        [.node "pre" [] [] true [.node "code" [] [] true [.node "text" [] d true []]]] := rfl

theorem render_pre_tree (x : Chars) :
    html_node_render_block
        (.node "root" [] [] false [.node "pre" [] [] true [.node "text" [] x true []]]) 70 =
      some (text_indent x ['|', ' '] ['|', ' ']) := rfl

/-- C6 counterexample: the character data does **not** appear byte-for-byte —
trailing whitespace of each line is stripped after the `"| "` prefix is added.
For data `"a \nb"` the output is `"| a\n| b"`, not `"| a \n| b"`, and the raw
data no longer occurs inside the output. -/
theorem c6_counterexample :
    renderString "<pre><code>a \nb</code></pre>" = some "| a\n| b" ∧
    some "| a\n| b" ≠ some "| a \n| b" ∧
    ¬ "a \nb".data <:+: "| a\n| b".data := by
  refine ⟨by decide, by decide, by decide⟩

/-- C6 as amended: for tag-free character data inside `<pre><code>`, the
render output is exactly the data with trailing `\r\n\t`-space stripped from
the end of the block, each line prefixed with `"| "` and right-stripped
(internal indentation and line breaks preserved; an empty block renders as
`"|"`). -/
theorem c6_pre_code_amended (d : Chars) (hlt : '<' ∉ d) (hamp : '&' ∉ d)
    (hcc : ∀ c ∈ d, c = '\n' ∨ c = '\t' ∨ ¬ isCc c) :
    html_render ("<pre><code>".data ++ (d ++ "</code></pre>".data)) =
      some (text_indent (rstripSet isStripChar d) ['|', ' '] ['|', ' ']) := by
  by_cases hne : d = []
  · subst hne
    decide
  · rw [html_render, renderTree, sanitize_precode d hcc, tokenize_precode d hlt hamp hne,
      parse_precode d]
    have hinl : (html_node_process_inline
        (.node "root" [] [] false
          [.node "pre" [] [] true [.node "code" [] [] true [.node "text" [] d true []]]])
        false).1 =
        .node "root" [] [] false [.node "pre" [] [] true [.node "text" [] d true []]] := by
      simp [html_node_process_inline, processInlineList, inlineRewrite, isBlockTag]
    rw [hinl]
    by_cases hrd : rstripSet isStripChar d = []
    · have hpt : html_node_process_text
          (.node "root" [] [] false [.node "pre" [] [] true [.node "text" [] d true []]]) =
          .node "root" [] [] false [.node "pre" [] [] true []] := by
        simp [html_node_process_text, processTextList, mergeTextNodes, mergeRunGo,
          html_node_trim_whitespace, HTree.tag, HTree.text, HTree.pre, HTree.attrs,
          HTree.children, hrd]
      rw [hpt, hrd]
      decide
    · have hpt : html_node_process_text
          (.node "root" [] [] false [.node "pre" [] [] true [.node "text" [] d true []]]) =
          .node "root" [] [] false
            [.node "pre" [] [] true
              [.node "text" [] (rstripSet isStripChar d) true []]] := by
        simp [html_node_process_text, processTextList, mergeTextNodes, mergeRunGo,
          html_node_trim_whitespace, HTree.tag, HTree.text, HTree.pre, HTree.attrs,
          HTree.children, hrd]
      rw [hpt, render_pre_tree]

/-- Witness for `c6_pre_code_amended` at the data `"a \nb"`. -/
theorem c6_pre_code_amended_witness :
    ('<' ∉ "a \nb".data ∧ '&' ∉ "a \nb".data ∧
      (∀ c ∈ "a \nb".data, c = '\n' ∨ c = '\t' ∨ ¬ isCc c)) ∧
    html_render ("<pre><code>".data ++ ("a \nb".data ++ "</code></pre>".data)) =
      some (text_indent (rstripSet isStripChar "a \nb".data) ['|', ' '] ['|', ' ']) :=
  ⟨⟨by decide, by decide, by decide⟩,
    c6_pre_code_amended "a \nb".data (by decide) (by decide) (by decide)⟩

/-! ## C7 — the paragraph wrapper -/

theorem dropWhile_idem (p : Char → Bool) (l : Chars) :
    (l.dropWhile p).dropWhile p = l.dropWhile p := by
  induction l with
  | nil => rfl
  | cons c rest ih =>
    by_cases hc : p c
    · simp [List.dropWhile_cons, hc, ih]
    · simp [List.dropWhile_cons, hc]

theorem rstripSet_idem (p : Char → Bool) (l : Chars) :
    rstripSet p (rstripSet p l) = rstripSet p l := by
  simp [rstripSet, dropWhile_idem]

theorem rstripSet_eq_self_of_getLast (p : Char → Bool) (l : Chars) (c : Char)
    (hc : l.getLast? = some c) (hp : p c = false) : rstripSet p l = l := by
  rw [rstripSet]
  rw [← List.head?_reverse] at hc
  cases hrev : l.reverse with
  | nil => simp [hrev] at hc
  | cons d ds =>
    rw [hrev] at hc
    simp only [List.head?_cons, Option.some.injEq] at hc
    subst hc
    rw [List.dropWhile_cons, hp]
    simp only [Bool.false_eq_true, if_false]
    rw [← hrev, List.reverse_reverse]

theorem startsWithL_append (ind body : Chars) : startsWithL (ind ++ body) ind = true := by
  simp [startsWithL, List.take_left]

theorem takeLine_append (w : Nat) :
    ∀ (l : List Chars) (cur : Nat), (takeLine w l cur).1 ++ (takeLine w l cur).2 = l := by
  intro l
  induction l with
  | nil => intro cur; rfl
  | cons c cs ih =>
    intro cur
    simp only [takeLine]
    split
    · have := ih (cur + c.length)
      cases h : takeLine w cs (cur + c.length) with
      | mk a b =>
        rw [h] at this
        simpa using this
    · rfl

theorem lineSplit_append (w : Nat) (l : List Chars) :
    (lineSplit w l).1 ++ (lineSplit w l).2 = l := by
  cases l with
  | nil => rfl
  | cons c cs =>
    simp only [lineSplit]
    split
    · have := takeLine_append w cs c.length
      cases h : takeLine w cs c.length with
      | mk a b =>
        rw [h] at this
        simpa using this
    · rfl

theorem flatten_getLast (xs : List Chars) (wc : Chars) (hwc : wc ≠ []) :
    (xs ++ [wc]).flatten.getLast? = wc.getLast? := by
  induction xs with
  | nil => simp [List.flatten]
  | cons a as ih =>
    rw [List.cons_append, List.flatten_cons, List.getLast?_append, ih]
    have hsome : wc.getLast?.isSome := by
      rw [List.getLast?_isSome]
      exact hwc
    rcases Option.isSome_iff_exists.mp hsome with ⟨c, hc⟩
    rw [hc]
    rfl

theorem isSpaceChunk_cons (x : Char) (xs : Chars) :
    isSpaceChunk (x :: xs) = decide (x = ' ') := by
  by_cases hx : x = ' '
  · subst hx
    simp [isSpaceChunk]
  · rw [isSpaceChunk]
    · simp [hx]
    · intro tail h
      cases h
      exact hx rfl

/-- `toChunks` of whitespace-munged text is well-formed. -/
theorem toChunks_wf : ∀ (t : Chars), (∀ c ∈ t, isPyWs c → c = ' ') →
    chunksWF (toChunks t) := by
  intro t
  induction t with
  | nil => intro _; exact ⟨by simp [toChunks], by simp [toChunks]⟩
  | cons c rest ih =>
    intro hws
    have hc : isPyWs c → c = ' ' := hws c (by simp)
    rcases ih (fun x hx => hws x (by simp [hx])) with ⟨ihC, ihA⟩
    rw [toChunks]
    cases hr : toChunks rest with
    | nil =>
      refine ⟨?_, by simp⟩
      intro ch hch
      simp only [List.mem_singleton] at hch
      subst hch
      refine ⟨by simp, ?_⟩
      intro x hx
      simp only [List.mem_singleton] at hx
      subst hx
      rw [isSpaceChunk_cons]
      exact ⟨by simp, hc⟩
    | cons g gs =>
      cases g with
      | nil =>
        exact absurd rfl ((ihC [] (by rw [hr]; simp)).1)
      | cons d ds =>
        rw [hr] at ihC ihA
        by_cases hcd : (c = ' ') = (d = ' ')
        · simp only [hcd, if_pos]
          have hdd := ihC (d :: ds) (by simp)
          have hiff : (c = ' ') ↔ (d = ' ') := by rw [hcd]
          have hclass : isSpaceChunk (c :: d :: ds) = isSpaceChunk (d :: ds) := by
            rw [isSpaceChunk_cons, isSpaceChunk_cons]
            exact decide_eq_decide.mpr hiff
          constructor
          · intro ch hch
            rcases List.mem_cons.mp hch with h | h
            · subst h
              refine ⟨by simp, ?_⟩
              intro x hx
              rcases List.mem_cons.mp hx with h2 | h2
              · subst h2
                rw [hclass]
                exact ⟨hiff.trans (hdd.2 d (by simp)).1, hc⟩
              · have := hdd.2 x h2
                rw [hclass]
                exact this
            · exact ihC ch (by simp [h])
          · rw [List.chain'_cons'] at ihA ⊢
            refine ⟨?_, ihA.2⟩
            intro y hy
            rw [hclass]
            exact ihA.1 y hy
        · simp only [hcd, if_neg, if_false]
          have hne : isSpaceChunk [c] ≠ isSpaceChunk (d :: ds) := by
            rw [isSpaceChunk_cons, isSpaceChunk_cons]
            simp only [ne_eq, decide_eq_decide]
            exact fun h => hcd (propext h)
          constructor
          · intro ch hch
            rcases List.mem_cons.mp hch with h | h
            · subst h
              refine ⟨by simp, ?_⟩
              intro x hx
              simp only [List.mem_singleton] at hx
              subst hx
              rw [isSpaceChunk_cons]
              exact ⟨by simp, hc⟩
            · exact ihC ch h
          · rw [List.chain'_cons']
            refine ⟨?_, ihA⟩
            intro y hy
            simp only [List.head?_cons, Option.mem_def, Option.some.injEq] at hy
            subst hy
            exact hne

theorem chunksWF_tail (c : Chars) (cs : List Chars) (h : chunksWF (c :: cs)) :
    chunksWF cs :=
  ⟨fun ch hch => h.1 ch (by simp [hch]), (List.chain'_cons'.mp h.2).2⟩

theorem chunksWF_append_right (a b : List Chars) (h : chunksWF (a ++ b)) :
    chunksWF b := by
  refine ⟨fun ch hch => h.1 ch (by simp [hch]), ?_⟩
  have := h.2
  rw [List.chain'_append] at this
  exact this.2.1

theorem chain'_append_left {α : Type} (R : α → α → Prop) (a b : List α)
    (h : List.Chain' R (a ++ b)) : List.Chain' R a := by
  rw [List.chain'_append] at h
  exact h.1

/-- After dropping a trailing whitespace chunk from an alternating line, the
last remaining chunk is a word chunk. -/
theorem dropTrailing_lastWord (line : List Chars)
    (hA : line.Chain' fun a b => isSpaceChunk a ≠ isSpaceChunk b)
    (hne : dropTrailingSpaceChunk line ≠ []) :
    ∃ wc, (dropTrailingSpaceChunk line).getLast? = some wc ∧ isSpaceChunk wc = false ∧
      wc ∈ line := by
  rcases List.eq_nil_or_concat line with h0 | ⟨init, lastc, rfl⟩
  · subst h0
    simp [dropTrailingSpaceChunk] at hne
  · simp only [List.concat_eq_append] at hA hne ⊢
    have hgl : (init ++ [lastc]).getLast? = some lastc := List.getLast?_concat _
    by_cases hsp : isSpaceChunk lastc
    · have hd : dropTrailingSpaceChunk (init ++ [lastc]) = init := by
        rw [dropTrailingSpaceChunk, hgl]
        simp [hsp, List.dropLast_concat]
      rw [hd] at hne ⊢
      rcases List.eq_nil_or_concat init with h1 | ⟨init2, l2, rfl⟩
      · exact absurd h1 hne
      · simp only [List.concat_eq_append] at hA hne ⊢
        refine ⟨l2, List.getLast?_concat _, ?_, by simp⟩
        rw [List.chain'_append] at hA
        rcases hA with ⟨-, -, hR⟩
        have hR2 := hR l2 (by simp [List.getLast?_concat]) lastc (by simp)
        cases hl2 : isSpaceChunk l2 with
        | false => rfl
        | true =>
          rw [hl2] at hR2
          rw [hsp] at hR2
          exact absurd rfl hR2
    · have hd : dropTrailingSpaceChunk (init ++ [lastc]) = init ++ [lastc] := by
        rw [dropTrailingSpaceChunk, hgl]
        simp [hsp]
      rw [hd]
      exact ⟨lastc, hgl, by simpa using hsp, by simp⟩

theorem wrapOne_snd (width : Nat) (ind d : Chars) (ds : List Chars) :
    (wrapOne width ind d ds).2 = (lineSplit (width - ind.length) (d :: ds)).2 := by
  rw [wrapOne]

theorem wrapOne_eq_some (width : Nat) (ind d : Chars) (ds : List Chars) (s : Chars)
    (rest : List Chars) (h : wrapOne width ind d ds = (some s, rest)) :
    ∃ line, lineSplit (width - ind.length) (d :: ds) = (line, rest) ∧
      dropTrailingSpaceChunk line ≠ [] ∧
      s = ind ++ (dropTrailingSpaceChunk line).flatten := by
  rw [wrapOne] at h
  cases hls : lineSplit (width - ind.length) (d :: ds) with
  | mk line rest2 =>
    rw [hls] at h
    simp only [Prod.mk.injEq] at h
    by_cases hemp : (dropTrailingSpaceChunk line).isEmpty
    · rw [if_pos hemp] at h
      cases h.1
    · rw [if_neg hemp] at h
      refine ⟨line, ?_, by simpa using hemp, ?_⟩
      · rw [h.2]
      · injection h.1 with hh
        exact hh.symm

/-- Invariant of the line-building loop: every produced line is invariant
under right-stripping, and, once the first line is out, starts with the
subsequent indent. -/
theorem wrapLinesGo_lines (width : Nat) (indent : Chars) :
    ∀ (fuel : Nat) (cs : List Chars) (first : Bool), chunksWF cs →
      ∀ l ∈ wrapLinesGo width indent fuel cs first,
        rstripSet isPyWs l = l ∧ (first = false → startsWithL l indent = true) := by
  intro fuel
  induction fuel with
  | zero => intro cs first _ l hl; simp [wrapLinesGo] at hl
  | succ f ih =>
    intro cs first hwf l hl
    cases cs with
    | nil => simp [wrapLinesGo] at hl
    | cons c cs2 =>
      rw [wrapLinesGo] at hl
      cases h1 : (if ¬ first ∧ isSpaceChunk c then cs2 else c :: cs2) with
      | nil =>
        rw [h1] at hl
        simp at hl
      | cons d ds =>
        rw [h1] at hl
        have hwf1 : chunksWF (d :: ds) := by
          rw [← h1]
          split
          · exact chunksWF_tail c cs2 hwf
          · exact hwf
        dsimp only at hl
        cases h2 : wrapOne width (if first then [] else indent) d ds with
        | mk part rest =>
          rw [h2] at hl
          have hsplit : d :: ds = (lineSplit (width - (if first then [] else
              (indent : Chars)).length) (d :: ds)).1 ++ rest := by
            have h2x : rest = (lineSplit (width - (if first then [] else
                (indent : Chars)).length) (d :: ds)).2 := by
              have h3 := wrapOne_snd width (if first then [] else indent) d ds
              rw [h2] at h3
              simpa using h3
            rw [h2x]
            exact (lineSplit_append _ (d :: ds)).symm
          have hwfrest : chunksWF rest := by
            rw [hsplit] at hwf1
            exact chunksWF_append_right _ _ hwf1
          cases part with
          | none =>
            dsimp only at hl
            exact ih rest first hwfrest l hl
          | some lstr =>
            dsimp only at hl
            rcases List.mem_cons.mp hl with hfst | hrest
            · rw [hfst]
              rcases wrapOne_eq_some width (if first then [] else indent) d ds lstr rest
                  h2 with ⟨line, hls, hne, hs⟩
              have hl2 := lineSplit_append (width - (if first then [] else
                (indent : Chars)).length) (d :: ds)
              rw [hls] at hl2
              have hmemline : ∀ ch ∈ line, ch ∈ d :: ds := by
                intro ch hch
                rw [← hl2]
                exact List.mem_append_left _ hch
              have hchain : line.Chain' fun a b => isSpaceChunk a ≠ isSpaceChunk b := by
                have hAll := hwf1.2
                rw [← hl2] at hAll
                exact chain'_append_left _ _ _ hAll
              rcases dropTrailing_lastWord line hchain hne with ⟨wc, hwc, hword, hwcmem⟩
              have hwcfacts := hwf1.1 wc (hmemline wc hwcmem)
              have hwcne : wc ≠ [] := hwcfacts.1
              have hcw : ∃ cw, wc.getLast? = some cw := by
                cases hwcl : wc.getLast? with
                | none =>
                  rw [List.getLast?_eq_none_iff] at hwcl
                  exact absurd hwcl hwcne
                | some cw => exact ⟨cw, rfl⟩
              rcases hcw with ⟨cw, hcwl⟩
              have hcwmem : cw ∈ wc := by
                rcases List.mem_getLast?_eq_getLast (Option.mem_def.mpr hcwl) with ⟨h9, h10⟩
                rw [h10]
                exact List.getLast_mem h9
              have hcwfacts := hwcfacts.2 cw hcwmem
              have hcwnsp : ¬ (cw = ' ') := by
                intro h
                have h4 := hcwfacts.1.mp h
                rw [hword] at h4
                exact Bool.false_ne_true h4
              have hcwnpy : isPyWs cw = false := by
                cases hic : isPyWs cw with
                | false => rfl
                | true => exact absurd (hcwfacts.2 hic) hcwnsp
              rcases List.getLast?_eq_some_iff.mp hwc with ⟨line2, hline2⟩
              have hbody : ((dropTrailingSpaceChunk line).flatten).getLast? =
                  some cw := by
                rw [hline2, flatten_getLast line2 wc hwcne, hcwl]
              have hlast : lstr.getLast? = some cw := by
                rw [hs, List.getLast?_append, hbody]
                rfl
              refine ⟨rstripSet_eq_self_of_getLast _ _ _ hlast hcwnpy, ?_⟩
              intro hfalse
              rw [hs, hfalse]
              simp only [Bool.false_eq_true, if_false]
              exact startsWithL_append _ _
            · have h5 := ih rest false hwfrest l hrest
              exact ⟨h5.1, fun _ => h5.2 rfl⟩

/-- Every line in the tail of the output (the wrapped continuation lines)
starts with the subsequent indent and is right-strip-invariant. -/
theorem wrapLinesGo_tail (width : Nat) (indent : Chars) :
    ∀ (fuel : Nat) (cs : List Chars), chunksWF cs →
      ∀ l ∈ (wrapLinesGo width indent fuel cs true).tail,
        rstripSet isPyWs l = l ∧ startsWithL l indent = true := by
  intro fuel
  induction fuel with
  | zero => intro cs _ l hl; simp [wrapLinesGo] at hl
  | succ f ih =>
    intro cs hwf l hl
    cases cs with
    | nil => simp [wrapLinesGo] at hl
    | cons c cs2 =>
      rw [wrapLinesGo] at hl
      cases h1 : (if ¬ true ∧ isSpaceChunk c then cs2 else c :: cs2) with
      | nil =>
        rw [h1] at hl
        simp at hl
      | cons d ds =>
        rw [h1] at hl
        have hwf1 : chunksWF (d :: ds) := by
          rw [← h1]
          simp only [Bool.not_true, false_and, if_neg, if_false]
          exact hwf
        dsimp only at hl
        have hif : (if true = true then ([] : Chars) else indent) = [] := rfl
        rw [hif] at hl
        cases h2 : wrapOne width [] d ds with
        | mk part rest =>
          rw [h2] at hl
          have hsplit : d :: ds = (lineSplit (width - ([] : Chars).length)
              (d :: ds)).1 ++ rest := by
            have h2x : rest = (lineSplit (width - ([] : Chars).length) (d :: ds)).2 := by
              have h3 := wrapOne_snd width [] d ds
              rw [h2] at h3
              simpa using h3
            rw [h2x]
            exact (lineSplit_append _ (d :: ds)).symm
          have hwfrest : chunksWF rest := by
            rw [hsplit] at hwf1
            exact chunksWF_append_right _ _ hwf1
          cases part with
          | none =>
            dsimp only at hl
            exact ih rest hwfrest l hl
          | some lstr =>
            dsimp only at hl
            simp only [List.tail_cons] at hl
            have h5 := wrapLinesGo_lines width indent f rest false hwfrest l hl
            exact ⟨h5.1, h5.2 rfl⟩

theorem munged_ws (t : Chars) :
    ∀ c ∈ t.map (fun c => if isPyWs c then ' ' else c), isPyWs c → c = ' ' := by
  intro c hc hpy
  rcases List.mem_map.mp hc with ⟨a, -, rfl⟩
  by_cases ha : isPyWs a
  · simp [ha]
  · rw [if_neg ha] at hpy ⊢
    exact absurd hpy ha

/-- C7: on a non-empty line that is not code-indented and not a numbered
reference, `text_wrap` greedy-wraps at the given width with the detected quote
prefix as subsequent indent, right-strips every produced line (stripping is
idempotent on them), and every continuation line starts with the quote prefix
verbatim. -/
theorem c7_text_wrap (s : Chars) (w : Int) (h0 : 0 < w) (h1 : s ≠ [])
    (h2 : startsWithL s [' ', ' '] = false) (h3 : refMatch s = false) :
    text_wrap s w =
      some (joinChar '\n' ((pyWrap s w.toNat (quoteReps s)).map (rstripSet isPyWs))) ∧
    (∀ l ∈ (pyWrap s w.toNat (quoteReps s)).map (rstripSet isPyWs),
      rstripSet isPyWs l = l) ∧
    (∀ l ∈ ((pyWrap s w.toNat (quoteReps s)).map (rstripSet isPyWs)).tail,
      startsWithL l (quoteReps s) = true) := by
  have hwf : chunksWF (toChunks ((expandTabs s).map fun c => if isPyWs c then ' ' else c)) :=
    toChunks_wf _ (munged_ws (expandTabs s))
  refine ⟨?_, ?_, ?_⟩
  · have hlen : ¬ (s.length = 0) := by
      simpa [List.length_eq_zero] using h1
    have hsw : ¬ (startsWithL s [' ', ' '] = true) := by simp [h2]
    have href : ¬ (refMatch s = true) := by simp [h3]
    have hw : ¬ (w ≤ 0) := by omega
    rw [text_wrap, if_neg hlen, if_neg hsw, if_neg href, if_neg hw]
  · intro l hl
    rcases List.mem_map.mp hl with ⟨x, -, rfl⟩
    exact rstripSet_idem _ _
  · intro l hl
    have hmt : ((pyWrap s w.toNat (quoteReps s)).map (rstripSet isPyWs)).tail =
        ((pyWrap s w.toNat (quoteReps s)).tail).map (rstripSet isPyWs) := by
      cases pyWrap s w.toNat (quoteReps s) with
      | nil => rfl
      | cons a as => rfl
    rw [hmt] at hl
    rcases List.mem_map.mp hl with ⟨x, hx, rfl⟩
    have hx2 : x ∈ (wrapLinesGo w.toNat (quoteReps s)
        ((toChunks ((expandTabs s).map fun c => if isPyWs c then ' ' else c)).length + 1)
        (toChunks ((expandTabs s).map fun c => if isPyWs c then ' ' else c)) true).tail := by
      simpa [pyWrap, wrapLines] using hx
    rcases wrapLinesGo_tail w.toNat (quoteReps s) _ _ hwf x hx2 with ⟨hr, hst⟩
    rw [hr]
    exact hst

/-- Witness for `c7_text_wrap`: a long `>>`-quoted line wrapped at width 20;
its detected prefix is `">>"`, and the wrapped continuation lines all carry it
(checked concretely below through the theorem's conclusion). -/
theorem c7_text_wrap_witness :
    ((0 : Int) < 20 ∧ ">>lorem ipsum dolor sit amet consectetur".data ≠ [] ∧
      startsWithL ">>lorem ipsum dolor sit amet consectetur".data [' ', ' '] = false ∧
      refMatch ">>lorem ipsum dolor sit amet consectetur".data = false ∧
      quoteReps ">>lorem ipsum dolor sit amet consectetur".data = ['>', '>']) ∧
    (text_wrap ">>lorem ipsum dolor sit amet consectetur".data 20 =
      some (joinChar '\n'
        ((pyWrap ">>lorem ipsum dolor sit amet consectetur".data (20 : Int).toNat
            (quoteReps ">>lorem ipsum dolor sit amet consectetur".data)).map
          (rstripSet isPyWs)))) :=
  ⟨⟨by decide, by decide, by decide, by decide, by decide⟩,
    (c7_text_wrap ">>lorem ipsum dolor sit amet consectetur".data 20 (by decide)
      (by decide) (by decide) (by decide)).1⟩

/-! ## Sentinel provenance

Character-origin lemmas: each pipeline stage only emits characters drawn from
its input plus a fixed sentinel-free repertoire, so the `\x00` sentinel can
only reach a text payload through the `br` rewrite of the inline flattener. -/

theorem noNul_iff (l : Chars) : noNul l = true ↔ '\x00' ∉ l := by
  simp only [noNul, List.all_eq_true, decide_eq_true_eq]
  constructor
  · intro h hm
    exact h _ hm rfl
  · intro h c hc he
    exact h (he ▸ hc)

theorem mem_rstripSet {p : Char → Bool} {l : Chars} {c : Char}
    (h : c ∈ rstripSet p l) : c ∈ l := by
  rw [rstripSet] at h
  rw [List.mem_reverse] at h
  exact List.mem_reverse.mp ((List.dropWhile_sublist _).subset h)

theorem mem_splitChar {sep : Char} :
    ∀ (l : Chars) (g : Chars), g ∈ splitChar sep l → ∀ c ∈ g, c ∈ l := by
  intro l
  induction l with
  | nil =>
    intro g hg c hc
    rw [show splitChar sep [] = [[]] from rfl] at hg
    simp only [List.mem_singleton] at hg
    subst hg
    simp at hc
  | cons a rest ih =>
    intro g hg c hc
    simp only [splitChar] at hg
    cases hr : splitChar sep rest with
    | nil =>
      rw [hr] at hg
      dsimp only at hg
      simp only [List.mem_singleton] at hg
      subst hg
      rcases List.mem_cons.mp hc with rfl | hc
      · exact List.mem_cons_self _ _
      · simp at hc
    | cons g0 gs =>
      rw [hr] at hg
      dsimp only at hg
      by_cases ha : a = sep
      · rw [if_pos ha] at hg
        rcases List.mem_cons.mp hg with rfl | hg
        · simp at hc
        · have hg2 : g ∈ splitChar sep rest := by rw [hr]; exact hg
          exact List.mem_cons_of_mem _ (ih _ hg2 _ hc)
      · rw [if_neg ha] at hg
        rcases List.mem_cons.mp hg with rfl | hg
        · rcases List.mem_cons.mp hc with rfl | hc
          · exact List.mem_cons_self _ _
          · have hg2 : g0 ∈ splitChar sep rest := by
              rw [hr]; exact List.mem_cons_self _ _
            exact List.mem_cons_of_mem _ (ih _ hg2 _ hc)
        · have hg2 : g ∈ splitChar sep rest := by
            rw [hr]; exact List.mem_cons_of_mem _ hg
          exact List.mem_cons_of_mem _ (ih _ hg2 _ hc)

theorem mem_joinChar {sep : Char} :
    ∀ (ps : List Chars) (c : Char), c ∈ joinChar sep ps → c = sep ∨ ∃ p ∈ ps, c ∈ p := by
  intro ps
  induction ps with
  | nil =>
    intro c h
    rw [show joinChar sep [] = [] from rfl] at h
    simp at h
  | cons g gs ih =>
    intro c h
    cases gs with
    | nil =>
      rw [show joinChar sep [g] = g from rfl] at h
      exact Or.inr ⟨g, List.mem_cons_self _ _, h⟩
    | cons g1 gs1 =>
      rw [show joinChar sep (g :: g1 :: gs1) = g ++ sep :: joinChar sep (g1 :: gs1) from rfl] at h
      rcases List.mem_append.mp h with h | h
      · exact Or.inr ⟨g, List.mem_cons_self _ _, h⟩
      · rcases List.mem_cons.mp h with rfl | h
        · exact Or.inl rfl
        · rcases ih _ h with h | ⟨p, hp, hcp⟩
          · exact Or.inl h
          · exact Or.inr ⟨p, List.mem_cons_of_mem _ hp, hcp⟩

theorem csnGo_cons_other (n : Nat) (b : Bool) (a : Char) (rest : Chars)
    (h1 : a ≠ ' ') (h2 : a ≠ '\n') :
    csnGo n b (a :: rest) =
      if b then a :: csnGo 0 false rest
      else List.replicate n ' ' ++ a :: csnGo 0 false rest := by
  rw [csnGo.eq_def]
  split
  all_goals rename_i heq
  all_goals first
    | (exact List.noConfusion heq)
    | (injection heq with h5 h6; exact absurd h5 h1)
    | (injection heq with h5 h6; exact absurd h5 h2)
    | (injection heq with h5 h6; subst h5; subst h6; rfl)

theorem csnGo_mem : ∀ (n : Nat) (b : Bool) (l : Chars) (c : Char),
    c ∈ csnGo n b l → c = ' ' ∨ c = '\n' ∨ c ∈ l := by
  intro n b l
  induction n, b, l using csnGo.induct with
  | case1 x => intro c h; simp [csnGo] at h
  | case2 n =>
    intro c h
    rw [show csnGo n false [] = List.replicate n ' ' from rfl] at h
    exact Or.inl (List.eq_of_mem_replicate h)
  | case3 x rest ih =>
    intro c h
    rw [show csnGo x true (' ' :: rest) = csnGo 0 true rest from rfl] at h
    rcases ih _ h with h | h | h
    exacts [Or.inl h, Or.inr (Or.inl h), Or.inr (Or.inr (List.mem_cons_of_mem _ h))]
  | case4 n rest ih =>
    intro c h
    rw [show csnGo n false (' ' :: rest) = csnGo (n + 1) false rest from rfl] at h
    rcases ih _ h with h | h | h
    exacts [Or.inl h, Or.inr (Or.inl h), Or.inr (Or.inr (List.mem_cons_of_mem _ h))]
  | case5 x b rest ih =>
    intro c h
    cases b
    · rw [show csnGo x false ('\n' :: rest) = '\n' :: csnGo 0 true rest from rfl] at h
      rcases List.mem_cons.mp h with rfl | h
      · exact Or.inr (Or.inl rfl)
      · rcases ih _ h with h | h | h
        exacts [Or.inl h, Or.inr (Or.inl h), Or.inr (Or.inr (List.mem_cons_of_mem _ h))]
    · rw [show csnGo x true ('\n' :: rest) = '\n' :: csnGo 0 true rest from rfl] at h
      rcases List.mem_cons.mp h with rfl | h
      · exact Or.inr (Or.inl rfl)
      · rcases ih _ h with h | h | h
        exacts [Or.inl h, Or.inr (Or.inl h), Or.inr (Or.inr (List.mem_cons_of_mem _ h))]
  | case6 n a rest h1 h2 h3 ih =>
    intro c h
    rw [csnGo_cons_other n true a rest (fun he => h2 rfl he) (fun he => h1 he)] at h
    rw [if_pos rfl] at h
    rcases List.mem_cons.mp h with rfl | h
    · exact Or.inr (Or.inr (List.mem_cons_self _ _))
    · rcases ih _ h with h | h | h
      exacts [Or.inl h, Or.inr (Or.inl h), Or.inr (Or.inr (List.mem_cons_of_mem _ h))]
  | case7 n b a rest h1 h2 h3 h4 ih =>
    intro c h
    have hb : b = false := by
      cases b
      · rfl
      · exact absurd rfl h4
    subst hb
    rw [csnGo_cons_other n false a rest (fun he => h2 rfl he) (fun he => h3 he)] at h
    rw [if_neg (by simp)] at h
    rcases List.mem_append.mp h with h | h
    · exact Or.inl (List.eq_of_mem_replicate h)
    · rcases List.mem_cons.mp h with rfl | h
      · exact Or.inr (Or.inr (List.mem_cons_self _ _))
      · rcases ih _ h with h | h | h
        exacts [Or.inl h, Or.inr (Or.inl h), Or.inr (Or.inr (List.mem_cons_of_mem _ h))]

theorem trim_pre_noNul {x : Chars} (h : '\x00' ∉ x) :
    '\x00' ∉ html_node_trim_whitespace x true := by
  rw [html_node_trim_whitespace]
  rw [if_pos rfl]
  exact fun hc => h (mem_rstripSet hc)

theorem trim_nonpre_noNul (x : Chars) : '\x00' ∉ html_node_trim_whitespace x false := by
  rw [html_node_trim_whitespace]
  rw [if_neg (by simp)]
  dsimp only
  intro hc
  rcases csnGo_mem _ _ _ _ hc with h | h | h
  · exact absurd h (by decide)
  · exact absurd h (by decide)
  · rcases List.mem_map.mp h with ⟨a, -, ha⟩
    by_cases h2 : a = '\x00'
    · rw [if_pos h2] at ha
      exact absurd ha (by decide)
    · rw [if_neg h2] at ha
      exact h2 ha

theorem quoteReps_other (a : Char) (rest : Chars) (ha : a ≠ '>') :
    quoteReps (a :: rest) = [] := by
  rw [quoteReps.eq_def]
  split
  all_goals rename_i heq
  · injection heq with h5 h6
    exact absurd h5 ha
  · injection heq with h5 h6
    exact absurd h5 ha
  · rfl

theorem quoteReps_step (b : Char) (r : Chars) (hb : b ≠ ' ') :
    quoteReps ('>' :: b :: r) = '>' :: quoteReps (b :: r) := by
  rw [quoteReps.eq_def]
  split
  · rename_i rest2 heq
    injection heq with h5 h6
    injection h6 with h7 h8
    exact absurd h7 hb
  · rename_i rest2 heq
    injection heq with h5 h6
    rw [h6]
  · rename_i h1 h2
    exact absurd rfl (h2 (b :: r))

theorem mem_quoteReps : ∀ (n : Nat) (l : Chars), l.length ≤ n →
    ∀ (c : Char), c ∈ quoteReps l → c = '>' ∨ c = ' ' := by
  intro n
  induction n with
  | zero =>
    intro l hn c h
    have hn0 : l = [] := List.eq_nil_of_length_eq_zero (Nat.le_zero.mp hn)
    subst hn0
    rw [show quoteReps [] = [] from rfl] at h
    simp at h
  | succ n ih =>
    intro l hn c h
    cases l with
    | nil =>
      rw [show quoteReps [] = [] from rfl] at h
      simp at h
    | cons a rest =>
      by_cases ha : a = '>'
      · subst ha
        cases rest with
        | nil =>
          rw [show quoteReps ['>'] = ['>'] from rfl] at h
          simp only [List.mem_singleton] at h
          exact Or.inl h
        | cons b r =>
          by_cases hb : b = ' '
          · subst hb
            rw [show quoteReps ('>' :: ' ' :: r) = '>' :: ' ' :: quoteReps r from rfl] at h
            rcases List.mem_cons.mp h with rfl | h
            · exact Or.inl rfl
            · rcases List.mem_cons.mp h with rfl | h
              · exact Or.inr rfl
              · have hr : r.length ≤ n := by
                  simp only [List.length_cons] at hn
                  omega
                exact ih r hr c h
          · rw [quoteReps_step b r hb] at h
            rcases List.mem_cons.mp h with rfl | h
            · exact Or.inl rfl
            · have hr : (b :: r).length ≤ n := by
                simp only [List.length_cons] at hn ⊢
                omega
              exact ih (b :: r) hr c h
      · rw [quoteReps_other a rest ha] at h
        simp at h

theorem mem_expandTabsGo : ∀ (l : Chars) (col : Nat) (c : Char),
    c ∈ expandTabsGo l col → c = ' ' ∨ c ∈ l := by
  intro l
  induction l with
  | nil => intro col c h; simp [expandTabsGo] at h
  | cons a rest ih =>
    intro col c h
    rw [expandTabsGo] at h
    by_cases h1 : a = '\t'
    · rw [if_pos h1] at h
      rcases List.mem_append.mp h with h2 | h2
      · exact Or.inl (List.eq_of_mem_replicate h2)
      · rcases ih _ _ h2 with h3 | h3
        · exact Or.inl h3
        · exact Or.inr (List.mem_cons_of_mem _ h3)
    · rw [if_neg h1] at h
      by_cases h2 : a = '\n' ∨ a = '\r'
      · rw [if_pos h2] at h
        rcases List.mem_cons.mp h with rfl | h3
        · exact Or.inr (List.mem_cons_self _ _)
        · rcases ih _ _ h3 with h4 | h4
          · exact Or.inl h4
          · exact Or.inr (List.mem_cons_of_mem _ h4)
      · rw [if_neg h2] at h
        rcases List.mem_cons.mp h with rfl | h3
        · exact Or.inr (List.mem_cons_self _ _)
        · rcases ih _ _ h3 with h4 | h4
          · exact Or.inl h4
          · exact Or.inr (List.mem_cons_of_mem _ h4)

theorem mem_toChunks : ∀ (l : Chars) (ch : Chars), ch ∈ toChunks l → ∀ c ∈ ch, c ∈ l := by
  intro l
  induction l with
  | nil =>
    intro ch h
    rw [show toChunks [] = [] from rfl] at h
    simp at h
  | cons a rest ih =>
    intro ch h c hc
    simp only [toChunks] at h
    cases hr : toChunks rest with
    | nil =>
      rw [hr] at h
      dsimp only at h
      simp only [List.mem_singleton] at h
      subst h
      rcases List.mem_cons.mp hc with rfl | hc
      · exact List.mem_cons_self _ _
      · simp at hc
    | cons g gs =>
      rw [hr] at h
      cases g with
      | nil =>
        dsimp only at h
        rcases List.mem_cons.mp h with rfl | h
        · rcases List.mem_cons.mp hc with rfl | hc
          · exact List.mem_cons_self _ _
          · simp at hc
        · rcases List.mem_cons.mp h with rfl | h
          · simp at hc
          · have h5 : ch ∈ toChunks rest := by
              rw [hr]; exact List.mem_cons_of_mem _ h
            exact List.mem_cons_of_mem _ (ih _ h5 _ hc)
      | cons d ds =>
        dsimp only at h
        split at h
        · rcases List.mem_cons.mp h with rfl | h
          · rcases List.mem_cons.mp hc with rfl | hc
            · exact List.mem_cons_self _ _
            · have h5 : d :: ds ∈ toChunks rest := by
                rw [hr]; exact List.mem_cons_self _ _
              exact List.mem_cons_of_mem _ (ih _ h5 _ hc)
          · have h5 : ch ∈ toChunks rest := by
              rw [hr]; exact List.mem_cons_of_mem _ h
            exact List.mem_cons_of_mem _ (ih _ h5 _ hc)
        · rcases List.mem_cons.mp h with rfl | h
          · rcases List.mem_cons.mp hc with rfl | hc
            · exact List.mem_cons_self _ _
            · simp at hc
          · have h5 : ch ∈ toChunks rest := by
              rw [hr]; exact h
            exact List.mem_cons_of_mem _ (ih _ h5 _ hc)

theorem takeLine_mem (w : Nat) : ∀ (l : List Chars) (cur : Nat),
    (∀ ch ∈ (takeLine w l cur).1, ch ∈ l) ∧ ∀ ch ∈ (takeLine w l cur).2, ch ∈ l := by
  intro l
  induction l with
  | nil => intro cur; simp [takeLine]
  | cons c cs ih =>
    intro cur
    rw [takeLine]
    split
    · cases h : takeLine w cs (cur + c.length) with
      | mk a b =>
        dsimp only
        have h2 := ih (cur + c.length)
        rw [h] at h2
        constructor
        · intro ch hch
          rcases List.mem_cons.mp hch with rfl | hch
          · exact List.mem_cons_self _ _
          · exact List.mem_cons_of_mem _ (h2.1 _ hch)
        · intro ch hch
          exact List.mem_cons_of_mem _ (h2.2 _ hch)
    · dsimp only
      constructor
      · intro ch hch; simp at hch
      · intro ch hch; exact hch

theorem lineSplit_mem (w : Nat) : ∀ (l : List Chars),
    (∀ ch ∈ (lineSplit w l).1, ch ∈ l) ∧ ∀ ch ∈ (lineSplit w l).2, ch ∈ l := by
  intro l
  cases l with
  | nil => simp [lineSplit]
  | cons c cs =>
    rw [lineSplit]
    split
    · cases h : takeLine w cs c.length with
      | mk a b =>
        dsimp only
        have h2 := takeLine_mem w cs c.length
        rw [h] at h2
        constructor
        · intro ch hch
          rcases List.mem_cons.mp hch with rfl | hch
          · exact List.mem_cons_self _ _
          · exact List.mem_cons_of_mem _ (h2.1 _ hch)
        · intro ch hch
          exact List.mem_cons_of_mem _ (h2.2 _ hch)
    · dsimp only
      constructor
      · intro ch hch
        simp only [List.mem_singleton] at hch
        subst hch
        exact List.mem_cons_self _ _
      · intro ch hch
        exact List.mem_cons_of_mem _ hch

theorem dropTrailing_subset (l : List Chars) : ∀ ch ∈ dropTrailingSpaceChunk l, ch ∈ l := by
  intro ch h
  rw [dropTrailingSpaceChunk] at h
  cases hl : l.getLast? with
  | none => rw [hl] at h; exact h
  | some c =>
    rw [hl] at h
    dsimp only at h
    split at h
    · exact (List.dropLast_sublist _).subset h
    · exact h

theorem wrapOne_mem (width : Nat) (ind : Chars) (d : Chars) (ds : List Chars) :
    (∀ line, (wrapOne width ind d ds).1 = some line →
      ∀ c ∈ line, c ∈ ind ∨ ∃ ch ∈ d :: ds, c ∈ ch) ∧
    ∀ ch ∈ (wrapOne width ind d ds).2, ch ∈ d :: ds := by
  have hls := lineSplit_mem (width - ind.length) (d :: ds)
  rw [wrapOne]
  cases h : lineSplit (width - ind.length) (d :: ds) with
  | mk line rest =>
    rw [h] at hls
    dsimp only
    constructor
    · intro line2 hl c hc
      split at hl
      · exact Option.noConfusion hl
      · injection hl with hl
        subst hl
        rcases List.mem_append.mp hc with h1 | h1
        · exact Or.inl h1
        · rcases List.mem_flatten.mp h1 with ⟨ch, hch, hc2⟩
          exact Or.inr ⟨ch, hls.1 _ (dropTrailing_subset _ _ hch), hc2⟩
    · intro ch hch
      exact hls.2 _ hch

theorem wrapLinesGo_mem (width : Nat) (indent : Chars) :
    ∀ (fuel : Nat) (cs : List Chars) (first : Bool),
      ∀ l ∈ wrapLinesGo width indent fuel cs first,
        ∀ c ∈ l, c ∈ indent ∨ ∃ ch ∈ cs, c ∈ ch := by
  intro fuel
  induction fuel with
  | zero => intro cs first l hl; simp [wrapLinesGo] at hl
  | succ f ih =>
    intro cs first l hl
    cases cs with
    | nil => simp [wrapLinesGo] at hl
    | cons c0 cs0 =>
      rw [wrapLinesGo] at hl
      cases h1 : (if ¬ first ∧ isSpaceChunk c0 then cs0 else c0 :: cs0) with
      | nil =>
        rw [h1] at hl
        simp at hl
      | cons d ds =>
        rw [h1] at hl
        have hsub : ∀ x, x ∈ d :: ds → x ∈ c0 :: cs0 := by
          intro x hx
          rw [← h1] at hx
          split at hx
          · exact List.mem_cons_of_mem _ hx
          · exact hx
        dsimp only at hl
        cases h2 : wrapOne width (if first then [] else indent) d ds with
        | mk part rest =>
          rw [h2] at hl
          have hwo := wrapOne_mem width (if first then [] else indent) d ds
          rw [h2] at hwo
          dsimp only at hwo
          have hrest : ∀ x, x ∈ rest → x ∈ c0 :: cs0 := fun x hx => hsub x (hwo.2 x hx)
          cases part with
          | none =>
            dsimp only at hl
            intro c hc
            rcases ih rest first l hl c hc with h | ⟨ch, hch, hc2⟩
            · exact Or.inl h
            · exact Or.inr ⟨ch, hrest _ hch, hc2⟩
          | some line =>
            dsimp only at hl
            rcases List.mem_cons.mp hl with rfl | hl2
            · intro c hc
              rcases hwo.1 l rfl c hc with h | ⟨ch, hch, hc2⟩
              · split at h
                · simp at h
                · exact Or.inl h
              · exact Or.inr ⟨ch, hsub _ hch, hc2⟩
            · intro c hc
              rcases ih rest false l hl2 c hc with h | ⟨ch, hch, hc2⟩
              · exact Or.inl h
              · exact Or.inr ⟨ch, hrest _ hch, hc2⟩

theorem pyWrap_noNul {text : Chars} (h : '\x00' ∉ text) (width : Nat) (indent : Chars)
    (hind : '\x00' ∉ indent) :
    ∀ l ∈ pyWrap text width indent, '\x00' ∉ l := by
  intro l hl hc
  have hl2 : l ∈ wrapLinesGo width indent
      ((toChunks ((expandTabs text).map fun c => if isPyWs c then ' ' else c)).length + 1)
      (toChunks ((expandTabs text).map fun c => if isPyWs c then ' ' else c)) true := by
    simpa [pyWrap, wrapLines] using hl
  rcases wrapLinesGo_mem width indent _ _ _ l hl2 '\x00' hc with h1 | ⟨ch, hch, hc2⟩
  · exact hind h1
  · have h3 := mem_toChunks _ _ hch _ hc2
    rcases List.mem_map.mp h3 with ⟨a, ha, hae⟩
    by_cases h4 : isPyWs a
    · rw [if_pos h4] at hae
      exact absurd hae (by decide)
    · rw [if_neg h4] at hae
      rw [hae] at ha
      rcases mem_expandTabsGo _ 0 _ ha with h5 | h5
      · exact absurd h5 (by decide)
      · exact h h5

theorem text_wrap_noNul {text : Chars} (h : '\x00' ∉ text) (width : Int) :
    ∀ out, text_wrap text width = some out → '\x00' ∉ out := by
  intro out ho hc
  rw [text_wrap] at ho
  split at ho
  · injection ho with ho
    subst ho
    simp at hc
  · split at ho
    · injection ho with ho
      subst ho
      exact h hc
    · split at ho
      · injection ho with ho
        subst ho
        exact h hc
      · dsimp only at ho
        split at ho
        · exact Option.noConfusion ho
        · injection ho with ho
          subst ho
          rcases mem_joinChar _ _ hc with h1 | ⟨p, hp, hcp⟩
          · exact absurd h1 (by decide)
          · rcases List.mem_map.mp hp with ⟨q, hq, hqe⟩
            rw [← hqe] at hcp
            have hq2 := mem_rstripSet hcp
            have hind : '\x00' ∉ quoteReps text := by
              intro hx
              rcases mem_quoteReps text.length text le_rfl _ hx with h2 | h2
              · exact absurd h2 (by decide)
              · exact absurd h2 (by decide)
            exact pyWrap_noNul h width.toNat (quoteReps text) hind q hq hq2

theorem text_indent_noNul {text i r : Chars} (h : '\x00' ∉ text)
    (hi : '\x00' ∉ i) (hr : '\x00' ∉ r) : '\x00' ∉ text_indent text i r := by
  rw [text_indent]
  cases hs : splitChar '\n' text with
  | nil => simp
  | cons l0 ls =>
    dsimp only
    intro hc
    rcases mem_joinChar _ _ hc with h1 | ⟨p, hp, hcp⟩
    · exact absurd h1 (by decide)
    · rcases List.mem_cons.mp hp with rfl | hp2
      · have h2 := mem_rstripSet hcp
        rcases List.mem_append.mp h2 with h3 | h3
        · exact hi h3
        · have hl0 : l0 ∈ splitChar '\n' text := by
            rw [hs]; exact List.mem_cons_self _ _
          exact h (mem_splitChar _ _ hl0 _ h3)
      · rcases List.mem_map.mp hp2 with ⟨q, hq, hqe⟩
        rw [← hqe] at hcp
        have h2 := mem_rstripSet hcp
        rcases List.mem_append.mp h2 with h3 | h3
        · exact hr h3
        · have hq2 : q ∈ splitChar '\n' text := by
            rw [hs]; exact List.mem_cons_of_mem _ hq
          exact h (mem_splitChar _ _ hq2 _ h3)

theorem wrapAll_noNul : ∀ (ls : List Chars) (width : Int),
    (∀ l ∈ ls, '\x00' ∉ l) → ∀ out, wrapAll ls width = some out → ∀ p ∈ out, '\x00' ∉ p := by
  intro ls
  induction ls with
  | nil =>
    intro width h out ho p hp
    rw [show wrapAll [] width = some [] from rfl] at ho
    injection ho with ho
    subst ho
    simp at hp
  | cons l rest ih =>
    intro width h out ho p hp
    rw [wrapAll] at ho
    cases h1 : text_wrap l width with
    | none =>
      rw [h1] at ho
      dsimp only at ho
      exact Option.noConfusion ho
    | some w =>
      rw [h1] at ho
      cases h2 : wrapAll rest width with
      | none =>
        rw [h2] at ho
        dsimp only at ho
        exact Option.noConfusion ho
      | some ws =>
        rw [h2] at ho
        dsimp only at ho
        injection ho with ho
        subst ho
        rcases List.mem_cons.mp hp with rfl | hp2
        · exact text_wrap_noNul (h _ (List.mem_cons_self _ _)) width _ h1
        · exact ih width (fun x hx => h _ (List.mem_cons_of_mem _ hx)) ws h2 _ hp2

theorem entityChar_mem (n : Chars) (ch : Char) (h : entityChar n = some ch) :
    ch = '>' ∨ ch = '<' ∨ ch = '&' ∨ ch = '"' ∨ ch = squote := by
  rw [entityChar] at h
  split_ifs at h
  all_goals first
    | (injection h with h; subst h; simp)
    | exact Option.noConfusion h

theorem mem_decodeDataGo : ∀ (fuel : Nat) (l : Chars) (c : Char),
    c ∈ decodeDataGo fuel l →
      c ∈ l ∨ c = '>' ∨ c = '<' ∨ c = '&' ∨ c = '"' ∨ c = squote := by
  intro fuel
  induction fuel with
  | zero =>
    intro l c h
    cases l with
    | nil =>
      rw [show decodeDataGo 0 [] = ([] : Chars) from rfl] at h
      simp at h
    | cons a rest =>
      rw [show decodeDataGo 0 (a :: rest) = a :: rest from rfl] at h
      exact Or.inl h
  | succ fuel ih =>
    intro l c h
    cases l with
    | nil =>
      rw [show decodeDataGo (fuel + 1) [] = [] from rfl] at h
      simp at h
    | cons a rest =>
      rw [decodeDataGo] at h
      by_cases ha : a = '&'
      · rw [if_pos ha] at h
        cases hdw : rest.dropWhile (fun x => x ≠ ';') with
        | nil =>
          rw [hdw] at h
          try dsimp only at h
          rcases List.mem_cons.mp h with rfl | h2
          · exact Or.inr (Or.inr (Or.inr (Or.inl rfl)))
          · rcases ih rest c h2 with h3 | h3
            · exact Or.inl (List.mem_cons_of_mem _ h3)
            · exact Or.inr h3
        | cons d tail =>
          rw [hdw] at h
          by_cases hd : d = ';'
          · subst hd
            try dsimp only at h
            cases he : entityChar (rest.takeWhile fun x => x ≠ ';') with
            | some ch =>
              rw [he] at h
              dsimp only at h
              rcases List.mem_cons.mp h with rfl | h2
              · exact Or.inr (entityChar_mem _ _ he)
              · rcases ih tail c h2 with h3 | h3
                · have hsub : ';' :: tail ⊆ rest := by
                    rw [← hdw]
                    exact (List.dropWhile_sublist _).subset
                  exact Or.inl (List.mem_cons_of_mem _ (hsub (List.mem_cons_of_mem _ h3)))
                · exact Or.inr h3
            | none =>
              rw [he] at h
              dsimp only at h
              rcases List.mem_cons.mp h with rfl | h2
              · exact Or.inr (Or.inr (Or.inr (Or.inl rfl)))
              · rcases ih rest c h2 with h3 | h3
                · exact Or.inl (List.mem_cons_of_mem _ h3)
                · exact Or.inr h3
          · split at h
            · rename_i tail2 heq
              injection heq with h5 h6
              exact absurd h5 hd
            · rcases List.mem_cons.mp h with rfl | h2
              · exact Or.inr (Or.inr (Or.inr (Or.inl rfl)))
              · rcases ih rest c h2 with h3 | h3
                · exact Or.inl (List.mem_cons_of_mem _ h3)
                · exact Or.inr h3
      · rw [if_neg ha] at h
        rcases List.mem_cons.mp h with rfl | h2
        · exact Or.inl (List.mem_cons_self _ _)
        · rcases ih rest c h2 with h3 | h3
          · exact Or.inl (List.mem_cons_of_mem _ h3)
          · exact Or.inr h3

theorem mem_decodeData {l : Chars} {c : Char} (h : c ∈ decodeData l) :
    c ∈ l ∨ c = '>' ∨ c = '<' ∨ c = '&' ∨ c = '"' ∨ c = squote :=
  mem_decodeDataGo _ _ _ h

theorem decodeData_noNul {l : Chars} (h : '\x00' ∉ l) : '\x00' ∉ decodeData l := by
  intro hc
  rcases mem_decodeData hc with h1 | h1
  · exact h h1
  · rcases h1 with h1 | h1 | h1 | h1 | h1 <;> exact absurd h1 (by decide)

theorem mem_skipPastGt {c : Char} {l : Chars} (h : c ∈ skipPastGt l) : c ∈ l := by
  rw [skipPastGt] at h
  cases hd : l.dropWhile (· ≠ '>') with
  | nil =>
    rw [hd] at h
    simp at h
  | cons a r =>
    rw [hd] at h
    dsimp only at h
    have hsub : a :: r ⊆ l := by
      rw [← hd]
      exact (List.dropWhile_sublist _).subset
    exact hsub (List.mem_cons_of_mem _ h)

theorem attrsNF_cons (p : String × Option Chars) (acc : List (String × Option Chars)) :
    attrsNF (p :: acc) = (pNF p && attrsNF acc) := rfl

theorem attrsNF_reverse (acc : List (String × Option Chars)) :
    attrsNF acc.reverse = attrsNF acc := List.all_reverse

theorem pNF_some (n : String) (v : Chars) : pNF (n, some v) = noNul v := rfl

theorem pNF_none (n : String) : pNF (n, none) = true := rfl

theorem parseAttrsGo_NF : ∀ (fuel : Nat) (l : Chars) (acc : List (String × Option Chars)),
    '\x00' ∉ l → attrsNF acc = true →
    ∀ attrs out sc, parseAttrsGo fuel l acc = some (attrs, out, sc) →
      attrsNF attrs = true ∧ '\x00' ∉ out := by
  intro fuel
  induction fuel with
  | zero =>
    intro l acc h1 h2 attrs out sc h
    rw [parseAttrsGo.eq_1] at h
    exact Option.noConfusion h
  | succ fuel ih =>
    intro l acc h1 h2 attrs out sc h
    cases l with
    | nil =>
      rw [parseAttrsGo.eq_2 _ _ (fun hx => Nat.succ_ne_zero _ hx)] at h
      exact Option.noConfusion h
    | cons a rest =>
      have h1t : '\x00' ∉ rest := fun hx => h1 (List.mem_cons_of_mem _ hx)
      by_cases hgt : a = '>'
      · subst hgt
        rw [parseAttrsGo.eq_3] at h
        injection h with h
        injection h with h4 h5
        injection h5 with h5 h6
        subst h4
        subst h5
        exact ⟨by rw [attrsNF_reverse]; exact h2, h1t⟩
      · by_cases hsl : a = '/'
        · subst hsl
          cases rest with
          | nil =>
            rw [parseAttrsGo.eq_5 _ _ _ (fun r hr => List.noConfusion hr)] at h
            exact ih [] acc (by simp) h2 _ _ _ h
          | cons b rest2 =>
            by_cases hb : b = '>'
            · subst hb
              rw [parseAttrsGo.eq_4] at h
              injection h with h
              injection h with h4 h5
              injection h5 with h5 h6
              subst h4
              subst h5
              refine ⟨by rw [attrsNF_reverse]; exact h2, ?_⟩
              exact fun hx => h1t (List.mem_cons_of_mem _ hx)
            · rw [parseAttrsGo.eq_5 _ _ _
                (by intro r hr; injection hr with hh h9; exact hb hh)] at h
              exact ih _ _ h1t h2 _ _ _ h
        · rw [parseAttrsGo.eq_6 acc fuel a rest (fun hx => hgt hx)
            (fun r hx hy => hsl hx) (fun hx => hsl hx)] at h
          by_cases hws : isPyWs a = true
          · rw [if_pos hws] at h
            exact ih rest acc h1t h2 _ _ _ h
          · rw [if_neg hws] at h
            dsimp only at h
            split at h
            · rename_i rest2 heq
              have hr2 : '\x00' ∉ rest2 := by
                intro hx
                have hx1 : '\x00' ∈ '=' :: rest2 := List.mem_cons_of_mem _ hx
                rw [← heq] at hx1
                exact h1 (List.drop_subset _ _ hx1)
              split at h
              · rename_i rest3
                have hr3 : '\x00' ∉ rest3 := fun hx => hr2 (List.mem_cons_of_mem _ hx)
                split at h
                · rename_i rest4 heq2
                  refine ih _ _ ?_ ?_ _ _ _ h
                  · intro hx
                    have hx1 : '\x00' ∈ '"' :: rest4 := List.mem_cons_of_mem _ hx
                    rw [← heq2] at hx1
                    exact hr3 (List.drop_subset _ _ hx1)
                  · rw [attrsNF_cons, pNF_some, h2, Bool.and_true, noNul_iff]
                    exact decodeData_noNul
                      (fun hx => hr3 ((List.takeWhile_sublist _).subset hx))
                · exact Option.noConfusion h
              · rename_i q rest3 hq
                have hr3 : '\x00' ∉ rest3 := fun hx => hr2 (List.mem_cons_of_mem _ hx)
                split at h
                · split at h
                  · rename_i head rest4 heq2
                    refine ih _ _ ?_ ?_ _ _ _ h
                    · intro hx
                      have hx1 : '\x00' ∈ head :: rest4 := List.mem_cons_of_mem _ hx
                      rw [← heq2] at hx1
                      exact hr3 (List.drop_subset _ _ hx1)
                    · rw [attrsNF_cons, pNF_some, h2, Bool.and_true, noNul_iff]
                      exact decodeData_noNul
                        (fun hx => hr3 ((List.takeWhile_sublist _).subset hx))
                  · exact Option.noConfusion h
                · try dsimp only at h
                  refine ih _ _ ?_ ?_ _ _ _ h
                  · intro hx
                    exact hr2 (List.drop_subset _ _ hx)
                  · rw [attrsNF_cons, pNF_some, h2, Bool.and_true, noNul_iff]
                    exact decodeData_noNul
                      (fun hx => hr2 ((List.takeWhile_sublist _).subset hx))
              · exact Option.noConfusion h
            · refine ih _ _ ?_ ?_ _ _ _ h
              · intro hx
                exact h1 (List.drop_subset _ _ hx)
              · rw [attrsNF_cons, pNF_none, h2]
                rfl

theorem tokenizeGo_evNF : ∀ (fuel : Nat) (l : Chars), '\x00' ∉ l →
    ∀ ev ∈ tokenizeGo fuel l, evNF ev = true := by
  intro fuel
  induction fuel with
  | zero =>
    intro l h ev hev
    rw [tokenizeGo.eq_1] at hev
    simp at hev
  | succ fuel ih =>
    intro l h ev hev
    cases l with
    | nil =>
      rw [tokenizeGo.eq_2 _ (fun hx => Nat.succ_ne_zero _ hx)] at hev
      simp at hev
    | cons a rest =>
      have ht : '\x00' ∉ rest := fun hx => h (List.mem_cons_of_mem _ hx)
      by_cases ha : a = '<'
      · subst ha
        cases rest with
        | nil =>
          rw [tokenizeGo.eq_6] at hev
          rcases List.mem_cons.mp hev with rfl | hev
          · decide
          · exact ih [] (by simp) _ hev
        | cons b rest2 =>
          have ht2 : '\x00' ∉ rest2 := fun hx => ht (List.mem_cons_of_mem _ hx)
          by_cases hb : b = '/'
          · subst hb
            rw [tokenizeGo.eq_3] at hev
            split at hev
            · exact ih _ (fun hx => ht2 (mem_skipPastGt hx)) _ hev
            · split at hev
              · rename_i head rest3 heq
                rcases List.mem_cons.mp hev with rfl | hev
                · rfl
                · refine ih _ ?_ _ hev
                  intro hx
                  have hx1 : '\x00' ∈ head :: rest3 := List.mem_cons_of_mem _ hx
                  rw [← heq] at hx1
                  have hx2 := (List.dropWhile_sublist _).subset hx1
                  exact ht2 (List.drop_subset _ _ hx2)
              · rcases List.mem_cons.mp hev with rfl | hev
                · decide
                · exact ih _ ht _ hev
          · by_cases hbang : b = '!'
            · subst hbang
              rw [tokenizeGo.eq_4] at hev
              exact ih _ (fun hx => ht2 (mem_skipPastGt hx)) _ hev
            · rw [tokenizeGo.eq_5 _ _ _ (fun hx => hb hx) (fun hx => hbang hx)] at hev
              split at hev
              · dsimp only at hev
                cases hpa : parseAttrsGo rest2.length
                    (List.drop (List.takeWhile isNameChar rest2).length rest2) [] with
                | none =>
                  rw [hpa] at hev
                  dsimp only at hev
                  rcases List.mem_cons.mp hev with rfl | hev
                  · decide
                  · exact ih _ ht _ hev
                | some t =>
                  rw [hpa] at hev
                  obtain ⟨attrs, rest3, sc⟩ := t
                  dsimp only at hev
                  have hnf := parseAttrsGo_NF rest2.length _ []
                    (fun hx => ht2 (List.drop_subset _ _ hx)) rfl attrs rest3 sc hpa
                  split at hev
                  · rcases List.mem_cons.mp hev with rfl | hev
                    · exact hnf.1
                    · rcases List.mem_cons.mp hev with rfl | hev
                      · rfl
                      · exact ih _ hnf.2 _ hev
                  · rcases List.mem_cons.mp hev with rfl | hev
                    · exact hnf.1
                    · exact ih _ hnf.2 _ hev
              · rcases List.mem_cons.mp hev with rfl | hev
                · decide
                · exact ih _ ht _ hev
      · rw [tokenizeGo.eq_7 _ _ (fun hx => List.noConfusion hx)
          (by intro r hr; injection hr with hh h9; exact ha hh)] at hev
        try dsimp only at hev
        rcases List.mem_cons.mp hev with rfl | hev
        · rw [show ∀ d, evNF (.data d) = noNul d from fun d => rfl]
          rw [noNul_iff]
          exact decodeData_noNul (fun hx => h ((List.takeWhile_sublist _).subset hx))
        · exact ih _ (fun hx => h (List.drop_subset _ _ hx)) _ hev

theorem tokenize_evNF {s : Chars} (h : '\x00' ∉ s) :
    ∀ ev ∈ tokenize s, evNF ev = true :=
  tokenizeGo_evNF _ _ h

theorem sanitize_noNul (s : Chars) : '\x00' ∉ text_sanitize s := by
  intro h
  rw [text_sanitize] at h
  exact absurd (List.of_mem_filter h) (by decide)

theorem sanitize_cc (s : Chars) :
    ∀ c ∈ text_sanitize s, isCc c = true → c = '\n' ∨ c = '\t' := by
  intro c hc hcc
  rw [text_sanitize] at hc
  have h2 := List.of_mem_filter hc
  simp only [decide_eq_true_eq] at h2
  rcases h2 with h2 | h2 | h2
  · exact Or.inl h2
  · exact Or.inr h2
  · exact absurd hcc h2

theorem nfL_append : ∀ (a b : List HTree), nfL (a ++ b) = (nfL a && nfL b) := by
  intro a b
  induction a with
  | nil => simp [nfL]
  | cons t ts ih =>
    simp only [List.cons_append, nfL, List.append_eq, ih, Bool.and_assoc]

theorem frameNF_addChild {f : Frame} {c : HTree} (hf : frameNF f = true) (hc : nfT c = true) :
    frameNF (f.addChild c) = true := by
  rw [frameNF, Bool.and_eq_true] at hf
  obtain ⟨hx, hy⟩ := hf
  simp only [frameNF, Frame.addChild, nfL_append]
  simp [hx, hy, hc, nfL]

theorem frameNF_toTree {f : Frame} (hf : frameNF f = true) : nfT f.toTree = true := by
  rw [frameNF, Bool.and_eq_true] at hf
  obtain ⟨hx, hy⟩ := hf
  simp [Frame.toTree, nfT, noNul, hx, hy]

theorem closeWalk_NF (tag : String) : ∀ (ps : List Frame) (cur : Frame),
    frameNF cur = true → (∀ p ∈ ps, frameNF p = true) →
    frameNF (closeWalk tag cur ps).1 = true ∧
      ∀ p ∈ (closeWalk tag cur ps).2, frameNF p = true := by
  intro ps
  induction ps with
  | nil =>
    intro cur hc hp
    rw [show closeWalk tag cur [] = (cur, []) from rfl]
    exact ⟨hc, by simp⟩
  | cons p ps ih =>
    intro cur hc hp
    rw [closeWalk]
    split
    · exact ⟨frameNF_addChild (hp _ (List.mem_cons_self _ _)) (frameNF_toTree hc),
        fun q hq => hp _ (List.mem_cons_of_mem _ hq)⟩
    · exact ih _ (frameNF_addChild (hp _ (List.mem_cons_self _ _)) (frameNF_toTree hc))
        (fun q hq => hp _ (List.mem_cons_of_mem _ hq))

theorem stateNF_iff (st : PState) : stateNF st = true ↔
    frameNF st.cur = true ∧ ∀ p ∈ st.parents, frameNF p = true := by
  simp [stateNF, List.all_eq_true, Bool.and_eq_true]

theorem handle_endtag_NF {st : PState} (h : stateNF st = true) (tag : String) :
    stateNF (handle_endtag st tag) = true := by
  obtain ⟨h1, h2⟩ := (stateNF_iff st).mp h
  rw [handle_endtag]
  split
  · exact h
  · dsimp only
    cases hcw : closeWalk tag st.cur st.parents with
    | mk c ps =>
      have h3 := closeWalk_NF tag st.parents st.cur h1 h2
      rw [hcw] at h3
      rw [stateNF_iff]
      exact ⟨h3.1, h3.2⟩

theorem handle_starttag_NF {st : PState} (h : stateNF st = true) (tag : String)
    {attrs : List (String × Option Chars)} (ha : attrsNF attrs = true) :
    stateNF (handle_starttag st tag attrs) = true := by
  rw [handle_starttag]
  have h0 : stateNF
      (if isAutocloseTag st.cur.tag then handle_endtag st st.cur.tag else st) = true := by
    split
    · exact handle_endtag_NF h _
    · exact h
  try dsimp only
  split
  · exact h0
  · try dsimp only
    rw [stateNF_iff]
    constructor
    · simp [frameNF, ha, nfL]
    · intro p hp
      rcases List.mem_cons.mp hp with rfl | hp
      · exact ((stateNF_iff _).mp h0).1
      · exact ((stateNF_iff _).mp h0).2 _ hp

theorem handle_data_NF {st : PState} (h : stateNF st = true) {s : Chars}
    (hs : '\x00' ∉ s) : stateNF (handle_data st s) = true := by
  rw [handle_data]
  have h0 : stateNF
      (if isAutocloseTag st.cur.tag then handle_endtag st st.cur.tag else st) = true := by
    split
    · exact handle_endtag_NF h _
    · exact h
  try dsimp only
  obtain ⟨h1, h2⟩ := (stateNF_iff _).mp h0
  rw [stateNF_iff]
  constructor
  · refine frameNF_addChild h1 ?_
    have hs2 : noNul s = true := (noNul_iff s).mpr hs
    simp [nfT, nfL, attrsNF, hs2]
  · exact h2

theorem applyEvent_NF {st : PState} (h : stateNF st = true) {ev : HEvent}
    (he : evNF ev = true) : stateNF (applyEvent st ev) = true := by
  cases ev with
  | startTag t attrs => exact handle_starttag_NF h t he
  | endTag t => exact handle_endtag_NF h t
  | data s => exact handle_data_NF h ((noNul_iff _).mp he)

theorem runEvents_NF (evs : List HEvent) (hev : ∀ ev ∈ evs, evNF ev = true) :
    stateNF (runEvents evs) = true := by
  have hgen : ∀ (l : List HEvent) (st : PState), stateNF st = true →
      (∀ ev ∈ l, evNF ev = true) → stateNF (l.foldl applyEvent st) = true := by
    intro l
    induction l with
    | nil =>
      intro st h _
      simpa using h
    | cons e es ih =>
      intro st h hev2
      rw [List.foldl_cons]
      exact ih _ (applyEvent_NF h (hev2 _ (List.mem_cons_self _ _)))
        (fun x hx => hev2 _ (List.mem_cons_of_mem _ hx))
  rw [runEvents]
  exact hgen evs initState (by decide) hev

theorem finishStack_NF : ∀ (ps : List Frame) (cur : Frame), frameNF cur = true →
    (∀ p ∈ ps, frameNF p = true) → frameNF (finishStack cur ps) = true := by
  intro ps
  induction ps with
  | nil =>
    intro cur h _
    rw [show finishStack cur [] = cur from rfl]
    exact h
  | cons p ps ih =>
    intro cur h hp
    rw [show finishStack cur (p :: ps) = finishStack (p.addChild cur.toTree) ps from rfl]
    exact ih _ (frameNF_addChild (hp _ (List.mem_cons_self _ _)) (frameNF_toTree h))
      (fun q hq => hp _ (List.mem_cons_of_mem _ hq))

theorem parseEvents_NF (evs : List HEvent) (hev : ∀ ev ∈ evs, evNF ev = true) :
    nfT (parseEvents evs) = true := by
  rw [parseEvents]
  obtain ⟨h1, h2⟩ := (stateNF_iff _).mp (runEvents_NF evs hev)
  exact frameNF_toTree (finishStack_NF _ _ h1 h2)

theorem hrefOf_noNul {attrs : List (String × Option Chars)} (h : attrsNF attrs = true) :
    '\x00' ∉ hrefOf attrs := by
  cases hf : attrs.reverse.find? (fun p => p.1 = "href") with
  | none => simp [hrefOf, hf]
  | some p =>
    have hp := List.mem_reverse.mp (List.mem_of_find?_eq_some hf)
    have hpNF : pNF p = true := List.all_eq_true.mp h p hp
    cases p with
    | mk n o =>
      cases o with
      | none => simp [hrefOf, hf]
      | some v =>
        have hv : '\x00' ∉ v := by
          rw [pNF_some] at hpNF
          exact (noNul_iff v).mp hpNF
        simpa [hrefOf, hf] using hv

theorem inlineRewrite_noNul {tag : String} {attrs : List (String × Option Chars)}
    {text ctext : Chars} {pre : Bool} (htag : tag ≠ "br") (htext : '\x00' ∉ text)
    (hctext : '\x00' ∉ ctext) (hattrs : attrsNF attrs = true) :
    '\x00' ∉ inlineRewrite tag attrs text pre ctext := by
  rw [inlineRewrite]
  split_ifs with h1 h2 h3 h4 h5
  · exact htext
  · intro hc
    rcases List.mem_cons.mp hc with h | h
    · exact absurd h (by decide)
    · rcases List.mem_append.mp h with h | h
      · exact hctext h
      · simp only [List.mem_singleton] at h
        exact absurd h (by decide)
  · intro hc
    rcases List.mem_cons.mp hc with h | h
    · exact absurd h (by decide)
    · rcases List.mem_append.mp h with h | h
      · exact hctext h
      · simp only [List.mem_singleton] at h
        exact absurd h (by decide)
  · intro hc
    rcases List.mem_cons.mp hc with h | h
    · exact absurd h (by decide)
    · rcases List.mem_append.mp h with h | h
      · exact hctext h
      · simp only [List.mem_singleton] at h
        exact absurd h (by decide)
  · dsimp only
    split
    · exact hrefOf_noNul hattrs
    · split
      · intro hc
        rcases List.mem_append.mp hc with h | h
        · exact hctext h
        · rcases List.mem_cons.mp h with h | h
          · exact absurd h (by decide)
          · exact hrefOf_noNul hattrs h
      · exact hctext
  · exact hctext

mutual

theorem allNF_preNF : ∀ (t : HTree), allNF t = true → preNF t = true
  | .node tag a x pre cs, h => by
    rw [allNF, Bool.and_eq_true] at h
    rw [preNF, Bool.and_eq_true]
    refine ⟨?_, allNFL_preNFL cs h.2⟩
    rw [h.1]
    simp

theorem allNFL_preNFL : ∀ (ts : List HTree), allNFL ts = true → preNFL ts = true
  | [], _ => rfl
  | t :: ts, h => by
    rw [allNFL, Bool.and_eq_true] at h
    rw [preNFL, Bool.and_eq_true]
    exact ⟨allNF_preNF t h.1, allNFL_preNFL ts h.2⟩

end

mutual

theorem pi_brFree : ∀ (t : HTree) (i : Bool), brFree t = true → nfT t = true →
    allNF (html_node_process_inline t i).1 = true ∧
      '\x00' ∉ (html_node_process_inline t i).2
  | .node tag a x pre cs, i, hbr, hnf => by
    simp only [brFree, decide_eq_true_eq] at hbr
    rw [nfT, Bool.and_eq_true] at hnf
    rw [Bool.and_eq_true] at hnf
    have hx : '\x00' ∉ x := (noNul_iff x).mp hnf.1.1
    have hrec := piL_brFree cs (if ¬ isBlockTag tag then true else i) hbr.2 hnf.2
    rw [html_node_process_inline]
    try dsimp only
    cases hpl : processInlineList cs (if ¬ isBlockTag tag then true else i) with
    | mk cs2 ctext =>
      rw [hpl] at hrec
      dsimp only at hrec
      try dsimp only
      have hnew : '\x00' ∉ inlineRewrite tag a x pre ctext :=
        inlineRewrite_noNul hbr.1 hx hrec.2 hnf.1.2
      have hflat : allNF (HTree.node "text" a (inlineRewrite tag a x pre ctext) pre []) =
          true ∧ '\x00' ∉ inlineRewrite tag a x pre ctext := by
        refine ⟨?_, hnew⟩
        rw [allNF, Bool.and_eq_true]
        exact ⟨(noNul_iff _).mpr hnew, rfl⟩
      have hblock : allNF (HTree.node tag a x pre cs2) = true ∧
          '\x00' ∉ ([] : Chars) := by
        refine ⟨?_, by simp⟩
        rw [allNF, Bool.and_eq_true]
        exact ⟨hnf.1.1, hrec.1⟩
      split
      · rw [if_neg (by simp)]
        exact hflat
      · cases i with
        | true =>
          rw [if_neg (by simp)]
          exact hflat
        | false =>
          rw [if_pos (by simp)]
          exact hblock

theorem piL_brFree : ∀ (ts : List HTree) (i : Bool), brFreeList ts = true → nfL ts = true →
    allNFL (processInlineList ts i).1 = true ∧ '\x00' ∉ (processInlineList ts i).2
  | [], i, _, _ => by
    rw [show processInlineList [] i = ([], []) from rfl]
    exact ⟨rfl, by simp⟩
  | t :: ts, i, hbr, hnf => by
    simp only [brFreeList, decide_eq_true_eq] at hbr
    rw [nfL, Bool.and_eq_true] at hnf
    have h1 := pi_brFree t i hbr.1 hnf.1
    have h2 := piL_brFree ts i hbr.2 hnf.2
    rw [processInlineList]
    cases hp1 : html_node_process_inline t i with
    | mk t2 s1 =>
      cases hp2 : processInlineList ts i with
      | mk ts2 s2 =>
        rw [hp1] at h1
        rw [hp2] at h2
        dsimp only at h1 h2 ⊢
        constructor
        · rw [allNFL, Bool.and_eq_true]
          exact ⟨h1.1, h2.1⟩
        · intro hc
          rcases List.mem_append.mp hc with h | h
          · exact h1.2 h
          · exact h2.2 h

end

mutual

theorem pi_preNF : ∀ (t : HTree) (i : Bool), noBrInPre t = true → nfT t = true →
    preNF (html_node_process_inline t i).1 = true
  | .node tag a x pre cs, i, hbp, hnf => by
    rw [noBrInPre] at hbp
    cases pre with
    | true =>
      rw [if_pos rfl] at hbp
      exact allNF_preNF _ (pi_brFree (.node tag a x true cs) i hbp hnf).1
    | false =>
      rw [if_neg (by simp)] at hbp
      rw [nfT, Bool.and_eq_true] at hnf
      rw [Bool.and_eq_true] at hnf
      have hrec := piL_preNF cs (if ¬ isBlockTag tag then true else i) hbp hnf.2
      rw [html_node_process_inline]
      try dsimp only
      cases hpl : processInlineList cs (if ¬ isBlockTag tag then true else i) with
      | mk cs2 ctext =>
        rw [hpl] at hrec
        dsimp only at hrec
        try dsimp only
        have hflat : preNF (HTree.node "text" a (inlineRewrite tag a x false ctext)
            false []) = true := by
          rw [preNF, Bool.and_eq_true]
          exact ⟨by simp, rfl⟩
        have hblock : preNF (HTree.node tag a x false cs2) = true := by
          rw [preNF, Bool.and_eq_true]
          exact ⟨by simp, hrec⟩
        split
        · rw [if_neg (by simp)]
          exact hflat
        · cases i with
          | true =>
            rw [if_neg (by simp)]
            exact hflat
          | false =>
            rw [if_pos (by simp)]
            exact hblock

theorem piL_preNF : ∀ (ts : List HTree) (i : Bool), noBrInPreList ts = true →
    nfL ts = true → preNFL (processInlineList ts i).1 = true
  | [], i, _, _ => by
    rw [show processInlineList [] i = ([], []) from rfl]
    rfl
  | t :: ts, i, hbp, hnf => by
    simp only [noBrInPreList, decide_eq_true_eq] at hbp
    rw [nfL, Bool.and_eq_true] at hnf
    have h1 := pi_preNF t i hbp.1 hnf.1
    have h2 := piL_preNF ts i hbp.2 hnf.2
    rw [processInlineList]
    cases hp1 : html_node_process_inline t i with
    | mk t2 s1 =>
      cases hp2 : processInlineList ts i with
      | mk ts2 s2 =>
        rw [hp1] at h1
        rw [hp2] at h2
        dsimp only at h1 h2 ⊢
        rw [preNFL, Bool.and_eq_true]
        exact ⟨h1, h2⟩

end

theorem noNul_append (a b : Chars) : noNul (a ++ b) = (noNul a && noNul b) :=
  List.all_append

theorem mergeRunGo_postNF : ∀ (rest : List HTree) (acc : HTree), postNF acc = true →
    (∀ c ∈ rest, postNF c = true) → ∀ c ∈ mergeRunGo acc rest, postNF c = true := by
  intro rest
  induction rest with
  | nil =>
    intro acc hacc h c hc
    rw [show mergeRunGo acc [] = [acc] from rfl] at hc
    simp only [List.mem_singleton] at hc
    subst hc
    exact hacc
  | cons b rest ih =>
    intro acc hacc h c hc
    rw [mergeRunGo] at hc
    split at hc
    · rename_i hcond
      refine ih _ ?_ (fun d hd => h _ (List.mem_cons_of_mem _ hd)) _ hc
      have hb := h b (List.mem_cons_self _ _)
      cases b with
      | node btag ba bx bpre bcs =>
        cases acc with
        | node atag aa ax apre acs =>
          simp only [HTree.tag, HTree.pre, HTree.attrs, HTree.text, HTree.children] at hcond ⊢
          rw [postNF, Bool.and_eq_true] at hb hacc
          rw [postNF, Bool.and_eq_true]
          refine ⟨?_, hb.2⟩
          cases bpre with
          | false => simp
          | true =>
            have hapre : apre = true := hcond.2.2.symm
            subst hapre
            have h1 : noNul ax = true := by simpa using hacc.1
            have h2 : noNul bx = true := by simpa using hb.1
            rw [noNul_append, h1, h2]
            simp
    · rename_i hcond
      rcases List.mem_cons.mp hc with rfl | hc
      · exact hacc
      · exact ih _ (h _ (List.mem_cons_self _ _))
          (fun d hd => h _ (List.mem_cons_of_mem _ hd)) _ hc

theorem mergeTextNodes_postNF {ts : List HTree} (h : ∀ c ∈ ts, postNF c = true) :
    ∀ c ∈ mergeTextNodes ts, postNF c = true := by
  cases ts with
  | nil =>
    intro c hc
    rw [show mergeTextNodes [] = [] from rfl] at hc
    simp at hc
  | cons a rest =>
    intro c hc
    rw [mergeTextNodes] at hc
    exact mergeRunGo_postNF rest a (h _ (List.mem_cons_self _ _))
      (fun d hd => h _ (List.mem_cons_of_mem _ hd)) _ hc

theorem trimMap_textNF {l : List HTree} (h : ∀ c ∈ l, postNF c = true) :
    ∀ c ∈ l.map (fun c =>
      if c.tag = "text" then
        HTree.node c.tag c.attrs (html_node_trim_whitespace c.text c.pre) c.pre c.children
      else c), textNF c = true := by
  intro c hc
  rcases List.mem_map.mp hc with ⟨d, hd, rfl⟩
  have hpost := h d hd
  cases d with
  | node dtag da dx dpre dcs =>
    rw [postNF, Bool.and_eq_true] at hpost
    simp only [HTree.tag, HTree.attrs, HTree.text, HTree.pre, HTree.children]
    by_cases ht : dtag = "text"
    · rw [if_pos ht]
      rw [textNF, Bool.and_eq_true]
      refine ⟨?_, hpost.2⟩
      have hnn : '\x00' ∉ html_node_trim_whitespace dx dpre := by
        cases dpre with
        | true =>
          have h9 : noNul dx = true := by simpa using hpost.1
          exact trim_pre_noNul ((noNul_iff dx).mp h9)
        | false => exact trim_nonpre_noNul dx
      rw [(noNul_iff _).mpr hnn]
      simp
    · rw [if_neg ht]
      rw [textNF, Bool.and_eq_true]
      refine ⟨?_, hpost.2⟩
      simp [ht]

theorem textNFL_of_forall : ∀ (l : List HTree), (∀ c ∈ l, textNF c = true) →
    textNFL l = true
  | [], _ => rfl
  | t :: ts, h => by
    rw [textNFL, Bool.and_eq_true]
    exact ⟨h _ (List.mem_cons_self _ _),
      textNFL_of_forall ts (fun d hd => h _ (List.mem_cons_of_mem _ hd))⟩

theorem textNFL_forall : ∀ (l : List HTree), textNFL l = true → ∀ c ∈ l, textNF c = true
  | [], _, c, hc => absurd hc (List.not_mem_nil c)
  | t :: ts, h, c, hc => by
    rw [textNFL, Bool.and_eq_true] at h
    rcases List.mem_cons.mp hc with rfl | hc
    · exact h.1
    · exact textNFL_forall ts h.2 c hc

mutual

theorem pt_post : ∀ (t : HTree), preNF t = true → postNF (html_node_process_text t) = true
  | .node tag a x pre cs, h => by
    rw [preNF, Bool.and_eq_true] at h
    rw [html_node_process_text]
    try dsimp only
    rw [postNF, Bool.and_eq_true]
    refine ⟨h.1, textNFL_of_forall _ ?_⟩
    intro c hc
    have hc2 := List.mem_of_mem_filter hc
    exact trimMap_textNF (mergeTextNodes_postNF (ptL_post cs h.2)) _ hc2

theorem ptL_post : ∀ (ts : List HTree), preNFL ts = true →
    ∀ c ∈ processTextList ts, postNF c = true
  | [], _, c, hc => by
    rw [show processTextList [] = [] from rfl] at hc
    exact absurd hc (List.not_mem_nil c)
  | t :: ts, h, c, hc => by
    rw [preNFL, Bool.and_eq_true] at h
    rw [processTextList] at hc
    rcases List.mem_cons.mp hc with rfl | hc
    · exact pt_post t h.1
    · exact ptL_post ts h.2 c hc

end

theorem render_assemble_noNul (tag : String) (wv : Int) (parts : List Chars)
    (hparts : ∀ p ∈ parts, '\x00' ∉ p) :
    '\x00' ∉ (let parts2 := if tag = "hr" then List.replicate wv.toNat '-' :: parts else parts
               let text := joinChar '\n' parts2
               if tag = "blockquote" then text_indent text ['>', ' '] ['>', ' ']
               else if tag = "pre" then text_indent text ['|', ' '] ['|', ' ']
               else if tag = "li" then text_indent text ['-', ' '] [' ', ' ']
               else text) := by
  dsimp only
  have hP2 : ∀ p ∈ (if tag = "hr" then List.replicate wv.toNat '-' :: parts else parts),
      '\x00' ∉ p := by
    split
    · intro p hp
      rcases List.mem_cons.mp hp with rfl | hp
      · intro hx
        exact absurd (List.eq_of_mem_replicate hx) (by decide)
      · exact hparts _ hp
    · exact hparts
  have htext : '\x00' ∉ joinChar '\n'
      (if tag = "hr" then List.replicate wv.toNat '-' :: parts else parts) := by
    intro hx
    rcases mem_joinChar _ _ hx with h | ⟨p, hp, hcp⟩
    · exact absurd h (by decide)
    · exact hP2 _ hp hcp
  split
  · exact text_indent_noNul htext (by decide) (by decide)
  · split
    · exact text_indent_noNul htext (by decide) (by decide)
    · split
      · exact text_indent_noNul htext (by decide) (by decide)
      · exact htext

mutual

theorem rb_noNul : ∀ (t : HTree) (w : Int), textNFL t.children = true →
    ∀ out, html_node_render_block t w = some out → '\x00' ∉ out
  | .node tag a x pre cs, w, hcs, out, hout => by
    rw [html_node_render_block] at hout
    try dsimp only at hout
    cases hrp : renderParts cs
        (if tag = "blockquote" ∨ tag = "li" ∨ tag = "pre" then w - 2 else w) with
    | none =>
      rw [hrp] at hout
      exact Option.noConfusion hout
    | some parts =>
      rw [hrp] at hout
      try dsimp only at hout
      have hparts := rp_noNul cs
        (if tag = "blockquote" ∨ tag = "li" ∨ tag = "pre" then w - 2 else w) hcs parts hrp
      injection hout with hout
      subst hout
      exact render_assemble_noNul tag _ parts hparts

theorem rp_noNul : ∀ (ts : List HTree) (w : Int), textNFL ts = true →
    ∀ parts, renderParts ts w = some parts → ∀ p ∈ parts, '\x00' ∉ p
  | [], w, _, parts, hp => by
    rw [show renderParts [] w = some [] from renderParts.eq_1 w] at hp
    injection hp with hp
    subst hp
    intro p hpp
    exact absurd hpp (List.not_mem_nil p)
  | c :: rest, w, h, parts, hp => by
    rw [textNFL, Bool.and_eq_true] at h
    rw [renderParts_cons] at hp
    cases hone : renderOne c w with
    | none =>
      rw [hone] at hp
      try dsimp only at hp
      exact absurd hp (Option.noConfusion)
    | some part =>
      rw [hone] at hp
      cases hrest : renderParts rest w with
      | none =>
        rw [hrest] at hp
        try dsimp only at hp
        exact absurd hp (Option.noConfusion)
      | some parts2 =>
        rw [hrest] at hp
        try dsimp only at hp
        injection hp with hp
        subst hp
        have hrec := rp_noNul rest w h.2 parts2 hrest
        have hpart : '\x00' ∉ part := by
          cases c with
          | node ctag ca cx cpre ccs =>
            have ht := h.1
            rw [textNF, Bool.and_eq_true] at ht
            rw [renderOne] at hone
            split at hone
            · rename_i hcond
              simp only [HTree.tag, HTree.pre] at hcond
              injection hone with hone
              subst hone
              have h9 : noNul cx = true := by
                have h8 := ht.1
                rw [hcond.1] at h8
                simpa using h8
              simp only [HTree.text]
              exact (noNul_iff _).mp h9
            · rename_i hcond
              split at hone
              · rename_i hcond2
                simp only [HTree.tag] at hcond2
                split at hone
                · rename_i ls hws
                  injection hone with hone
                  subst hone
                  have h9 : noNul cx = true := by
                    have h8 := ht.1
                    rw [hcond2] at h8
                    simpa using h8
                  have hcx : '\x00' ∉ cx := (noNul_iff _).mp h9
                  simp only [HTree.text] at hws
                  have hls := wrapAll_noNul (splitChar '\n' cx) w
                    (fun l hl hx => hcx (mem_splitChar _ _ hl _ hx)) ls hws
                  intro hx
                  rcases mem_joinChar _ _ hx with h5 | ⟨p, hp2, hcp⟩
                  · exact absurd h5 (by decide)
                  · exact hls _ hp2 hcp
                · exact Option.noConfusion hone
              · rename_i hcond2
                exact rb_noNul (.node ctag ca cx cpre ccs) w ht.2 part hone
        intro p hpp
        rcases List.mem_cons.mp hpp with rfl | hpp
        · exact hpart
        · revert hpp
          split
          · intro hpp
            rcases List.mem_cons.mp hpp with rfl | hpp
            · simp
            · exact hrec _ hpp
          · intro hpp
            exact hrec _ hpp

end

theorem postNF_children : ∀ (t : HTree), postNF t = true → textNFL t.children = true
  | .node tag a x pre cs, h => by
    rw [postNF, Bool.and_eq_true] at h
    exact h.2

/-! ## C5 — the br sentinel -/

/-- C5 counterexample: a `br` inside `<pre>` leaks the `\x00` sentinel into the
final output — `html_node_trim_whitespace` only substitutes the sentinel in
non-preformatted text, and a preformatted text node keeps it verbatim: rendering
`<pre>a<br>b</pre>` yields the five characters `| a\x00b` with the sentinel in
the middle, contradicting the claim's "never appears in the final output —
including when the br occurs inside a pre region". -/
theorem c5_counterexample :
    html_render "<pre>a<br>b</pre>".data = some ['|', ' ', 'a', '\x00', 'b'] ∧
    '\x00' ∈ ['|', ' ', 'a', '\x00', 'b'] := by
  constructor
  · decide
  · decide

/-- C5 (amended): the inline flattener rewrites every `br` to the sentinel
`\x00`; the text normalizer resolves the sentinel in every non-preformatted
text node (its trimmed text never contains `\x00`); and provided no `br`
element occurs inside a preformatted region of the parse tree, the sentinel
never appears in the output of `html_render`.  Without that guard the claim is
false (see the counterexample). -/
theorem c5_br_sentinel (s : Chars)
    (h : noBrInPre (parseEvents (tokenize (text_sanitize s))) = true) :
    (∀ a x pre c, inlineRewrite "br" a x pre c = ['\x00']) ∧
    (∀ x, '\x00' ∉ html_node_trim_whitespace x false) ∧
    (∀ out, html_render s = some out → '\x00' ∉ out) := by
  refine ⟨?_, trim_nonpre_noNul, ?_⟩
  · intro a x pre c
    rw [inlineRewrite]
    rw [if_neg (by decide), if_pos rfl]
  · intro out hout
    have h3 := parseEvents_NF _ (tokenize_evNF (sanitize_noNul s))
    have h4 := pi_preNF (parseEvents (tokenize (text_sanitize s))) false h h3
    have h5 := pt_post _ h4
    have h6 := postNF_children _ h5
    rw [html_render] at hout
    rw [renderTree] at hout
    exact rb_noNul _ 70 h6 out hout

/-- Witness for `c5_br_sentinel`: `<p>a<br>b</p>` has its `br` outside any
preformatted region, so the theorem applies and its render is sentinel-free. -/
theorem c5_br_sentinel_witness :
    noBrInPre (parseEvents (tokenize (text_sanitize "<p>a<br>b</p>".data))) = true ∧
    (∀ out, html_render "<p>a<br>b</p>".data = some out → '\x00' ∉ out) :=
  ⟨by decide, (c5_br_sentinel "<p>a<br>b</p>".data (by decide)).2.2⟩

/-! ## C10 — sanitization and sentinel provenance -/

/-- C10: `text_sanitize` keeps only `\n` and `\t` among control characters (in
particular it removes every NUL from the raw input) before the tokenizer runs;
consequently every text payload and attribute value of the parse tree is
sentinel-free; and for a `br`-free parse tree the flattened tree is
sentinel-free everywhere — so every sentinel character the normalizer sees
originates from a `br` element, never from input text. -/
theorem c10_sanitize_sentinel (s : Chars) :
    (∀ c ∈ text_sanitize s, isCc c = true → c = '\n' ∨ c = '\t') ∧
    '\x00' ∉ text_sanitize s ∧
    nfT (parseEvents (tokenize (text_sanitize s))) = true ∧
    (brFree (parseEvents (tokenize (text_sanitize s))) = true →
      allNF (html_node_process_inline
        (parseEvents (tokenize (text_sanitize s))) false).1 = true) :=
  ⟨sanitize_cc s, sanitize_noNul s,
    parseEvents_NF _ (tokenize_evNF (sanitize_noNul s)),
    fun hbr => (pi_brFree _ false hbr
      (parseEvents_NF _ (tokenize_evNF (sanitize_noNul s)))).1⟩

/-- Witness for `c10_sanitize_sentinel`: on `<p>a\x00b</p>` the sanitizer
drops the raw NUL, and the (br-free) parse tree flattens to a sentinel-free
tree through the theorem's final conjunct. -/
theorem c10_sanitize_sentinel_witness :
    '\x00' ∉ text_sanitize "<p>a\x00b</p>".data ∧
    brFree (parseEvents (tokenize (text_sanitize "<p>a\x00b</p>".data))) = true ∧
    allNF (html_node_process_inline
      (parseEvents (tokenize (text_sanitize "<p>a\x00b</p>".data))) false).1 = true :=
  ⟨(c10_sanitize_sentinel _).2.1, by decide,
    (c10_sanitize_sentinel "<p>a\x00b</p>".data).2.2.2 (by decide)⟩

/-! ## C1 — failure at deep nesting -/

theorem bqInput_length : ∀ (n : Nat), (bqInput n).length = 12 * n + 1 := by
  intro n
  induction n with
  | zero => rfl
  | succ n ih =>
    rw [show bqInput (n + 1) = "<blockquote>".data ++ bqInput n from rfl]
    rw [List.length_append, ih]
    rw [show ("<blockquote>".data).length = 12 from rfl]
    omega

theorem tokenizeGo_bq_step (k : Nat) (n : Nat) :
    tokenizeGo (k + 1) (bqInput (n + 1)) =
      HEvent.startTag "blockquote" [] :: tokenizeGo k (bqInput n) := rfl

theorem tokenize_bq : ∀ (n f : Nat),
    tokenizeGo (n + (f + 2)) (bqInput n) =
      List.replicate n (HEvent.startTag "blockquote" []) ++ [HEvent.data ['x']] := by
  intro n
  induction n with
  | zero =>
    intro f
    rw [show (0 + (f + 2)) = (f + 1) + 1 from by omega]
    rw [show tokenizeGo ((f + 1) + 1) (bqInput 0) =
      HEvent.data ['x'] :: tokenizeGo (f + 1) [] from rfl]
    rw [tokenizeGo.eq_2 _ (fun hx => Nat.succ_ne_zero _ hx)]
    rfl
  | succ n ih =>
    intro f
    rw [show (n + 1) + (f + 2) = (n + (f + 2)) + 1 from by omega]
    rw [tokenizeGo_bq_step (n + (f + 2)) n]
    rw [ih f]
    rw [List.replicate_succ]
    rfl

theorem tokenize_bqInput (n : Nat) :
    tokenize (bqInput (n + 1)) =
      List.replicate (n + 1) (HEvent.startTag "blockquote" []) ++ [HEvent.data ['x']] := by
  rw [tokenize]
  rw [show (bqInput (n + 1)).length + 1 = (n + 1) + ((11 * n + 11) + 2) from by
    rw [bqInput_length]; omega]
  exact tokenize_bq (n + 1) (11 * n + 11)

theorem foldl_bq_starts : ∀ (n : Nat) (ps : List Frame),
    (List.replicate n (HEvent.startTag "blockquote" [])).foldl applyEvent
        ⟨⟨"blockquote", [], false, []⟩, ps, 0⟩ =
      ⟨⟨"blockquote", [], false, []⟩,
        List.replicate n ⟨"blockquote", [], false, []⟩ ++ ps, 0⟩ := by
  intro n
  induction n with
  | zero => intro ps; rfl
  | succ n ih =>
    intro ps
    rw [List.replicate_succ, List.foldl_cons]
    rw [show applyEvent ⟨⟨"blockquote", [], false, []⟩, ps, 0⟩
        (HEvent.startTag "blockquote" []) =
      ⟨⟨"blockquote", [], false, []⟩, ⟨"blockquote", [], false, []⟩ :: ps, 0⟩ from rfl]
    rw [ih]
    rw [show List.replicate (n + 1) (⟨"blockquote", [], false, []⟩ : Frame) =
      List.replicate n ⟨"blockquote", [], false, []⟩ ++ [⟨"blockquote", [], false, []⟩]
      from List.replicate_succ' _ _]
    simp

theorem finishStack_bq : ∀ (n k : Nat) (c : Frame), c.toTree = bqChain k →
    finishStack c (List.replicate n ⟨"blockquote", [], false, []⟩ ++
        [⟨"root", [], false, []⟩]) =
      Frame.addChild ⟨"root", [], false, []⟩ (bqChain (n + k)) := by
  intro n
  induction n with
  | zero =>
    intro k c hc
    rw [show (List.replicate 0 (⟨"blockquote", [], false, []⟩ : Frame) ++
      [⟨"root", [], false, []⟩]) = [⟨"root", [], false, []⟩] from rfl]
    rw [show finishStack c [⟨"root", [], false, []⟩] =
      Frame.addChild ⟨"root", [], false, []⟩ c.toTree from rfl]
    rw [hc]
    rw [show (0 : Nat) + k = k from by omega]
  | succ n ih =>
    intro k c hc
    rw [List.replicate_succ, List.cons_append]
    rw [show finishStack c ((⟨"blockquote", [], false, []⟩ : Frame) ::
        (List.replicate n ⟨"blockquote", [], false, []⟩ ++ [⟨"root", [], false, []⟩])) =
      finishStack (Frame.addChild ⟨"blockquote", [], false, []⟩ c.toTree)
        (List.replicate n ⟨"blockquote", [], false, []⟩ ++ [⟨"root", [], false, []⟩])
      from rfl]
    have hc2 : (Frame.addChild ⟨"blockquote", [], false, []⟩ c.toTree).toTree =
        bqChain (k + 1) := by
      rw [hc]
      rfl
    rw [ih (k + 1) _ hc2]
    rw [show n + (k + 1) = n + 1 + k from by omega]

theorem parse_bq (n : Nat) :
    parseEvents (List.replicate (n + 1) (HEvent.startTag "blockquote" []) ++
        [HEvent.data ['x']]) =
      HTree.node "root" [] [] false [bqChain n] := by
  rw [parseEvents, runEvents]
  have hfold : List.foldl applyEvent initState
      (List.replicate (n + 1) (HEvent.startTag "blockquote" []) ++ [HEvent.data ['x']]) =
      ⟨⟨"blockquote", [], false, [HTree.node "text" [] ['x'] false []]⟩,
        List.replicate n ⟨"blockquote", [], false, []⟩ ++ [⟨"root", [], false, []⟩], 0⟩ := by
    have hinner : List.foldl applyEvent initState
        (List.replicate (n + 1) (HEvent.startTag "blockquote" [])) =
        ⟨⟨"blockquote", [], false, []⟩,
          List.replicate n ⟨"blockquote", [], false, []⟩ ++ [⟨"root", [], false, []⟩], 0⟩ := by
      rw [List.replicate_succ, List.foldl_cons]
      rw [show applyEvent initState (HEvent.startTag "blockquote" []) =
        ⟨⟨"blockquote", [], false, []⟩, [⟨"root", [], false, []⟩], 0⟩ from rfl]
      exact foldl_bq_starts n [⟨"root", [], false, []⟩]
    rw [List.foldl_append, hinner]
    rfl
  rw [hfold]
  try dsimp only
  rw [finishStack_bq n 0 _ (show (⟨"blockquote", [], false,
      [HTree.node "text" [] ['x'] false []]⟩ : Frame).toTree = bqChain 0 from rfl)]
  rw [show n + 0 = n from by omega]
  rfl

theorem bqChain_tag (n : Nat) : (bqChain n).tag = "blockquote" := by
  cases n with
  | zero => rfl
  | succ m => rfl

theorem bqChain_pre (n : Nat) : (bqChain n).pre = false := by
  cases n with
  | zero => rfl
  | succ m => rfl

theorem flatten_bqChain : ∀ (n : Nat),
    html_node_process_inline (bqChain n) false = (bqChain n, []) := by
  intro n
  induction n with
  | zero => rfl
  | succ n ih =>
    rw [show bqChain (n + 1) = HTree.node "blockquote" [] [] false [bqChain n] from rfl]
    rw [html_node_process_inline]
    try dsimp only
    rw [show (if ¬ isBlockTag "blockquote" then true else false) = false from rfl]
    rw [processInlineList]
    rw [ih]
    rw [show processInlineList ([] : List HTree) false = ([], []) from by
      rw [processInlineList]]
    try dsimp only
    rw [if_pos (by simp)]

theorem text_bqChain : ∀ (n : Nat),
    html_node_process_text (bqChain n) = bqChain n := by
  intro n
  induction n with
  | zero => rfl
  | succ n ih =>
    rw [show bqChain (n + 1) = HTree.node "blockquote" [] [] false [bqChain n] from rfl]
    rw [html_node_process_text]
    simp only [processTextList, ih]
    rw [show mergeTextNodes [bqChain n] = [bqChain n] from by
      rw [mergeTextNodes]
      rw [show mergeRunGo (bqChain n) [] = [bqChain n] from rfl]]
    simp only [List.map_cons, List.map_nil, bqChain_tag]
    rw [if_neg (by decide)]
    rw [List.filter_cons]
    rw [if_pos (by simp [bqChain_tag])]
    rfl

theorem text_wrap_isSome (l : Chars) (w : Int) (hw : 0 < w) :
    (text_wrap l w).isSome = true := by
  rw [text_wrap]
  split
  · rfl
  · split
    · rfl
    · split
      · rfl
      · dsimp only
        rw [if_neg (by omega)]
        rfl

theorem wrapAll_isSome : ∀ (ls : List Chars) (w : Int), 0 < w →
    (wrapAll ls w).isSome = true
  | [], w, _ => rfl
  | l :: rest, w, hw => by
    rw [wrapAll]
    have h1 := text_wrap_isSome l w hw
    cases ht : text_wrap l w with
    | none =>
      rw [ht] at h1
      exact absurd h1 (by simp)
    | some v =>
      have h2 := wrapAll_isSome rest w hw
      cases hr : wrapAll rest w with
      | none =>
        rw [hr] at h2
        exact absurd h2 (by simp)
      | some vs =>
        rfl

theorem depthT_pos : ∀ (t : HTree), 1 ≤ depthT t
  | .node tag a x pre cs => by
    rw [depthT]
    omega

mutual

theorem rb_isSome : ∀ (t : HTree) (w : Int), 2 * (depthT t : Int) < w →
    (html_node_render_block t w).isSome = true
  | .node tag a x pre cs, w, hd => by
    rw [html_node_render_block]
    try dsimp only
    have hd2 : 2 * (depthList cs : Int) <
        (if tag = "blockquote" ∨ tag = "li" ∨ tag = "pre" then w - 2 else w) := by
      rw [depthT] at hd
      split
      · push_cast at hd ⊢
        omega
      · push_cast at hd ⊢
        omega
    have h1 := rp_isSome cs _ hd2
    cases hrp : renderParts cs
        (if tag = "blockquote" ∨ tag = "li" ∨ tag = "pre" then w - 2 else w) with
    | none =>
      rw [hrp] at h1
      exact absurd h1 (by simp)
    | some parts =>
      rfl

theorem rp_isSome : ∀ (ts : List HTree) (w : Int), 2 * (depthList ts : Int) < w →
    (renderParts ts w).isSome = true
  | [], w, _ => by
    rw [renderParts.eq_1 w]
    rfl
  | c :: rest, w, hd => by
    rw [renderParts_cons]
    have hdc : 2 * (depthT c : Int) < w := by
      rw [depthList] at hd
      push_cast at hd ⊢
      omega
    have hdr : 2 * (depthList rest : Int) < w := by
      rw [depthList] at hd
      push_cast at hd ⊢
      omega
    have hwpos : 0 < w := by
      have := depthT_pos c
      have h9 : (1 : Int) ≤ (depthT c : Int) := by exact_mod_cast this
      omega
    have hone : (renderOne c w).isSome = true := by
      rw [renderOne]
      split
      · rfl
      · split
        · have hws := wrapAll_isSome (splitChar '\n' c.text) w hwpos
          cases hwa : wrapAll (splitChar '\n' c.text) w with
          | none =>
            rw [hwa] at hws
            exact absurd hws (by simp)
          | some ls =>
            rfl
        · exact rb_isSome c w hdc
    cases ho : renderOne c w with
    | none =>
      rw [ho] at hone
      exact absurd hone (by simp)
    | some part =>
      have hrest := rp_isSome rest w hdr
      cases hr : renderParts rest w with
      | none =>
        rw [hr] at hrest
        exact absurd hrest (by simp)
      | some parts2 =>
        rfl

end

theorem bq_render_none : ∀ (n : Nat) (w : Int), w ≤ 2 * n + 2 →
    html_node_render_block (bqChain n) w = none := by
  intro n
  induction n with
  | zero =>
    intro w hw
    have hwrap : text_wrap ['x'] (w - 2) = none := by
      rw [text_wrap]
      rw [if_neg (by decide), if_neg (by decide), if_neg (by decide)]
      dsimp only
      rw [if_pos (by omega)]
    rw [show bqChain 0 = HTree.node "blockquote" [] [] false
        [HTree.node "text" [] ['x'] false []] from rfl]
    rw [html_node_render_block]
    try dsimp only
    rw [if_pos (show ("blockquote" = "blockquote" ∨ "blockquote" = "li" ∨
      "blockquote" = "pre") from by decide)]
    rw [renderParts_cons]
    have hone : renderOne (HTree.node "text" [] ['x'] false []) (w - 2) = none := by
      rw [renderOne]
      rw [if_neg (by decide), if_pos (by decide)]
      dsimp only [HTree.text]
      rw [show splitChar '\n' ['x'] = [['x']] from rfl]
      rw [wrapAll]
      rw [hwrap]
    rw [hone]
  | succ n ih =>
    intro w hw
    rw [show bqChain (n + 1) = HTree.node "blockquote" [] [] false [bqChain n] from rfl]
    rw [html_node_render_block]
    try dsimp only
    rw [if_pos (show ("blockquote" = "blockquote" ∨ "blockquote" = "li" ∨
      "blockquote" = "pre") from by decide)]
    rw [renderParts_cons]
    have hone : renderOne (bqChain n) (w - 2) = none := by
      rw [renderOne]
      rw [if_neg ?c1, if_neg ?c2]
      · exact ih (w - 2) (by omega)
      case c1 =>
        intro hx
        rcases hx with ⟨h1, h2⟩
        rw [bqChain_tag n] at h1
        exact absurd h1 (by decide)
      case c2 =>
        intro hx
        rw [bqChain_tag n] at hx
        exact absurd hx (by decide)
    rw [hone]

/-- C1: malformed markup is tolerated — `<p>unclosed<div>text` renders without
failure, the unknown `div` is ignored, and both texts reach the output (they
end up concatenated in one paragraph) — but the claim's universal no-exception
guarantee is false: the renderer narrows the width by 2 per `blockquote`
level, and on `"<blockquote>" * 35 ++ "x"` (`bqInput 35`) the innermost
`text_wrap` runs at width 70 − 2·35 = 0, where Python's `textwrap.wrap`
raises `ValueError` (modelled as `none`), and `html_render` propagates the
failure.  Rendering does succeed whenever the width exceeds twice the tree
depth. -/
theorem c1_malformed_render :
    html_render "<p>unclosed<div>text".data = some ("unclosed".data ++ "text".data) ∧
    html_render (bqInput 35) = none ∧
    (∀ (t : HTree) (w : Int), 2 * (depthT t : Int) < w →
      (html_node_render_block t w).isSome = true) := by
  refine ⟨by decide, ?_, rb_isSome⟩
  rw [html_render, renderTree]
  rw [show text_sanitize (bqInput 35) = bqInput 35 from by decide]
  rw [show (35 : Nat) = 34 + 1 from rfl]
  rw [tokenize_bqInput 34]
  rw [parse_bq 34]
  rw [html_node_process_inline]
  try dsimp only
  rw [show (if ¬ isBlockTag "root" then true else false) = false from rfl]
  rw [processInlineList]
  rw [flatten_bqChain 34]
  rw [show processInlineList ([] : List HTree) false = ([], []) from by
    rw [processInlineList]]
  try dsimp only
  rw [if_pos (by simp)]
  try dsimp only
  rw [html_node_process_text]
  simp only [processTextList, text_bqChain 34]
  rw [show mergeTextNodes [bqChain 34] = [bqChain 34] from by
    rw [mergeTextNodes]
    rw [show mergeRunGo (bqChain 34) [] = [bqChain 34] from rfl]]
  simp only [List.map_cons, List.map_nil, bqChain_tag]
  rw [if_neg (by decide)]
  rw [List.filter_cons]
  rw [if_pos (by simp [bqChain_tag])]
  rw [html_node_render_block]
  try dsimp only
  rw [if_neg (by decide)]
  rw [renderParts_cons]
  have hone : renderOne (bqChain 34) 70 = none := by
    rw [renderOne]
    rw [if_neg ?d1, if_neg ?d2]
    · exact bq_render_none 34 70 (by omega)
    case d1 =>
      intro hx
      rcases hx with ⟨h1, h2⟩
      rw [bqChain_tag 34] at h1
      exact absurd h1 (by decide)
    case d2 =>
      intro hx
      rw [bqChain_tag 34] at hx
      exact absurd hx (by decide)
  rw [hone]

/-- Witness for `c1_malformed_render`: the success guarantee applied at a
small tree and ample width. -/
theorem c1_malformed_render_witness :
    2 * (depthT (bqChain 0) : Int) < 10 ∧
    (html_node_render_block (bqChain 0) 10).isSome = true :=
  ⟨by decide, c1_malformed_render.2.2 (bqChain 0) 10 (by decide)⟩

/-! ## C9 — arena well-formedness -/

theorem setN_length (A : List ANode) (i : Nat) (f : ANode → ANode) :
    (setN A i f).length = A.length := A.length_set i _

theorem getN_setN_self {A : List ANode} {i : Nat} (h : i < A.length) (f : ANode → ANode) :
    getN (setN A i f) i = f (getN A i) := by
  simp [getN, setN, List.getD_eq_getElem?_getD, List.getElem?_set_self, h]

theorem getN_setN_ne {A : List ANode} {i j : Nat} (h : j ≠ i) (f : ANode → ANode) :
    getN (setN A i f) j = getN A j := by
  simp [getN, setN, List.getD_eq_getElem?_getD, List.getElem?_set_ne (Ne.symm h)]

theorem getN_append_old {A : List ANode} {i : Nat} (h : i < A.length) (x : ANode) :
    getN (A ++ [x]) i = getN A i := by
  simp [getN, List.getD_eq_getElem?_getD, List.getElem?_append_left h]

theorem getN_append_new (A : List ANode) (x : ANode) :
    getN (A ++ [x]) A.length = x := by
  simp [getN, List.getD_eq_getElem?_getD]

theorem getN_oob {A : List ANode} {i : Nat} (h : A.length ≤ i) :
    getN A i = blankNode "" := by
  rw [getN, List.getD_eq_getElem?_getD, List.getElem?_eq_none h]
  rfl

theorem optAllB_iff (o : Option Nat) (p : Nat → Bool) :
    optAllB o p = true ↔ ∀ x, o = some x → p x = true := by
  cases o with
  | none => simp [optAllB]
  | some x => simp [optAllB]

theorem nodeWF_iff (A : List ANode) (i : Nat) : nodeWF A i = true ↔
    ((∀ p, (getN A i).parent = some p → p < i ∧ i ∈ childChain A p) ∧
     (∀ j, (getN A i).next = some j → i < j ∧ j < A.length ∧
       (getN A j).prev = some i ∧ (getN A j).parent = (getN A i).parent) ∧
     (∀ j, (getN A i).prev = some j → j < i ∧ (getN A j).next = some i ∧
       (getN A j).parent = (getN A i).parent) ∧
     (∀ c, (getN A i).first = some c → c < A.length ∧ (getN A c).parent = some i ∧
       (getN A c).prev = none) ∧
     (∀ c, (getN A i).last = some c → c < A.length ∧ (getN A c).parent = some i ∧
       (getN A c).next = none) ∧
     (((getN A i).first = none) ↔ ((getN A i).last = none)) ∧
     ((getN A i).parent = none → (getN A i).prev = none ∧ (getN A i).next = none)) := by
  rw [nodeWF]
  simp only [Bool.and_eq_true, optAllB_iff, decide_eq_true_eq, eq_iff_iff]
  tauto

theorem linkWF_iff (A : List ANode) : linkWF A = true ↔
    ((0 < A.length ∧ (getN A 0).tag = "root" ∧ (getN A 0).parent = none ∧
      (getN A 0).prev = none ∧ (getN A 0).next = none) ∧
     ∀ i, i < A.length → nodeWF A i = true) := by
  rw [linkWF]
  simp only [Bool.and_eq_true, decide_eq_true_eq, List.all_eq_true, List.mem_range]

theorem wf_node {A : List ANode} (h : linkWF A = true) {i : Nat} (hi : i < A.length) :
    nodeWF A i = true := ((linkWF_iff A).mp h).2 i hi

theorem wf_next_mono {A : List ANode} (h : linkWF A = true) :
    ∀ x j, (getN A x).next = some j → x < j ∧ j < A.length := by
  intro x j hx
  by_cases hxl : x < A.length
  · have h2 := ((nodeWF_iff A x).mp (wf_node h hxl)).2.1 j hx
    exact ⟨h2.1, h2.2.1⟩
  · rw [getN_oob (by omega)] at hx
    exact absurd hx (by simp [blankNode])

theorem wf_next_parent {A : List ANode} (h : linkWF A = true) :
    ∀ x j, (getN A x).next = some j → (getN A j).parent = (getN A x).parent := by
  intro x j hx
  by_cases hxl : x < A.length
  · exact (((nodeWF_iff A x).mp (wf_node h hxl)).2.1 j hx).2.2.2
  · rw [getN_oob (by omega)] at hx
    exact absurd hx (by simp [blankNode])

theorem chainGo_none (A : List ANode) : ∀ (f : Nat), chainGo A f none = [] := by
  intro f
  cases f with
  | zero => rfl
  | succ f => rfl

theorem chainGo_congr : ∀ (fuel : Nat) (A B : List ANode) (o : Option Nat),
    (∀ x ∈ chainGo A fuel o, (getN B x).next = (getN A x).next) →
    chainGo B fuel o = chainGo A fuel o := by
  intro fuel
  induction fuel with
  | zero => intro A B o h; rfl
  | succ f ih =>
    intro A B o h
    cases o with
    | none => rfl
    | some c =>
      rw [chainGo]
      rw [show chainGo A (f + 1) (some c) = c :: chainGo A f (getN A c).next from rfl]
      have hc : (getN B c).next = (getN A c).next := h c (by
        rw [show chainGo A (f + 1) (some c) = c :: chainGo A f (getN A c).next from rfl]
        exact List.mem_cons_self _ _)
      rw [hc]
      congr 1
      exact ih A B _ (fun x hx => h x (by
        rw [show chainGo A (f + 1) (some c) = c :: chainGo A f (getN A c).next from rfl]
        exact List.mem_cons_of_mem _ hx))

theorem chainGo_fuel {A : List ANode}
    (hm : ∀ x j, (getN A x).next = some j → x < j ∧ j < A.length) :
    ∀ (k c f1 f2 : Nat), c < A.length → A.length - c ≤ k →
      A.length - c ≤ f1 → A.length - c ≤ f2 →
      chainGo A f1 (some c) = chainGo A f2 (some c) := by
  intro k
  induction k with
  | zero =>
    intro c f1 f2 hc hk h1 h2
    omega
  | succ k ih =>
    intro c f1 f2 hc hk h1 h2
    obtain ⟨g1, rfl⟩ : ∃ m, f1 = m + 1 := ⟨f1 - 1, by omega⟩
    obtain ⟨g2, rfl⟩ : ∃ m, f2 = m + 1 := ⟨f2 - 1, by omega⟩
    rw [chainGo]
    rw [show chainGo A (g2 + 1) (some c) = c :: chainGo A g2 (getN A c).next from rfl]
    cases hn : (getN A c).next with
    | none => rw [chainGo_none, chainGo_none]
    | some d =>
      have hd := hm c d hn
      congr 1
      exact ih d g1 g2 hd.2 (by omega) (by omega) (by omega)

theorem chainGo_mem_ge {A : List ANode}
    (hm : ∀ x j, (getN A x).next = some j → x < j ∧ j < A.length) :
    ∀ (fuel c y : Nat), y ∈ chainGo A fuel (some c) → c ≤ y := by
  intro fuel
  induction fuel with
  | zero => intro c y hy; simp [chainGo] at hy
  | succ f ih =>
    intro c y hy
    rw [show chainGo A (f + 1) (some c) = c :: chainGo A f (getN A c).next from rfl] at hy
    rcases List.mem_cons.mp hy with rfl | hy
    · exact le_refl _
    · cases hn : (getN A c).next with
      | none =>
        rw [hn, chainGo_none] at hy
        simp at hy
      | some d =>
        rw [hn] at hy
        have := ih d y hy
        have h2 := hm c d hn
        omega

theorem chainGo_mem_parent {A : List ANode}
    (hp : ∀ x j, (getN A x).next = some j → (getN A j).parent = (getN A x).parent) :
    ∀ (fuel c y : Nat), y ∈ chainGo A fuel (some c) →
      (getN A y).parent = (getN A c).parent := by
  intro fuel
  induction fuel with
  | zero => intro c y hy; simp [chainGo] at hy
  | succ f ih =>
    intro c y hy
    rw [show chainGo A (f + 1) (some c) = c :: chainGo A f (getN A c).next from rfl] at hy
    rcases List.mem_cons.mp hy with rfl | hy
    · rfl
    · cases hn : (getN A c).next with
      | none =>
        rw [hn, chainGo_none] at hy
        simp at hy
      | some d =>
        rw [hn] at hy
        rw [ih d y hy]
        exact hp c d hn

theorem chainGo_head (A : List ANode) (c : Nat) :
    ∀ (f : Nat), (chainGo A f (some c)).head? = if f = 0 then none else some c := by
  intro f
  cases f with
  | zero => rfl
  | succ f => rfl

theorem chainGo_chain {A : List ANode}
    (hm : ∀ x j, (getN A x).next = some j → x < j ∧ j < A.length) :
    ∀ (fuel : Nat) (c : Nat), (chainGo A fuel (some c)).Chain' (· < ·) := by
  intro fuel
  induction fuel with
  | zero => intro c; simp [chainGo]
  | succ f ih =>
    intro c
    rw [show chainGo A (f + 1) (some c) = c :: chainGo A f (getN A c).next from rfl]
    rw [List.chain'_cons']
    constructor
    · intro y hy
      cases hn : (getN A c).next with
      | none =>
        rw [hn, chainGo_none] at hy
        simp at hy
      | some d =>
        rw [hn, chainGo_head] at hy
        split at hy
        · simp at hy
        · simp only [Option.mem_def, Option.some.injEq] at hy
          subst hy
          exact (hm c d hn).1
    · cases hn : (getN A c).next with
      | none =>
        rw [chainGo_none]
        simp
      | some d =>
        exact ih d

theorem chainGo_nodup {A : List ANode}
    (hm : ∀ x j, (getN A x).next = some j → x < j ∧ j < A.length)
    (fuel : Nat) (o : Option Nat) : (chainGo A fuel o).Nodup := by
  cases o with
  | none => rw [chainGo_none]; exact List.nodup_nil
  | some c =>
    have hch := chainGo_chain hm fuel c
    rw [List.chain'_iff_pairwise] at hch
    exact hch.imp Nat.ne_of_lt

theorem childChain_nodup {A : List ANode} (h : linkWF A = true) (q : Nat) :
    (childChain A q).Nodup := by
  rw [childChain]
  exact chainGo_nodup (wf_next_mono h) _ _

theorem childChain_parent {A : List ANode} (h : linkWF A = true) (q : Nat) :
    ∀ i ∈ childChain A q, (getN A i).parent = some q := by
  intro i hi
  rw [childChain] at hi
  cases hf : (getN A q).first with
  | none =>
    rw [hf, chainGo_none] at hi
    simp at hi
  | some c =>
    rw [hf] at hi
    have h1 := chainGo_mem_parent (wf_next_parent h) _ _ _ hi
    by_cases hq : q < A.length
    · have h2 := (((nodeWF_iff A q).mp (wf_node h hq)).2.2.2.1 c hf).2.1
      rw [h1, h2]
    · rw [getN_oob (by omega)] at hf
      exact absurd hf (by simp [blankNode])

theorem appendOp_shape_nolast {A : List ANode} {p : Nat} (tag : String)
    (hp : p < A.length) (hf : (getN A p).first = none) (hl : (getN A p).last = none) :
    ((appendOp A p tag).length = A.length + 1) ∧
    getN (appendOp A p tag) p =
      { getN A p with first := some A.length, last := some A.length } ∧
    getN (appendOp A p tag) A.length = { blankNode tag with parent := some p } ∧
    (∀ j, j ≠ p → j ≠ A.length → getN (appendOp A p tag) j = getN A j) := by
  have hA1 : (A ++ [blankNode tag]).length = A.length + 1 := by simp
  have hpn : p ≠ A.length := by omega
  have hA : appendOp A p tag =
      setN (setN (setN (A ++ [blankNode tag]) p
          (fun nd => { nd with first := some A.length }))
        p (fun nd => { nd with last := some A.length })) A.length
        (fun nd => { nd with parent := some p }) := by
    rw [appendOp]
    try dsimp only
    rw [getN_append_old hp, hf, if_pos rfl]
    rw [getN_setN_self (by omega)]
    try dsimp only
    rw [getN_append_old hp, hl]
  refine ⟨?_, ?_, ?_, ?_⟩
  · rw [hA]
    simp [setN_length]
  · rw [hA]
    rw [getN_setN_ne hpn]
    rw [getN_setN_self (by rw [setN_length]; omega)]
    rw [getN_setN_self (by omega)]
    rw [getN_append_old hp]
  · rw [hA]
    rw [getN_setN_self (by rw [setN_length, setN_length]; omega)]
    rw [getN_setN_ne (Ne.symm hpn), getN_setN_ne (Ne.symm hpn)]
    rw [getN_append_new]
  · intro j hjp hjn
    by_cases hj : j < A.length
    · rw [hA]
      rw [getN_setN_ne hjn, getN_setN_ne hjp, getN_setN_ne hjp]
      rw [getN_append_old hj]
    · have h1 : A.length + 1 ≤ j := by omega
      rw [hA]
      rw [getN_oob (by rw [setN_length, setN_length, setN_length]; omega)]
      rw [getN_oob (by omega)]

theorem appendOp_shape_last {A : List ANode} {p l : Nat} (tag : String)
    (hwf : linkWF A = true) (hp : p < A.length) (hl : (getN A p).last = some l) :
    ((appendOp A p tag).length = A.length + 1) ∧
    getN (appendOp A p tag) p = { getN A p with last := some A.length } ∧
    getN (appendOp A p tag) l = { getN A l with next := some A.length } ∧
    getN (appendOp A p tag) A.length =
      { blankNode tag with parent := some p, prev := some l } ∧
    (∀ j, j ≠ p → j ≠ l → j ≠ A.length → getN (appendOp A p tag) j = getN A j) := by
  have hlast := ((nodeWF_iff A p).mp (wf_node hwf hp)).2.2.2.2.1 l hl
  have hlp : p < l := by
    have := ((nodeWF_iff A l).mp (wf_node hwf hlast.1)).1 p hlast.2.1
    exact this.1
  have hll : l < A.length := hlast.1
  have hA1 : (A ++ [blankNode tag]).length = A.length + 1 := by simp
  have hpn : p ≠ A.length := by omega
  have hln : l ≠ A.length := by omega
  have hplne : p ≠ l := by omega
  have hfne : ¬ ((getN A p).first = none) := by
    intro hx
    have := (((nodeWF_iff A p).mp (wf_node hwf hp)).2.2.2.2.2.1).mp hx
    rw [this] at hl
    exact Option.noConfusion hl
  have hA : appendOp A p tag =
      setN (setN (setN (setN (A ++ [blankNode tag]) l
          (fun nd => { nd with next := some A.length })) A.length
          (fun nd => { nd with prev := some l }))
        p (fun nd => { nd with last := some A.length })) A.length
        (fun nd => { nd with parent := some p }) := by
    rw [appendOp]
    try dsimp only
    rw [getN_append_old hp]
    rw [if_neg hfne]
    rw [getN_append_old hp, hl]
  refine ⟨?_, ?_, ?_, ?_, ?_⟩
  · rw [hA]
    simp [setN_length]
  · rw [hA]
    rw [getN_setN_ne hpn]
    rw [getN_setN_self (by rw [setN_length, setN_length]; omega)]
    rw [getN_setN_ne hpn, getN_setN_ne hplne]
    rw [getN_append_old hp]
  · rw [hA]
    rw [getN_setN_ne hln, getN_setN_ne (Ne.symm hplne), getN_setN_ne hln]
    rw [getN_setN_self (by omega)]
    rw [getN_append_old hll]
  · rw [hA]
    rw [getN_setN_self
      (by rw [setN_length, setN_length, setN_length]; omega)]
    rw [getN_setN_ne (Ne.symm hpn)]
    rw [getN_setN_self (by rw [setN_length]; omega)]
    rw [getN_setN_ne (Ne.symm hln)]
    rw [getN_append_new]
  · intro j hjp hjl hjn
    by_cases hj : j < A.length
    · rw [hA]
      rw [getN_setN_ne hjn, getN_setN_ne hjp, getN_setN_ne hjn, getN_setN_ne hjl]
      rw [getN_append_old hj]
    · rw [hA]
      rw [getN_oob (by rw [setN_length, setN_length, setN_length, setN_length]; omega)]
      rw [getN_oob (by omega)]

theorem chainGo_mem_lt {A : List ANode}
    (hm : ∀ x j, (getN A x).next = some j → x < j ∧ j < A.length) :
    ∀ (fuel c y : Nat), c < A.length → y ∈ chainGo A fuel (some c) → y < A.length := by
  intro fuel
  induction fuel with
  | zero => intro c y hc hy; simp [chainGo] at hy
  | succ f ih =>
    intro c y hc hy
    rw [show chainGo A (f + 1) (some c) = c :: chainGo A f (getN A c).next from rfl] at hy
    rcases List.mem_cons.mp hy with rfl | hy
    · exact hc
    · cases hn : (getN A c).next with
      | none =>
        rw [hn, chainGo_none] at hy
        simp at hy
      | some d =>
        rw [hn] at hy
        exact ih d y (hm c d hn).2 hy

theorem chainGo_snoc : ∀ (f : Nat) (A B : List ANode) (l n : Nat),
    (getN A l).next = none →
    (getN B l).next = some n →
    (getN B n).next = none →
    (∀ x, x ≠ l → x ≠ n → (getN B x).next = (getN A x).next) →
    ∀ (c : Nat), l ∈ chainGo A f (some c) →
      (∀ y ∈ chainGo A f (some c), y ≠ n) →
      chainGo B (f + 1) (some c) = chainGo A f (some c) ++ [n] := by
  intro f
  induction f with
  | zero =>
    intro A B l n h1 h2 h3 h4 c hmem hne
    simp [chainGo] at hmem
  | succ f ih =>
    intro A B l n h1 h2 h3 h4 c hmem hne
    have hcn : c ≠ n := hne c (by
      rw [show chainGo A (f + 1) (some c) = c :: chainGo A f (getN A c).next from rfl]
      exact List.mem_cons_self _ _)
    by_cases hcl : c = l
    · subst hcl
      rw [show chainGo B (f + 1 + 1) (some c) =
        c :: chainGo B (f + 1) (getN B c).next from rfl]
      rw [show chainGo A (f + 1) (some c) = c :: chainGo A f (getN A c).next from rfl]
      rw [h1, chainGo_none, h2]
      rw [show chainGo B (f + 1) (some n) = n :: chainGo B f (getN B n).next from rfl]
      rw [h3, chainGo_none]
      rfl
    · rw [show chainGo B (f + 1 + 1) (some c) =
        c :: chainGo B (f + 1) (getN B c).next from rfl]
      rw [show chainGo A (f + 1) (some c) = c :: chainGo A f (getN A c).next from rfl]
      rw [h4 c hcl hcn]
      rw [show chainGo A (f + 1) (some c) = c :: chainGo A f (getN A c).next from rfl]
        at hmem hne
      have hmem2 : l ∈ chainGo A f ((getN A c).next) := by
        rcases List.mem_cons.mp hmem with he | he
        · exact absurd he.symm hcl
        · exact he
      cases hnx : (getN A c).next with
      | none =>
        rw [hnx, chainGo_none] at hmem2
        simp at hmem2
      | some d =>
        rw [hnx] at hmem2
        rw [List.cons_append]
        congr 1
        refine ih A B l n h1 h2 h3 h4 d hmem2 ?_
        intro y hy
        refine hne y (List.mem_cons_of_mem _ ?_)
        rw [hnx]
        exact hy

theorem childChain_appendOp {A : List ANode} (hwf : linkWF A = true) {p : Nat}
    (hp : p < A.length) (tag : String) :
    ∀ q, childChain (appendOp A p tag) q =
      if q = p then childChain A p ++ [A.length] else childChain A q := by
  have hmono := wf_next_mono hwf
  cases hl : (getN A p).last with
  | none =>
    have hf : (getN A p).first = none :=
      (((nodeWF_iff A p).mp (wf_node hwf hp)).2.2.2.2.2.1).mpr hl
    obtain ⟨hlen, hgp, hgn, hother⟩ := appendOp_shape_nolast tag hp hf hl
    intro q
    by_cases hq : q = p
    · subst hq
      rw [if_pos rfl]
      rw [childChain, childChain, hlen, hgp, hf, chainGo_none]
      dsimp only
      rw [show chainGo (appendOp A q tag) (A.length + 1) (some A.length) =
        A.length :: chainGo (appendOp A q tag) A.length
          (getN (appendOp A q tag) A.length).next from rfl]
      rw [hgn]
      dsimp only [blankNode]
      rw [chainGo_none]
      rfl
    · rw [if_neg hq]
      by_cases hqn : q = A.length
      · subst hqn
        rw [childChain, childChain, hlen, hgn]
        dsimp only [blankNode]
        rw [getN_oob (le_refl _)]
        dsimp only [blankNode]
        rw [chainGo_none, chainGo_none]
      · rw [childChain, childChain, hlen, hother q hq hqn]
        cases hfq : (getN A q).first with
        | none => rw [chainGo_none, chainGo_none]
        | some c0 =>
          by_cases hql : q < A.length
          · have hc0 := ((nodeWF_iff A q).mp (wf_node hwf hql)).2.2.2.1 c0 hfq
            have hstep : chainGo A (A.length + 1) (some c0) =
                chainGo A A.length (some c0) :=
              chainGo_fuel hmono A.length c0 (A.length + 1) A.length hc0.1
                (by omega) (by omega) (by omega)
            rw [← hstep]
            refine chainGo_congr _ _ _ _ ?_
            intro x hx
            have hxlt := chainGo_mem_lt hmono _ _ _ hc0.1 hx
            have hxn : x ≠ A.length := by omega
            by_cases hxq : x = p
            · subst hxq
              rw [hgp]
            · rw [hother x hxq hxn]
          · rw [getN_oob (by omega)] at hfq
            exact absurd hfq (by simp [blankNode])
  | some l =>
    obtain ⟨hlen, hgp, hgl, hgn, hother⟩ := appendOp_shape_last tag hwf hp hl
    have hlast := ((nodeWF_iff A p).mp (wf_node hwf hp)).2.2.2.2.1 l hl
    have hll : l < A.length := hlast.1
    have hlpar : (getN A l).parent = some p := hlast.2.1
    have hlnext : (getN A l).next = none := hlast.2.2
    have hlmem : l ∈ childChain A p :=
      (((nodeWF_iff A l).mp (wf_node hwf hll)).1 p hlpar).2
    intro q
    by_cases hq : q = p
    · subst hq
      rw [if_pos rfl]
      cases hf : (getN A q).first with
      | none =>
        have := (((nodeWF_iff A q).mp (wf_node hwf hp)).2.2.2.2.2.1).mp hf
        rw [this] at hl
        exact absurd hl (by simp)
      | some c0 =>
        have hc0 := ((nodeWF_iff A q).mp (wf_node hwf hp)).2.2.2.1 c0 hf
        rw [childChain, childChain, hlen, hgp, hf]
        try dsimp only
        rw [childChain, hf] at hlmem
        refine chainGo_snoc A.length A (appendOp A q tag) l A.length hlnext
          (by rw [hgl]) (by rw [hgn]; rfl) ?_ c0 hlmem ?_
        · intro x hxl hxn
          by_cases hxp : x = q
          · subst hxp
            rw [hgp]
          · rw [hother x hxp hxl hxn]
        · intro y hy
          have := chainGo_mem_lt hmono _ _ _ hc0.1 hy
          omega
    · rw [if_neg hq]
      by_cases hqn : q = A.length
      · subst hqn
        rw [childChain, childChain, hlen, hgn]
        dsimp only [blankNode]
        rw [getN_oob (le_refl _)]
        dsimp only [blankNode]
        rw [chainGo_none, chainGo_none]
      · have hfq2 : (getN (appendOp A p tag) q).first = (getN A q).first := by
          by_cases hql2 : q = l
          · subst hql2
            rw [hgl]
          · rw [hother q hq hql2 hqn]
        rw [childChain, childChain, hlen, hfq2]
        cases hfq : (getN A q).first with
        | none => rw [chainGo_none, chainGo_none]
        | some c0 =>
          by_cases hql : q < A.length
          · have hc0 := ((nodeWF_iff A q).mp (wf_node hwf hql)).2.2.2.1 c0 hfq
            have hstep : chainGo A (A.length + 1) (some c0) =
                chainGo A A.length (some c0) :=
              chainGo_fuel hmono A.length c0 (A.length + 1) A.length hc0.1
                (by omega) (by omega) (by omega)
            rw [← hstep]
            refine chainGo_congr _ _ _ _ ?_
            intro x hx
            have hxlt := chainGo_mem_lt hmono _ _ _ hc0.1 hx
            have hxn : x ≠ A.length := by omega
            have hxp : (getN A x).parent = (getN A c0).parent :=
              chainGo_mem_parent (wf_next_parent hwf) _ _ _ hx
            rw [hc0.2.1] at hxp
            by_cases hxq : x = p
            · subst hxq
              rw [hgp]
            · have hxl : x ≠ l := by
                intro he
                subst he
                rw [hlpar] at hxp
                injection hxp with hxp
                exact hq hxp.symm
              rw [hother x hxq hxl hxn]
          · rw [getN_oob (by omega)] at hfq
            exact absurd hfq (by simp [blankNode])

theorem appendOp_fields {A : List ANode} {p : Nat} (tag : String)
    (hwf : linkWF A = true) (hp : p < A.length) :
    (appendOp A p tag).length = A.length + 1 ∧
    (∀ j, j ≠ A.length → (getN (appendOp A p tag) j).tag = (getN A j).tag ∧
      (getN (appendOp A p tag) j).parent = (getN A j).parent ∧
      (getN (appendOp A p tag) j).prev = (getN A j).prev) ∧
    (∀ j, j ≠ p → j ≠ A.length →
      (getN (appendOp A p tag) j).first = (getN A j).first ∧
      (getN (appendOp A p tag) j).last = (getN A j).last) ∧
    (∀ j, j ≠ A.length → (getN (appendOp A p tag) j).next =
      (if (getN A p).last = some j then some A.length else (getN A j).next)) ∧
    getN (appendOp A p tag) A.length =
      { blankNode tag with parent := some p, prev := (getN A p).last } ∧
    (getN (appendOp A p tag) p).last = some A.length ∧
    ((getN A p).first = none → (getN (appendOp A p tag) p).first = some A.length) ∧
    ((getN A p).first ≠ none → (getN (appendOp A p tag) p).first = (getN A p).first) := by
  cases hl : (getN A p).last with
  | none =>
    have hf : (getN A p).first = none :=
      (((nodeWF_iff A p).mp (wf_node hwf hp)).2.2.2.2.2.1).mpr hl
    obtain ⟨hlen, hgp, hgn, hother⟩ := appendOp_shape_nolast tag hp hf hl
    refine ⟨hlen, ?_, ?_, ?_, ?_, ?_, ?_, ?_⟩
    · intro j hj
      by_cases hjp : j = p
      · subst hjp
        rw [hgp]
        exact ⟨rfl, rfl, rfl⟩
      · rw [hother j hjp hj]
        exact ⟨rfl, rfl, rfl⟩
    · intro j hjp hj
      rw [hother j hjp hj]
      exact ⟨rfl, rfl⟩
    · intro j hj
      rw [if_neg (by simp)]
      by_cases hjp : j = p
      · subst hjp
        rw [hgp]
      · rw [hother j hjp hj]
    · rw [hgn]
      rfl
    · rw [hgp]
    · intro _
      rw [hgp]
    · intro hne
      exact absurd hf hne
  | some l =>
    obtain ⟨hlen, hgp, hgl, hgn, hother⟩ := appendOp_shape_last tag hwf hp hl
    have hlast := ((nodeWF_iff A p).mp (wf_node hwf hp)).2.2.2.2.1 l hl
    have hpl : p ≠ l := by
      have := (((nodeWF_iff A l).mp (wf_node hwf hlast.1)).1 p hlast.2.1).1
      omega
    refine ⟨hlen, ?_, ?_, ?_, ?_, ?_, ?_, ?_⟩
    · intro j hj
      by_cases hjp : j = p
      · subst hjp
        rw [hgp]
        exact ⟨rfl, rfl, rfl⟩
      · by_cases hjl : j = l
        · subst hjl
          rw [hgl]
          exact ⟨rfl, rfl, rfl⟩
        · rw [hother j hjp hjl hj]
          exact ⟨rfl, rfl, rfl⟩
    · intro j hjp hj
      by_cases hjl : j = l
      · subst hjl
        rw [hgl]
        exact ⟨rfl, rfl⟩
      · rw [hother j hjp hjl hj]
        exact ⟨rfl, rfl⟩
    · intro j hj
      by_cases hjl : j = l
      · subst hjl
        rw [if_pos rfl, hgl]
      · rw [if_neg (by intro hx; injection hx with hx; exact hjl hx.symm)]
        by_cases hjp : j = p
        · subst hjp
          rw [hgp]
        · rw [hother j hjp hjl hj]
    · rw [hgn]
    · rw [hgp]
    · intro hfn
      have := (((nodeWF_iff A p).mp (wf_node hwf hp)).2.2.2.2.2.1).mp hfn
      rw [this] at hl
      exact absurd hl (by simp)
    · intro _
      rw [hgp]

theorem appendOp_WF {A : List ANode} {p : Nat} (tag : String)
    (hwf : linkWF A = true) (hp : p < A.length) :
    linkWF (appendOp A p tag) = true := by
  obtain ⟨hlen, hpp, hfl, hnx, hgn, hlp, hfp1, hfp2⟩ := appendOp_fields tag hwf hp
  have hchain := childChain_appendOp hwf hp tag
  have hlne : ∀ l, (getN A p).last = some l →
      p < l ∧ l < A.length ∧ (getN A l).parent = some p ∧ (getN A l).next = none := by
    intro l hl
    have h5 := ((nodeWF_iff A p).mp (wf_node hwf hp)).2.2.2.2.1 l hl
    have h1 := (((nodeWF_iff A l).mp (wf_node hwf h5.1)).1 p h5.2.1).1
    exact ⟨h1, h5.1, h5.2.1, h5.2.2⟩
  have hparn : (getN (appendOp A p tag) A.length).parent = some p := by
    rw [hgn]
    try rfl
  have hprevn : (getN (appendOp A p tag) A.length).prev = (getN A p).last := by
    rw [hgn]
    try rfl
  have hnextn : (getN (appendOp A p tag) A.length).next = none := by
    rw [hgn]
    try rfl
  have hfirstn : (getN (appendOp A p tag) A.length).first = none := by
    rw [hgn]
    try rfl
  have hlastn : (getN (appendOp A p tag) A.length).last = none := by
    rw [hgn]
    try rfl
  obtain ⟨⟨hpos, htag0, hpar0, hprev0, hnext0⟩, hnodes⟩ := (linkWF_iff A).mp hwf
  have h0n : (0 : Nat) ≠ A.length := by omega
  rw [linkWF_iff]
  refine ⟨⟨by omega, ?_, ?_, ?_, ?_⟩, ?_⟩
  · rw [(hpp 0 h0n).1, htag0]
  · rw [(hpp 0 h0n).2.1, hpar0]
  · rw [(hpp 0 h0n).2.2, hprev0]
  · rw [hnx 0 h0n]
    split
    · rename_i hc
      obtain ⟨h4a, h4b, h4c, h4d⟩ := hlne 0 hc
      omega
    · exact hnext0
  · intro i hi
    rw [hlen] at hi
    rw [nodeWF_iff, hlen]
    by_cases hin : i = A.length
    · subst hin
      rw [hparn, hprevn, hnextn, hfirstn, hlastn]
      refine ⟨?_, ?_, ?_, ?_, ?_, ?_, ?_⟩
      · intro q hq
        injection hq with hq
        subst hq
        refine ⟨hp, ?_⟩
        rw [hchain p, if_pos rfl]
        exact List.mem_append_right _ (by simp)
      · intro j hj
        exact Option.noConfusion hj
      · intro j hj
        obtain ⟨h4a, h4b, h4c, h4d⟩ := hlne j hj
        refine ⟨by omega, ?_, ?_⟩
        · rw [hnx j (by omega), if_pos hj]
        · rw [(hpp j (by omega)).2.1]
          exact h4c
      · intro c hc
        exact Option.noConfusion hc
      · intro c hc
        exact Option.noConfusion hc
      · exact Iff.rfl
      · intro h
        exact Option.noConfusion h
    · by_cases hip : i = p
      · subst hip
        have hwp := (nodeWF_iff A i).mp (wf_node hwf hp)
        have hnextp : (getN (appendOp A i tag) i).next = (getN A i).next := by
          rw [hnx i hin]
          split
          · rename_i hc
            obtain ⟨h4a, h4b, h4c, h4d⟩ := hlne i hc
            omega
          · rfl
        refine ⟨?_, ?_, ?_, ?_, ?_, ?_, ?_⟩
        · rw [(hpp i hin).2.1]
          intro q hq
          obtain ⟨h1, h2⟩ := hwp.1 q hq
          refine ⟨h1, ?_⟩
          rw [hchain q, if_neg (by omega)]
          exact h2
        · rw [hnextp]
          intro j hj
          obtain ⟨h1, h2, h3, h4⟩ := hwp.2.1 j hj
          refine ⟨h1, by omega, ?_, ?_⟩
          · rw [(hpp j (by omega)).2.2]
            exact h3
          · rw [(hpp j (by omega)).2.1, (hpp i hin).2.1]
            exact h4
        · rw [(hpp i hin).2.2]
          intro j hj
          obtain ⟨h1, h2, h3⟩ := hwp.2.2.1 j hj
          refine ⟨h1, ?_, ?_⟩
          · rw [hnx j (by omega)]
            split
            · rename_i hc
              rw [(hlne j hc).2.2.2] at h2
              exact Option.noConfusion h2
            · exact h2
          · rw [(hpp j (by omega)).2.1, (hpp i hin).2.1]
            exact h3
        · by_cases hfn : (getN A i).first = none
          · rw [hfp1 hfn]
            intro c hc
            injection hc with hc
            subst hc
            refine ⟨by omega, ?_, ?_⟩
            · rw [hparn]
            · rw [hprevn]
              exact (hwp.2.2.2.2.2.1).mp hfn
          · rw [hfp2 hfn]
            intro c hc
            obtain ⟨h1, h2, h3⟩ := hwp.2.2.2.1 c hc
            refine ⟨by omega, ?_, ?_⟩
            · rw [(hpp c (by omega)).2.1]
              exact h2
            · rw [(hpp c (by omega)).2.2]
              exact h3
        · rw [hlp]
          intro c hc
          injection hc with hc
          subst hc
          refine ⟨by omega, ?_, ?_⟩
          · rw [hparn]
          · rw [hnextn]
        · rw [hlp]
          by_cases hfn : (getN A i).first = none
          · rw [hfp1 hfn]
          · rw [hfp2 hfn]
            exact iff_of_false hfn (by simp)
        · rw [(hpp i hin).2.1]
          intro hpn
          obtain ⟨h1, h2⟩ := hwp.2.2.2.2.2.2 hpn
          refine ⟨?_, ?_⟩
          · rw [(hpp i hin).2.2]
            exact h1
          · rw [hnextp]
            exact h2
      · have hil : i < A.length := by omega
        have hwi := (nodeWF_iff A i).mp (wf_node hwf hil)
        have hfli := hfl i hip hin
        refine ⟨?_, ?_, ?_, ?_, ?_, ?_, ?_⟩
        · rw [(hpp i hin).2.1]
          intro q hq
          obtain ⟨h1, h2⟩ := hwi.1 q hq
          refine ⟨h1, ?_⟩
          rw [hchain q]
          split
          · rename_i he
            subst he
            exact List.mem_append_left _ h2
          · exact h2
        · rw [hnx i hin]
          split
          · rename_i hc
            obtain ⟨h4a, h4b, h4c, h4d⟩ := hlne i hc
            intro j hj
            injection hj with hj
            subst hj
            refine ⟨by omega, by omega, ?_, ?_⟩
            · rw [hprevn]
              exact hc
            · rw [hparn, (hpp i hin).2.1, h4c]
          · intro j hj
            obtain ⟨h1, h2, h3, h4⟩ := hwi.2.1 j hj
            refine ⟨h1, by omega, ?_, ?_⟩
            · rw [(hpp j (by omega)).2.2]
              exact h3
            · rw [(hpp j (by omega)).2.1, (hpp i hin).2.1]
              exact h4
        · rw [(hpp i hin).2.2]
          intro j hj
          obtain ⟨h1, h2, h3⟩ := hwi.2.2.1 j hj
          refine ⟨h1, ?_, ?_⟩
          · rw [hnx j (by omega)]
            split
            · rename_i hc
              rw [(hlne j hc).2.2.2] at h2
              exact Option.noConfusion h2
            · exact h2
          · rw [(hpp j (by omega)).2.1, (hpp i hin).2.1]
            exact h3
        · rw [hfli.1]
          intro c hc
          obtain ⟨h1, h2, h3⟩ := hwi.2.2.2.1 c hc
          refine ⟨by omega, ?_, ?_⟩
          · rw [(hpp c (by omega)).2.1]
            exact h2
          · rw [(hpp c (by omega)).2.2]
            exact h3
        · rw [hfli.2]
          intro c hc
          obtain ⟨h1, h2, h3⟩ := hwi.2.2.2.2.1 c hc
          refine ⟨by omega, ?_, ?_⟩
          · rw [(hpp c (by omega)).2.1]
            exact h2
          · rw [hnx c (by omega)]
            split
            · rename_i hcc
              have h6 := (hlne c hcc).2.2.1
              rw [h2] at h6
              injection h6 with h6
              exact absurd h6 hip
            · exact h3
        · rw [hfli.1, hfli.2]
          exact hwi.2.2.2.2.2.1
        · rw [(hpp i hin).2.1]
          intro hpn
          obtain ⟨h1, h2⟩ := hwi.2.2.2.2.2.2 hpn
          refine ⟨?_, ?_⟩
          · rw [(hpp i hin).2.2]
            exact h1
          · rw [hnx i hin]
            split
            · rename_i hc
              have h6 := (hlne i hc).2.2.1
              rw [hpn] at h6
              exact Option.noConfusion h6
            · exact h2

theorem chainGo_mem_pred (A : List ANode) : ∀ (f c y : Nat),
    y ∈ chainGo A f (some c) →
    y = c ∨ ∃ x, x ∈ chainGo A f (some c) ∧ (getN A x).next = some y := by
  intro f
  induction f with
  | zero => intro c y hy; simp [chainGo] at hy
  | succ f ih =>
    intro c y hy
    rw [show chainGo A (f + 1) (some c) = c :: chainGo A f (getN A c).next from rfl] at hy
    rcases List.mem_cons.mp hy with rfl | hy2
    · exact Or.inl rfl
    · cases hn : (getN A c).next with
      | none =>
        rw [hn, chainGo_none] at hy2
        simp at hy2
      | some d =>
        rw [hn] at hy2
        rcases ih d y hy2 with rfl | ⟨x, hx1, hx2⟩
        · refine Or.inr ⟨c, ?_, hn⟩
          rw [show chainGo A (f + 1) (some c) = c :: chainGo A f (getN A c).next from rfl]
          exact List.mem_cons_self _ _
        · refine Or.inr ⟨x, ?_, hx2⟩
          rw [show chainGo A (f + 1) (some c) = c :: chainGo A f (getN A c).next from rfl, hn]
          exact List.mem_cons_of_mem _ hx1

theorem chainGo_next_none_unique (A : List ANode) : ∀ (f c y z : Nat),
    y ∈ chainGo A f (some c) → z ∈ chainGo A f (some c) →
    (getN A y).next = none → (getN A z).next = none → y = z := by
  intro f
  induction f with
  | zero => intro c y z hy; simp [chainGo] at hy
  | succ f ih =>
    intro c y z hy hz hyn hzn
    rw [show chainGo A (f + 1) (some c) = c :: chainGo A f (getN A c).next from rfl]
      at hy hz
    cases hn : (getN A c).next with
    | none =>
      rw [hn, chainGo_none] at hy hz
      simp at hy hz
      rw [hy, hz]
    | some d =>
      rw [hn] at hy hz
      rcases List.mem_cons.mp hy with rfl | hy2
      · rw [hn] at hyn
        exact Option.noConfusion hyn
      · rcases List.mem_cons.mp hz with rfl | hz2
        · rw [hn] at hzn
          exact Option.noConfusion hzn
        · exact ih d y z hy2 hz2 hyn hzn

theorem wf_first_parent {A : List ANode} (hwf : linkWF A = true) {i pa : Nat}
    (hi : i < A.length) (hpar : (getN A i).parent = some pa) :
    (((getN A i).prev = none) ↔ ((getN A pa).first = some i)) ∧
    (((getN A i).next = none) ↔ ((getN A pa).last = some i)) := by
  have hcl1 := ((nodeWF_iff A i).mp (wf_node hwf hi)).1 pa hpar
  have hpa : pa < A.length := by omega
  have hwpa := (nodeWF_iff A pa).mp (wf_node hwf hpa)
  have hmem := hcl1.2
  rw [childChain] at hmem
  cases hfpa : (getN A pa).first with
  | none =>
    rw [hfpa, chainGo_none] at hmem
    simp at hmem
  | some c =>
    rw [hfpa] at hmem
    have hc := hwpa.2.2.2.1 c hfpa
    constructor
    · constructor
      · intro hpn
        rcases chainGo_mem_pred A _ c i hmem with rfl | ⟨x, hx1, hx2⟩
        · rfl
        · have hxl := chainGo_mem_lt (wf_next_mono hwf) _ _ _ hc.1 hx1
          have := (((nodeWF_iff A x).mp (wf_node hwf hxl)).2.1 i hx2).2.2.1
          rw [this] at hpn
          exact Option.noConfusion hpn
      · intro hfi
        injection hfi with hfi
        subst hfi
        exact hc.2.2
    · constructor
      · intro hnn
        cases hlpa : (getN A pa).last with
        | none =>
          have := (hwpa.2.2.2.2.2.1).mpr hlpa
          rw [this] at hfpa
          exact Option.noConfusion hfpa
        | some l =>
          have hlf := hwpa.2.2.2.2.1 l hlpa
          have hlmem : l ∈ chainGo A A.length (some c) := by
            have h9 := (((nodeWF_iff A l).mp (wf_node hwf hlf.1)).1 pa hlf.2.1).2
            rw [childChain, hfpa] at h9
            exact h9
          have := chainGo_next_none_unique A _ c i l hmem hlmem hnn hlf.2.2
          rw [this]
        -- i = l, so last pa = some i
      · intro hli
        exact (hwpa.2.2.2.2.1 i hli).2.2

theorem chainGo_skip {A B : List ANode} {i : Nat}
    (hmA : ∀ x j, (getN A x).next = some j → x < j ∧ j < A.length)
    (hBA : ∀ x, x ≠ i → (getN B x).next =
      (if (getN A x).next = some i then (getN A i).next else (getN A x).next)) :
    ∀ (k c f1 f2 : Nat), c < A.length → A.length - c ≤ k →
      A.length - c ≤ f1 → A.length - c ≤ f2 → c ≠ i →
      chainGo B f1 (some c) = (chainGo A f2 (some c)).erase i := by
  intro k
  induction k with
  | zero =>
    intro c f1 f2 hc hk h1 h2 hci
    omega
  | succ k ih =>
    intro c f1 f2 hc hk h1 h2 hci
    obtain ⟨g1, rfl⟩ : ∃ m, f1 = m + 1 := ⟨f1 - 1, by omega⟩
    obtain ⟨g2, rfl⟩ : ∃ m, f2 = m + 1 := ⟨f2 - 1, by omega⟩
    rw [show chainGo B (g1 + 1) (some c) = c :: chainGo B g1 (getN B c).next from rfl]
    rw [show chainGo A (g2 + 1) (some c) = c :: chainGo A g2 (getN A c).next from rfl]
    rw [List.erase_cons_tail (by simp only [beq_iff_eq]; exact hci)]
    rw [hBA c hci]
    refine congrArg (List.cons c) ?_
    cases hnc : (getN A c).next with
    | none =>
      rw [if_neg (by simp), chainGo_none, chainGo_none]
      rfl
    | some d =>
      have hd := hmA c d hnc
      by_cases hdi : d = i
      · subst hdi
        rw [if_pos rfl]
        obtain ⟨g3, rfl⟩ : ∃ m, g2 = m + 1 := ⟨g2 - 1, by omega⟩
        rw [show chainGo A (g3 + 1) (some d) = d :: chainGo A g3 (getN A d).next from rfl]
        rw [List.erase_cons_head]
        cases hni : (getN A d).next with
        | none =>
          rw [chainGo_none, chainGo_none]
        | some e =>
          have he := hmA d e hni
          rw [ih e g1 g3 he.2 (by omega) (by omega) (by omega) (by omega)]
          refine List.erase_of_not_mem ?_
          intro hmem
          have := chainGo_mem_ge hmA g3 e d hmem
          omega
      · rw [if_neg (by intro hx; injection hx with hx; exact hdi hx)]
        exact ih d g1 g2 hd.2 (by omega) (by omega) (by omega) hdi

theorem unlinkOp_shape_free {A : List ANode} {i : Nat} (hi : i < A.length)
    (hpar : (getN A i).parent = none) (hprev : (getN A i).prev = none)
    (hnext : (getN A i).next = none) :
    (unlinkOp A i).length = A.length ∧
    getN (unlinkOp A i) i =
      { getN A i with parent := none, prev := none, next := none } ∧
    (∀ j, j ≠ i → getN (unlinkOp A i) j = getN A j) := by
  have hA : unlinkOp A i =
      setN A i (fun m => { m with parent := none, prev := none, next := none }) := by
    simp only [unlinkOp, hprev, hnext, hpar]
  refine ⟨?_, ?_, ?_⟩
  · rw [hA, setN_length]
  · rw [hA, getN_setN_self hi]
  · intro j hj
    rw [hA, getN_setN_ne hj]

theorem unlinkOp_shape_solo {A : List ANode} {i pa : Nat} (hi : i < A.length)
    (hpa : pa < A.length) (hpai : pa ≠ i)
    (hpar : (getN A i).parent = some pa) (hprev : (getN A i).prev = none)
    (hnext : (getN A i).next = none)
    (hfpa : (getN A pa).first = some i) (hlpa : (getN A pa).last = some i) :
    (unlinkOp A i).length = A.length ∧
    getN (unlinkOp A i) i =
      { getN A i with parent := none, prev := none, next := none } ∧
    getN (unlinkOp A i) pa = { getN A pa with first := none, last := none } ∧
    (∀ j, j ≠ i → j ≠ pa → getN (unlinkOp A i) j = getN A j) := by
  have hproj : ∀ nd : ANode, ∀ o : Option Nat,
      ({ nd with first := o } : ANode).last = nd.last := fun _ _ => rfl
  have hA : unlinkOp A i =
      setN (setN (setN A pa (fun m => { m with first := none })) pa
        (fun m => { m with last := none })) i
        (fun m => { m with parent := none, prev := none, next := none }) := by
    simp only [unlinkOp, hprev, hnext, hpar, if_pos hfpa, getN_setN_self hpa, hproj,
      if_pos hlpa]
  refine ⟨?_, ?_, ?_, ?_⟩
  · rw [hA, setN_length, setN_length, setN_length]
  · rw [hA, getN_setN_self (by rw [setN_length, setN_length]; exact hi),
      getN_setN_ne (Ne.symm hpai), getN_setN_ne (Ne.symm hpai)]
  · rw [hA, getN_setN_ne hpai, getN_setN_self (by rw [setN_length]; exact hpa),
      getN_setN_self hpa]
  · intro j hj hjpa
    rw [hA, getN_setN_ne hj, getN_setN_ne hjpa, getN_setN_ne hjpa]

theorem unlinkOp_shape_head {A : List ANode} {i pa N : Nat} (hi : i < A.length)
    (hpa : pa < A.length) (hN : N < A.length) (hpai : pa ≠ i) (hNi : N ≠ i)
    (hpaN : pa ≠ N)
    (hpar : (getN A i).parent = some pa) (hprev : (getN A i).prev = none)
    (hnext : (getN A i).next = some N)
    (hfpa : (getN A pa).first = some i) (hlpa : ¬ (getN A pa).last = some i) :
    (unlinkOp A i).length = A.length ∧
    getN (unlinkOp A i) i =
      { getN A i with parent := none, prev := none, next := none } ∧
    getN (unlinkOp A i) N = { getN A N with prev := none } ∧
    getN (unlinkOp A i) pa = { getN A pa with first := some N } ∧
    (∀ j, j ≠ i → j ≠ N → j ≠ pa → getN (unlinkOp A i) j = getN A j) := by
  have hproj : ∀ nd : ANode, ∀ o : Option Nat,
      ({ nd with first := o } : ANode).last = nd.last := fun _ _ => rfl
  have hpa2 : pa < (setN A N (fun m => { m with prev := none })).length := by
    rw [setN_length]
    exact hpa
  have hA : unlinkOp A i =
      setN (setN (setN A N (fun m => { m with prev := none })) pa
        (fun m => { m with first := some N })) i
        (fun m => { m with parent := none, prev := none, next := none }) := by
    simp only [unlinkOp, hprev, hnext, hpar, getN_setN_ne hpaN, if_pos hfpa,
      getN_setN_self hpa2, hproj, if_neg hlpa]
  refine ⟨?_, ?_, ?_, ?_, ?_⟩
  · rw [hA, setN_length, setN_length, setN_length]
  · rw [hA, getN_setN_self (by rw [setN_length, setN_length]; exact hi),
      getN_setN_ne (Ne.symm hpai), getN_setN_ne (Ne.symm hNi)]
  · rw [hA, getN_setN_ne hNi, getN_setN_ne (Ne.symm hpaN),
      getN_setN_self (by exact hN)]
  · rw [hA, getN_setN_ne hpai, getN_setN_self (by rw [setN_length]; exact hpa),
      getN_setN_ne hpaN]
  · intro j hj hjN hjpa
    rw [hA, getN_setN_ne hj, getN_setN_ne hjpa, getN_setN_ne hjN]

theorem unlinkOp_shape_tail {A : List ANode} {i pa P : Nat} (hi : i < A.length)
    (hpa : pa < A.length) (hP : P < A.length) (hpai : pa ≠ i) (hPi : P ≠ i)
    (hpaP : pa ≠ P)
    (hpar : (getN A i).parent = some pa) (hprev : (getN A i).prev = some P)
    (hnext : (getN A i).next = none)
    (hfpa : ¬ (getN A pa).first = some i) (hlpa : (getN A pa).last = some i) :
    (unlinkOp A i).length = A.length ∧
    getN (unlinkOp A i) i =
      { getN A i with parent := none, prev := none, next := none } ∧
    getN (unlinkOp A i) P = { getN A P with next := none } ∧
    getN (unlinkOp A i) pa = { getN A pa with last := some P } ∧
    (∀ j, j ≠ i → j ≠ P → j ≠ pa → getN (unlinkOp A i) j = getN A j) := by
  have hA : unlinkOp A i =
      setN (setN (setN A P (fun m => { m with next := none })) pa
        (fun m => { m with last := some P })) i
        (fun m => { m with parent := none, prev := none, next := none }) := by
    simp only [unlinkOp, hprev, hnext, hpar, getN_setN_ne hpaP, if_neg hfpa,
      if_pos hlpa]
  refine ⟨?_, ?_, ?_, ?_, ?_⟩
  · rw [hA, setN_length, setN_length, setN_length]
  · rw [hA, getN_setN_self (by rw [setN_length, setN_length]; exact hi),
      getN_setN_ne (Ne.symm hpai), getN_setN_ne (Ne.symm hPi)]
  · rw [hA, getN_setN_ne hPi, getN_setN_ne (Ne.symm hpaP),
      getN_setN_self (by exact hP)]
  · rw [hA, getN_setN_ne hpai, getN_setN_self (by rw [setN_length]; exact hpa),
      getN_setN_ne hpaP]
  · intro j hj hjP hjpa
    rw [hA, getN_setN_ne hj, getN_setN_ne hjpa, getN_setN_ne hjP]

theorem unlinkOp_shape_mid {A : List ANode} {i pa P N : Nat} (hi : i < A.length)
    (hP : P < A.length) (hN : N < A.length) (hPi : P ≠ i) (hNi : N ≠ i)
    (hPN : P ≠ N) (hpaP : pa ≠ P) (hpaN : pa ≠ N)
    (hpar : (getN A i).parent = some pa) (hprev : (getN A i).prev = some P)
    (hnext : (getN A i).next = some N)
    (hfpa : ¬ (getN A pa).first = some i) (hlpa : ¬ (getN A pa).last = some i) :
    (unlinkOp A i).length = A.length ∧
    getN (unlinkOp A i) i =
      { getN A i with parent := none, prev := none, next := none } ∧
    getN (unlinkOp A i) P = { getN A P with next := some N } ∧
    getN (unlinkOp A i) N = { getN A N with prev := some P } ∧
    (∀ j, j ≠ i → j ≠ P → j ≠ N → getN (unlinkOp A i) j = getN A j) := by
  have hA : unlinkOp A i =
      setN (setN (setN A P (fun m => { m with next := some N })) N
        (fun m => { m with prev := some P })) i
        (fun m => { m with parent := none, prev := none, next := none }) := by
    simp only [unlinkOp, hprev, hnext, hpar, getN_setN_ne hpaN, getN_setN_ne hpaP,
      if_neg hfpa, if_neg hlpa]
  refine ⟨?_, ?_, ?_, ?_, ?_⟩
  · rw [hA, setN_length, setN_length, setN_length]
  · rw [hA, getN_setN_self (by rw [setN_length, setN_length]; exact hi),
      getN_setN_ne (Ne.symm hNi), getN_setN_ne (Ne.symm hPi)]
  · rw [hA, getN_setN_ne hPi, getN_setN_ne hPN,
      getN_setN_self (by exact hP)]
  · rw [hA, getN_setN_ne hNi, getN_setN_self (by rw [setN_length]; exact hN),
      getN_setN_ne (Ne.symm hPN)]
  · intro j hj hjP hjN
    rw [hA, getN_setN_ne hj, getN_setN_ne hjN, getN_setN_ne hjP]

theorem wf_next_inv {A : List ANode} (hwf : linkWF A = true) {j k : Nat}
    (h : (getN A j).next = some k) : (getN A k).prev = some j := by
  by_cases hj : j < A.length
  · exact (((nodeWF_iff A j).mp (wf_node hwf hj)).2.1 k h).2.2.1
  · rw [getN_oob (by omega)] at h
    exact absurd h (by simp [blankNode])

theorem wf_prev_inv {A : List ANode} (hwf : linkWF A = true) {j k : Nat}
    (h : (getN A j).prev = some k) : (getN A k).next = some j := by
  by_cases hj : j < A.length
  · exact (((nodeWF_iff A j).mp (wf_node hwf hj)).2.2.1 k h).2.1
  · rw [getN_oob (by omega)] at h
    exact absurd h (by simp [blankNode])

theorem wf_first_inv {A : List ANode} (hwf : linkWF A = true) {j k : Nat}
    (h : (getN A j).first = some k) :
    (getN A k).parent = some j ∧ (getN A k).prev = none := by
  by_cases hj : j < A.length
  · have h2 := ((nodeWF_iff A j).mp (wf_node hwf hj)).2.2.2.1 k h
    exact ⟨h2.2.1, h2.2.2⟩
  · rw [getN_oob (by omega)] at h
    exact absurd h (by simp [blankNode])

theorem wf_last_inv {A : List ANode} (hwf : linkWF A = true) {j k : Nat}
    (h : (getN A j).last = some k) :
    (getN A k).parent = some j ∧ (getN A k).next = none := by
  by_cases hj : j < A.length
  · have h2 := ((nodeWF_iff A j).mp (wf_node hwf hj)).2.2.2.2.1 k h
    exact ⟨h2.2.1, h2.2.2⟩
  · rw [getN_oob (by omega)] at h
    exact absurd h (by simp [blankNode])

theorem wf_parent_not_self {A : List ANode} (hwf : linkWF A = true) {q : Nat}
    (h : (getN A q).parent = some q) : False := by
  by_cases hq : q < A.length
  · have := (((nodeWF_iff A q).mp (wf_node hwf hq)).1 q h).1
    omega
  · rw [getN_oob (by omega)] at h
    exact absurd h (by simp [blankNode])

theorem unlinkOp_fields {A : List ANode} {i : Nat}
    (hwf : linkWF A = true) (hi : i < A.length) :
    (unlinkOp A i).length = A.length ∧
    (∀ j, (getN (unlinkOp A i) j).tag = (getN A j).tag) ∧
    (∀ j, j ≠ i → (getN (unlinkOp A i) j).parent = (getN A j).parent) ∧
    (getN (unlinkOp A i) i).parent = none ∧
    (getN (unlinkOp A i) i).prev = none ∧
    (getN (unlinkOp A i) i).next = none ∧
    (getN (unlinkOp A i) i).first = (getN A i).first ∧
    (getN (unlinkOp A i) i).last = (getN A i).last ∧
    (∀ j, j ≠ i → (getN (unlinkOp A i) j).next =
      (if (getN A j).next = some i then (getN A i).next else (getN A j).next)) ∧
    (∀ j, j ≠ i → (getN (unlinkOp A i) j).prev =
      (if (getN A j).prev = some i then (getN A i).prev else (getN A j).prev)) ∧
    (∀ j, j ≠ i → (getN (unlinkOp A i) j).first =
      (if (getN A j).first = some i then (getN A i).next else (getN A j).first)) ∧
    (∀ j, j ≠ i → (getN (unlinkOp A i) j).last =
      (if (getN A j).last = some i then (getN A i).prev else (getN A j).last)) := by
  have hw := (nodeWF_iff A i).mp (wf_node hwf hi)
  cases hpar : (getN A i).parent with
  | none =>
    obtain ⟨hprev, hnext⟩ := hw.2.2.2.2.2.2 hpar
    obtain ⟨hlen, hgi, hoth⟩ := unlinkOp_shape_free hi hpar hprev hnext
    refine ⟨hlen, ?_, ?_, ?_, ?_, ?_, ?_, ?_, ?_, ?_, ?_, ?_⟩
    · intro j
      by_cases hj : j = i
      · subst hj
        rw [hgi]
      · rw [hoth j hj]
    · intro j hj
      rw [hoth j hj]
    · rw [hgi]
    · rw [hgi]
    · rw [hgi]
    · rw [hgi]
    · rw [hgi]
    · intro j hj
      rw [hoth j hj, if_neg (fun hc =>
        Option.noConfusion ((wf_next_inv hwf hc).symm.trans hprev))]
    · intro j hj
      rw [hoth j hj, if_neg (fun hc =>
        Option.noConfusion ((wf_prev_inv hwf hc).symm.trans hnext))]
    · intro j hj
      rw [hoth j hj, if_neg (fun hc =>
        Option.noConfusion (((wf_first_inv hwf hc).1).symm.trans hpar))]
    · intro j hj
      rw [hoth j hj, if_neg (fun hc =>
        Option.noConfusion (((wf_last_inv hwf hc).1).symm.trans hpar))]
  | some pa =>
    have hpalt : pa < i := (hw.1 pa hpar).1
    have hpalen : pa < A.length := by omega
    have hpai : pa ≠ i := by omega
    have hcorr := wf_first_parent hwf hi hpar
    cases hprev : (getN A i).prev with
    | none =>
      have hfpa : (getN A pa).first = some i := hcorr.1.mp hprev
      cases hnext : (getN A i).next with
      | none =>
        have hlpa : (getN A pa).last = some i := hcorr.2.mp hnext
        obtain ⟨hlen, hgi, hgpa, hoth⟩ :=
          unlinkOp_shape_solo hi hpalen hpai hpar hprev hnext hfpa hlpa
        refine ⟨hlen, ?_, ?_, ?_, ?_, ?_, ?_, ?_, ?_, ?_, ?_, ?_⟩
        · intro j
          by_cases hj : j = i
          · subst hj
            rw [hgi]
          · by_cases hjpa : j = pa
            · subst hjpa
              rw [hgpa]
            · rw [hoth j hj hjpa]
        · intro j hj
          by_cases hjpa : j = pa
          · subst hjpa
            rw [hgpa]
          · rw [hoth j hj hjpa]
        · rw [hgi]
        · rw [hgi]
        · rw [hgi]
        · rw [hgi]
        · rw [hgi]
        · intro j hj
          have hcond : ¬ (getN A j).next = some i := fun hc =>
            Option.noConfusion ((wf_next_inv hwf hc).symm.trans hprev)
          rw [if_neg hcond]
          by_cases hjpa : j = pa
          · subst hjpa
            rw [hgpa]
          · rw [hoth j hj hjpa]
        · intro j hj
          have hcond : ¬ (getN A j).prev = some i := fun hc =>
            Option.noConfusion ((wf_prev_inv hwf hc).symm.trans hnext)
          rw [if_neg hcond]
          by_cases hjpa : j = pa
          · subst hjpa
            rw [hgpa]
          · rw [hoth j hj hjpa]
        · intro j hj
          by_cases hjpa : j = pa
          · subst hjpa
            rw [hgpa, if_pos hfpa]
          · rw [hoth j hj hjpa, if_neg (fun hc => hjpa
              (Option.some.inj (hpar.symm.trans (wf_first_inv hwf hc).1)).symm)]
        · intro j hj
          by_cases hjpa : j = pa
          · subst hjpa
            rw [hgpa, if_pos hlpa]
          · rw [hoth j hj hjpa, if_neg (fun hc => hjpa
              (Option.some.inj (hpar.symm.trans (wf_last_inv hwf hc).1)).symm)]
      | some N =>
        have hlpa : ¬ (getN A pa).last = some i := fun h =>
          Option.noConfusion ((hcorr.2.mpr h).symm.trans hnext)
        have hN2 := hw.2.1 N hnext
        have hNlen : N < A.length := hN2.2.1
        have hNi : N ≠ i := by omega
        have hprevN : (getN A N).prev = some i := hN2.2.2.1
        have hparN : (getN A N).parent = some pa := by
          rw [hN2.2.2.2, hpar]
        have hpaN : pa ≠ N := by
          intro he
          rw [← he] at hparN
          exact wf_parent_not_self hwf hparN
        obtain ⟨hlen, hgi, hgN, hgpa, hoth⟩ :=
          unlinkOp_shape_head hi hpalen hNlen hpai hNi hpaN hpar hprev hnext hfpa hlpa
        refine ⟨hlen, ?_, ?_, ?_, ?_, ?_, ?_, ?_, ?_, ?_, ?_, ?_⟩
        · intro j
          by_cases hj : j = i
          · subst hj
            rw [hgi]
          · by_cases hjN : j = N
            · subst hjN
              rw [hgN]
            · by_cases hjpa : j = pa
              · subst hjpa
                rw [hgpa]
              · rw [hoth j hj hjN hjpa]
        · intro j hj
          by_cases hjN : j = N
          · subst hjN
            rw [hgN]
          · by_cases hjpa : j = pa
            · subst hjpa
              rw [hgpa]
            · rw [hoth j hj hjN hjpa]
        · rw [hgi]
        · rw [hgi]
        · rw [hgi]
        · rw [hgi]
        · rw [hgi]
        · intro j hj
          have hcond : ¬ (getN A j).next = some i := fun hc =>
            Option.noConfusion ((wf_next_inv hwf hc).symm.trans hprev)
          rw [if_neg hcond]
          by_cases hjN : j = N
          · subst hjN
            rw [hgN]
          · by_cases hjpa : j = pa
            · subst hjpa
              rw [hgpa]
            · rw [hoth j hj hjN hjpa]
        · intro j hj
          by_cases hjN : j = N
          · subst hjN
            rw [hgN, if_pos hprevN]
          · rw [if_neg (fun hc => hjN
              (Option.some.inj ((wf_prev_inv hwf hc).symm.trans hnext)))]
            by_cases hjpa : j = pa
            · subst hjpa
              rw [hgpa]
            · rw [hoth j hj hjN hjpa]
        · intro j hj
          by_cases hjpa : j = pa
          · subst hjpa
            rw [hgpa, if_pos hfpa]
          · rw [if_neg (fun hc => hjpa
              (Option.some.inj (hpar.symm.trans (wf_first_inv hwf hc).1)).symm)]
            by_cases hjN : j = N
            · subst hjN
              rw [hgN]
            · rw [hoth j hj hjN hjpa]
        · intro j hj
          have hcond : ∀ x, ¬ (getN A x).last = some i := by
            intro x hc
            have h9 := (wf_last_inv hwf hc).1
            rw [hpar] at h9
            injection h9 with h9
            subst h9
            exact hlpa hc
          rw [if_neg (hcond j)]
          by_cases hjN : j = N
          · subst hjN
            rw [hgN]
          · by_cases hjpa : j = pa
            · subst hjpa
              rw [hgpa]
            · rw [hoth j hj hjN hjpa]
    | some P =>
      have hfpa : ¬ (getN A pa).first = some i := fun h =>
        Option.noConfusion ((hcorr.1.mpr h).symm.trans hprev)
      have hP2 := hw.2.2.1 P hprev
      have hPlt : P < i := hP2.1
      have hPlen : P < A.length := by omega
      have hPi : P ≠ i := by omega
      have hnextP : (getN A P).next = some i := hP2.2.1
      have hparP : (getN A P).parent = some pa := by
        rw [hP2.2.2, hpar]
      have hpaP : pa ≠ P := by
        intro he
        rw [← he] at hparP
        exact wf_parent_not_self hwf hparP
      cases hnext : (getN A i).next with
      | none =>
        have hlpa : (getN A pa).last = some i := hcorr.2.mp hnext
        obtain ⟨hlen, hgi, hgP, hgpa, hoth⟩ :=
          unlinkOp_shape_tail hi hpalen hPlen hpai hPi hpaP hpar hprev hnext hfpa hlpa
        refine ⟨hlen, ?_, ?_, ?_, ?_, ?_, ?_, ?_, ?_, ?_, ?_, ?_⟩
        · intro j
          by_cases hj : j = i
          · subst hj
            rw [hgi]
          · by_cases hjP : j = P
            · subst hjP
              rw [hgP]
            · by_cases hjpa : j = pa
              · subst hjpa
                rw [hgpa]
              · rw [hoth j hj hjP hjpa]
        · intro j hj
          by_cases hjP : j = P
          · subst hjP
            rw [hgP]
          · by_cases hjpa : j = pa
            · subst hjpa
              rw [hgpa]
            · rw [hoth j hj hjP hjpa]
        · rw [hgi]
        · rw [hgi]
        · rw [hgi]
        · rw [hgi]
        · rw [hgi]
        · intro j hj
          by_cases hjP : j = P
          · subst hjP
            rw [hgP, if_pos hnextP]
          · rw [if_neg (fun hc => hjP
              (Option.some.inj (hprev.symm.trans (wf_next_inv hwf hc))).symm)]
            by_cases hjpa : j = pa
            · subst hjpa
              rw [hgpa]
            · rw [hoth j hj hjP hjpa]
        · intro j hj
          have hcond : ¬ (getN A j).prev = some i := fun hc =>
            Option.noConfusion ((wf_prev_inv hwf hc).symm.trans hnext)
          rw [if_neg hcond]
          by_cases hjP : j = P
          · subst hjP
            rw [hgP]
          · by_cases hjpa : j = pa
            · subst hjpa
              rw [hgpa]
            · rw [hoth j hj hjP hjpa]
        · intro j hj
          have hcond : ∀ x, ¬ (getN A x).first = some i := by
            intro x hc
            have h9 := (wf_first_inv hwf hc).1
            rw [hpar] at h9
            injection h9 with h9
            subst h9
            exact hfpa hc
          rw [if_neg (hcond j)]
          by_cases hjP : j = P
          · subst hjP
            rw [hgP]
          · by_cases hjpa : j = pa
            · subst hjpa
              rw [hgpa]
            · rw [hoth j hj hjP hjpa]
        · intro j hj
          by_cases hjpa : j = pa
          · subst hjpa
            rw [hgpa, if_pos hlpa]
          · rw [if_neg (fun hc => hjpa
              (Option.some.inj (hpar.symm.trans (wf_last_inv hwf hc).1)).symm)]
            by_cases hjP : j = P
            · subst hjP
              rw [hgP]
            · rw [hoth j hj hjP hjpa]
      | some N =>
        have hlpa : ¬ (getN A pa).last = some i := fun h =>
          Option.noConfusion ((hcorr.2.mpr h).symm.trans hnext)
        have hN2 := hw.2.1 N hnext
        have hNlen : N < A.length := hN2.2.1
        have hNi : N ≠ i := by omega
        have hPN : P ≠ N := by omega
        have hprevN : (getN A N).prev = some i := hN2.2.2.1
        have hparN : (getN A N).parent = some pa := by
          rw [hN2.2.2.2, hpar]
        have hpaN : pa ≠ N := by
          intro he
          rw [← he] at hparN
          exact wf_parent_not_self hwf hparN
        obtain ⟨hlen, hgi, hgP, hgN, hoth⟩ :=
          unlinkOp_shape_mid hi hPlen hNlen hPi hNi hPN hpaP hpaN hpar hprev hnext hfpa hlpa
        refine ⟨hlen, ?_, ?_, ?_, ?_, ?_, ?_, ?_, ?_, ?_, ?_, ?_⟩
        · intro j
          by_cases hj : j = i
          · subst hj
            rw [hgi]
          · by_cases hjP : j = P
            · subst hjP
              rw [hgP]
            · by_cases hjN : j = N
              · subst hjN
                rw [hgN]
              · rw [hoth j hj hjP hjN]
        · intro j hj
          by_cases hjP : j = P
          · subst hjP
            rw [hgP]
          · by_cases hjN : j = N
            · subst hjN
              rw [hgN]
            · rw [hoth j hj hjP hjN]
        · rw [hgi]
        · rw [hgi]
        · rw [hgi]
        · rw [hgi]
        · rw [hgi]
        · intro j hj
          by_cases hjP : j = P
          · subst hjP
            rw [hgP, if_pos hnextP]
          · rw [if_neg (fun hc => hjP
              (Option.some.inj (hprev.symm.trans (wf_next_inv hwf hc))).symm)]
            by_cases hjN : j = N
            · subst hjN
              rw [hgN]
            · rw [hoth j hj hjP hjN]
        · intro j hj
          by_cases hjN : j = N
          · subst hjN
            rw [hgN, if_pos hprevN]
          · rw [if_neg (fun hc => hjN
              (Option.some.inj ((wf_prev_inv hwf hc).symm.trans hnext)))]
            by_cases hjP : j = P
            · subst hjP
              rw [hgP]
            · rw [hoth j hj hjP hjN]
        · intro j hj
          have hcond : ∀ x, ¬ (getN A x).first = some i := by
            intro x hc
            have h9 := (wf_first_inv hwf hc).1
            rw [hpar] at h9
            injection h9 with h9
            subst h9
            exact hfpa hc
          rw [if_neg (hcond j)]
          by_cases hjP : j = P
          · subst hjP
            rw [hgP]
          · by_cases hjN : j = N
            · subst hjN
              rw [hgN]
            · rw [hoth j hj hjP hjN]
        · intro j hj
          have hcond : ∀ x, ¬ (getN A x).last = some i := by
            intro x hc
            have h9 := (wf_last_inv hwf hc).1
            rw [hpar] at h9
            injection h9 with h9
            subst h9
            exact hlpa hc
          rw [if_neg (hcond j)]
          by_cases hjP : j = P
          · subst hjP
            rw [hgP]
          · by_cases hjN : j = N
            · subst hjN
              rw [hgN]
            · rw [hoth j hj hjP hjN]

theorem childChain_unlinkOp {A : List ANode} (hwf : linkWF A = true) {i : Nat}
    (hi : i < A.length) :
    ∀ q, childChain (unlinkOp A i) q = (childChain A q).erase i := by
  obtain ⟨hlen, htag, hparf, hpari, hprevi, hnexti, hfirsti, hlasti, hnx, hpv,
    hfst, hlst⟩ := unlinkOp_fields hwf hi
  have hmono := wf_next_mono hwf
  intro q
  rw [childChain, childChain, hlen]
  by_cases hql : q < A.length
  · by_cases hqi : q = i
    · subst hqi
      rw [hfirsti]
      cases hf : (getN A q).first with
      | none =>
        rw [chainGo_none, chainGo_none]
        rfl
      | some c =>
        have hc := ((nodeWF_iff A q).mp (wf_node hwf hi)).2.2.2.1 c hf
        have heq : chainGo (unlinkOp A q) A.length (some c) =
            chainGo A A.length (some c) := by
          refine chainGo_congr _ _ _ _ ?_
          intro x hx
          have hxpar : (getN A x).parent = some q := by
            have h7 := chainGo_mem_parent (wf_next_parent hwf) _ _ _ hx
            rw [h7, hc.2.1]
          have hxi : x ≠ q := fun he => wf_parent_not_self hwf (he ▸ hxpar)
          have hcnd : ¬ (getN A x).next = some q := by
            intro hcc
            have h8 := wf_next_inv hwf hcc
            have h9 := ((nodeWF_iff A q).mp (wf_node hwf hi)).2.2.1 x h8
            exact wf_parent_not_self hwf (h9.2.2.symm.trans hxpar)
          rw [hnx x hxi, if_neg hcnd]
        rw [heq]
        refine (List.erase_of_not_mem ?_).symm
        intro hmem
        have h7 := chainGo_mem_parent (wf_next_parent hwf) _ _ _ hmem
        rw [hc.2.1] at h7
        exact wf_parent_not_self hwf h7
    · rw [hfst q hqi]
      by_cases hfi : (getN A q).first = some i
      · rw [if_pos hfi, hfi]
        have hcorr := wf_first_inv hwf hfi
        obtain ⟨g, hg⟩ : ∃ m, A.length = m + 1 := ⟨A.length - 1, by omega⟩
        rw [hg]
        rw [show chainGo A (g + 1) (some i) = i :: chainGo A g (getN A i).next
          from rfl]
        rw [List.erase_cons_head]
        cases hni : (getN A i).next with
        | none =>
          rw [chainGo_none, chainGo_none]
        | some N =>
          have hN := hmono i N hni
          rw [chainGo_skip hmono hnx A.length N (g + 1) g hN.2 (by omega)
            (by omega) (by omega) (by omega)]
          refine List.erase_of_not_mem ?_
          intro hmem
          have := chainGo_mem_ge hmono g N i hmem
          omega
      · rw [if_neg hfi]
        cases hf : (getN A q).first with
        | none =>
          rw [chainGo_none, chainGo_none]
          rfl
        | some c =>
          have hc := ((nodeWF_iff A q).mp (wf_node hwf hql)).2.2.2.1 c hf
          have hci : c ≠ i := fun he => hfi (he ▸ hf)
          exact chainGo_skip hmono hnx A.length c A.length A.length hc.1
            (by omega) (by omega) (by omega) hci
  · rw [getN_oob (by rw [hlen]; omega), getN_oob (by omega)]
    dsimp only [blankNode]
    rw [chainGo_none, chainGo_none]
    rfl

theorem unlinkOp_WF {A : List ANode} {i : Nat}
    (hwf : linkWF A = true) (hi : i < A.length) :
    linkWF (unlinkOp A i) = true := by
  obtain ⟨hlen, htag, hparf, hpari, hprevi, hnexti, hfirsti, hlasti, hnx, hpv,
    hfst, hlst⟩ := unlinkOp_fields hwf hi
  have hchain := childChain_unlinkOp hwf hi
  obtain ⟨⟨hpos, htag0, hpar0, hprev0, hnext0⟩, hnodes⟩ := (linkWF_iff A).mp hwf
  rw [linkWF_iff]
  constructor
  · refine ⟨by rw [hlen]; omega, ?_, ?_, ?_, ?_⟩
    · rw [htag 0, htag0]
    · by_cases h0 : (0 : Nat) = i
      · rw [h0]
        exact hpari
      · rw [hparf 0 h0, hpar0]
    · by_cases h0 : (0 : Nat) = i
      · rw [h0]
        exact hprevi
      · rw [hpv 0 h0, hprev0, if_neg (by simp)]
    · by_cases h0 : (0 : Nat) = i
      · rw [h0]
        exact hnexti
      · rw [hnx 0 h0, hnext0, if_neg (by simp)]
  · intro j hj
    rw [hlen] at hj
    rw [nodeWF_iff, hlen]
    by_cases hji : j = i
    · subst hji
      refine ⟨?_, ?_, ?_, ?_, ?_, ?_, ?_⟩
      · rw [hpari]
        intro q hq
        exact Option.noConfusion hq
      · rw [hnexti]
        intro k hk
        exact Option.noConfusion hk
      · rw [hprevi]
        intro k hk
        exact Option.noConfusion hk
      · rw [hfirsti]
        intro c hc
        have h4 := ((nodeWF_iff A j).mp (wf_node hwf hj)).2.2.2.1 c hc
        have hci : c ≠ j := fun he =>
          wf_parent_not_self hwf (he ▸ h4.2.1)
        refine ⟨by omega, ?_, ?_⟩
        · rw [hparf c hci]
          exact h4.2.1
        · rw [hpv c hci, h4.2.2, if_neg (by simp)]
      · rw [hlasti]
        intro c hc
        have h5 := ((nodeWF_iff A j).mp (wf_node hwf hj)).2.2.2.2.1 c hc
        have hci : c ≠ j := fun he =>
          wf_parent_not_self hwf (he ▸ h5.2.1)
        refine ⟨by omega, ?_, ?_⟩
        · rw [hparf c hci]
          exact h5.2.1
        · rw [hnx c hci, h5.2.2, if_neg (by simp)]
      · rw [hfirsti, hlasti]
        exact ((nodeWF_iff A j).mp (wf_node hwf hj)).2.2.2.2.2.1
      · rw [hpari]
        intro _
        exact ⟨hprevi, hnexti⟩
    · have hwj := (nodeWF_iff A j).mp (wf_node hwf hj)
      refine ⟨?_, ?_, ?_, ?_, ?_, ?_, ?_⟩
      · rw [hparf j hji]
        intro q hq
        have h1 := hwj.1 q hq
        refine ⟨h1.1, ?_⟩
        rw [hchain q]
        exact (List.mem_erase_of_ne hji).mpr h1.2
      · rw [hnx j hji]
        by_cases hc : (getN A j).next = some i
        · rw [if_pos hc]
          have h2 := hwj.2.1 i hc
          intro k hk
          have h3 := ((nodeWF_iff A i).mp (wf_node hwf hi)).2.1 k hk
          have hki : k ≠ i := by omega
          refine ⟨by omega, by omega, ?_, ?_⟩
          · rw [hpv k hki, h3.2.2.1, if_pos rfl]
            exact h2.2.2.1
          · rw [hparf k hki, hparf j hji, h3.2.2.2, h2.2.2.2]
        · rw [if_neg hc]
          intro k hk
          have h3 := hwj.2.1 k hk
          have hki : k ≠ i := fun he => hc (he ▸ hk)
          refine ⟨h3.1, by omega, ?_, ?_⟩
          · rw [hpv k hki, h3.2.2.1,
              if_neg (by intro hx; injection hx with hx; exact hji hx)]
          · rw [hparf k hki, hparf j hji, h3.2.2.2]
      · rw [hpv j hji]
        by_cases hc : (getN A j).prev = some i
        · rw [if_pos hc]
          have h2 := hwj.2.2.1 i hc
          intro k hk
          have h3 := ((nodeWF_iff A i).mp (wf_node hwf hi)).2.2.1 k hk
          have hki : k ≠ i := by omega
          refine ⟨by omega, ?_, ?_⟩
          · rw [hnx k hki, h3.2.1, if_pos rfl]
            exact h2.2.1
          · rw [hparf k hki, hparf j hji, h3.2.2, h2.2.2]
        · rw [if_neg hc]
          intro k hk
          have h3 := hwj.2.2.1 k hk
          have hki : k ≠ i := fun he => hc (he ▸ hk)
          refine ⟨h3.1, ?_, ?_⟩
          · rw [hnx k hki, h3.2.1,
              if_neg (by intro hx; injection hx with hx; exact hji hx)]
          · rw [hparf k hki, hparf j hji, h3.2.2]
      · rw [hfst j hji]
        by_cases hc : (getN A j).first = some i
        · rw [if_pos hc]
          have h4 := wf_first_inv hwf hc
          intro k hk
          have h3 := ((nodeWF_iff A i).mp (wf_node hwf hi)).2.1 k hk
          have hki : k ≠ i := by omega
          refine ⟨by omega, ?_, ?_⟩
          · rw [hparf k hki, h3.2.2.2, h4.1]
          · rw [hpv k hki, h3.2.2.1, if_pos rfl]
            exact h4.2
        · rw [if_neg hc]
          intro k hk
          have hki : k ≠ i := fun he => hc (he ▸ hk)
          have h3 := hwj.2.2.2.1 k hk
          refine ⟨by omega, ?_, ?_⟩
          · rw [hparf k hki]
            exact h3.2.1
          · rw [hpv k hki, h3.2.2, if_neg (by simp)]
      · rw [hlst j hji]
        by_cases hc : (getN A j).last = some i
        · rw [if_pos hc]
          have h4 := wf_last_inv hwf hc
          intro k hk
          have h3 := ((nodeWF_iff A i).mp (wf_node hwf hi)).2.2.1 k hk
          have hki : k ≠ i := by omega
          refine ⟨by omega, ?_, ?_⟩
          · rw [hparf k hki, h3.2.2, h4.1]
          · rw [hnx k hki, h3.2.1, if_pos rfl]
            exact h4.2
        · rw [if_neg hc]
          intro k hk
          have hki : k ≠ i := fun he => hc (he ▸ hk)
          have h3 := hwj.2.2.2.2.1 k hk
          refine ⟨by omega, ?_, ?_⟩
          · rw [hparf k hki]
            exact h3.2.1
          · rw [hnx k hki, h3.2.2, if_neg (by simp)]
      · rw [hfst j hji, hlst j hji]
        by_cases hfc : (getN A j).first = some i
        · rw [if_pos hfc]
          by_cases hlc : (getN A j).last = some i
          · rw [if_pos hlc]
            rw [(wf_last_inv hwf hlc).2, (wf_first_inv hwf hfc).2]
          · rw [if_neg hlc]
            cases hl : (getN A j).last with
            | none =>
              have h9 := (hwj.2.2.2.2.2.1).mpr hl
              rw [h9] at hfc
              exact absurd hfc (by simp)
            | some l =>
              cases hni : (getN A i).next with
              | some N => exact iff_of_false (by simp) (by simp)
              | none =>
                have hcor := wf_first_parent hwf hi (wf_first_inv hwf hfc).1
                exact absurd (hcor.2.mp hni) hlc
        · rw [if_neg hfc]
          by_cases hlc : (getN A j).last = some i
          · rw [if_pos hlc]
            cases hf : (getN A j).first with
            | none =>
              have h9 := (hwj.2.2.2.2.2.1).mp hf
              rw [h9] at hlc
              exact absurd hlc (by simp)
            | some c =>
              cases hpi2 : (getN A i).prev with
              | some P => exact iff_of_false (by simp) (by simp)
              | none =>
                have hcor := wf_first_parent hwf hi (wf_last_inv hwf hlc).1
                exact absurd (hcor.1.mp hpi2) hfc
          · rw [if_neg hlc]
            exact hwj.2.2.2.2.2.1
      · rw [hparf j hji]
        intro hpn
        have h7 := hwj.2.2.2.2.2.2 hpn
        constructor
        · rw [hpv j hji, h7.1, if_neg (by simp)]
        · rw [hnx j hji, h7.2, if_neg (by simp)]

theorem reachable_WF : ∀ {A : List ANode}, Reachable A → linkWF A = true := by
  intro A h
  induction h with
  | init => decide
  | append p tag h hp ih => exact appendOp_WF tag ih hp
  | unlink i h hi ih => exact unlinkOp_WF ih hi

/-- **C9.** Every arena reachable from the root-only initial heap by
`html_node_append` and `html_node_unlink` is a well-formed tree: `linkWF`
holds throughout (all parent/first_child/last_child/prev_sibling/next_sibling
pointers mutually consistent), the root keeps tag "root", no parent and no
siblings, every node with a parent occurs exactly once in that parent's child
walk, `html_node_append` adds the fresh node at the end of the parent's child
list leaving every other child list unchanged (insertion order), and
`html_node_unlink` removes exactly the unlinked node from the child lists. -/
theorem c9_tree_wf :
    (∀ A, Reachable A → linkWF A = true) ∧
    (∀ A, Reachable A → (getN A 0).tag = "root" ∧ (getN A 0).parent = none ∧
      (getN A 0).prev = none ∧ (getN A 0).next = none) ∧
    (∀ A, linkWF A = true → ∀ i q, (getN A i).parent = some q →
      (childChain A q).count i = 1) ∧
    (∀ A p tag, linkWF A = true → p < A.length →
      childChain (appendOp A p tag) p = childChain A p ++ [A.length] ∧
      (∀ q, q ≠ p → childChain (appendOp A p tag) q = childChain A q)) ∧
    (∀ A i, linkWF A = true → i < A.length →
      ∀ q, childChain (unlinkOp A i) q = (childChain A q).erase i) := by
  refine ⟨fun A h => reachable_WF h, ?_, ?_, ?_, ?_⟩
  · intro A h
    have h2 := ((linkWF_iff A).mp (reachable_WF h)).1
    exact ⟨h2.2.1, h2.2.2.1, h2.2.2.2.1, h2.2.2.2.2⟩
  · intro A hwf i q hq
    by_cases hil : i < A.length
    · have h1 := ((nodeWF_iff A i).mp (wf_node hwf hil)).1 q hq
      exact List.count_eq_one_of_mem (childChain_nodup hwf q) h1.2
    · rw [getN_oob (by omega)] at hq
      exact absurd hq (by simp [blankNode])
  · intro A p tag hwf hp
    have h4 := childChain_appendOp hwf hp tag
    refine ⟨?_, ?_⟩
    · rw [h4 p, if_pos rfl]
    · intro q hq
      rw [h4 q, if_neg hq]
  · intro A i hwf hi
    exact childChain_unlinkOp hwf hi

theorem c9_tree_wf_witness :
    linkWF (appendOp initArena 0 "p") = true ∧
    (getN (appendOp initArena 0 "p") 0).tag = "root" ∧
    (childChain (appendOp initArena 0 "p") 0).count 1 = 1 ∧
    childChain (appendOp initArena 0 "p") 0 = childChain initArena 0 ++ [1] ∧
    childChain (unlinkOp (appendOp initArena 0 "p") 1) 0 =
      (childChain (appendOp initArena 0 "p") 0).erase 1 := by
  have hr : Reachable (appendOp initArena 0 "p") :=
    Reachable.append 0 "p" Reachable.init (by decide)
  refine ⟨c9_tree_wf.1 _ hr, (c9_tree_wf.2.1 _ hr).1, ?_, ?_, ?_⟩
  · exact c9_tree_wf.2.2.1 _ (c9_tree_wf.1 _ hr) 1 0 (by decide)
  · exact (c9_tree_wf.2.2.2.1 initArena 0 "p" (by decide) (by decide)).1
  · exact c9_tree_wf.2.2.2.2 (appendOp initArena 0 "p") 1 (c9_tree_wf.1 _ hr)
      (by decide) 0

end Retronews
